import Mathlib

/-!
Verification of the mmap-tools library: a shallow embedding of its tree
model (models.py), markup codec (reader.py / writer.py) and outline codec
(markdown.py), together with theorems settling the specification claims.

Python strings are modelled as lists of characters (abbrev LC); Python
dictionaries as ordered association lists; Python exceptions as an
Except monad over the PyErr type.  Stateful tree mutation (models.py)
is modelled by explicit state passing over a heap of nodes indexed by
natural numbers.
-/

set_option maxHeartbeats 1000000

namespace MT

/-- Python strings, modelled as lists of characters. -/
abbrev LC := List Char

/-- Conversion from a Lean string literal to the character-list model. -/
def lc (s : String) : LC := s.data

/-- The whitespace characters stripped by the Python str.strip family
(ASCII core of the Python whitespace class; all inputs considered here
use only these). -/
def isWS (c : Char) : Bool :=
  c = ' ' || c = '\t' || c = '\n' || c = '\r' || c = '\x0b' || c = '\x0c'

/-- Python str.lstrip with no argument. -/
def lstripL (s : LC) : LC := s.dropWhile isWS

/-- Python str.rstrip with no argument. -/
def rstripL (s : LC) : LC := (s.reverse.dropWhile isWS).reverse

/-- Python str.strip with no argument. -/
def stripL (s : LC) : LC := rstripL (lstripL s)

/-- Python str.startswith. -/
def pfx : LC → LC → Bool
  | [], _ => true
  | _ :: _, [] => false
  | p :: ps, c :: cs => p == c && pfx ps cs

/-- Split a string on the newline character, Python str.split with
separator a newline: n separators yield n+1 pieces. -/
def splitNL : LC → List LC
  | [] => [[]]
  | c :: t =>
    match splitNL t with
    | [] => [[]]
    | r :: rs => if c = '\n' then [] :: r :: rs else (c :: r) :: rs

/-- Join a list of lines with newline characters, Python str.join. -/
def joinNL (ls : List LC) : LC := (ls.intersperse (lc "\n")).flatten

/-- Fuelled digit rendering; the fuel only bounds the recursion depth
and any fuel of at least the number of digits gives the same result. -/
def natToCFuel : Nat → Nat → LC
  | 0, _ => []
  | f + 1, n =>
    if n < 10 then [Char.ofNat (48 + n)]
    else natToCFuel f (n / 10) ++ [Char.ofNat (48 + n % 10)]

/-- Decimal digit characters of a natural number, most significant first
(Python str of a nonnegative int). -/
def natToC (n : Nat) : LC := natToCFuel (n + 1) n

/-- Python str of an int (sign and decimal digits). -/
def intToC (i : Int) : LC := if i < 0 then '-' :: natToC (-i).toNat else natToC i.toNat

/-- Numeric value of a list of decimal digit characters
(Python int on a digit string). -/
def natOfDigits (ds : LC) : Nat := ds.foldl (fun a c => 10 * a + (c.toNat - 48)) 0

/-- Zero-pad to two digits (strftime field formats such as percent-m). -/
def pad2 (n : Nat) : LC := if n < 10 then '0' :: natToC n else natToC n

/-- Leap year rule of the proleptic Gregorian calendar used by
Python datetime. -/
def isLeap (y : Nat) : Bool := (y % 4 = 0 && y % 100 ≠ 0) || y % 400 = 0

/-- Days in a month, as validated by the Python datetime constructor. -/
def daysInMonth (y m : Nat) : Nat :=
  if m = 2 then (if isLeap y then 29 else 28)
  else if m = 4 || m = 6 || m = 9 || m = 11 then 30
  else 31

/-- Naive Python datetime value (the microsecond field is always zero in
every value this library produces or consumes, so it is omitted). -/
structure DateTime where
  year : Nat
  month : Nat
  day : Nat
  hour : Nat := 0
  minute : Nat := 0
  second : Nat := 0
deriving DecidableEq, Repr

/-- Validity of a DateTime exactly as enforced by the datetime
constructor: this is an invariant of every Python datetime object. -/
def validDT (d : DateTime) : Bool :=
  1 ≤ d.year && d.year ≤ 9999 && 1 ≤ d.month && d.month ≤ 12 &&
  1 ≤ d.day && d.day ≤ daysInMonth d.year d.month &&
  d.hour ≤ 23 && d.minute ≤ 59 && d.second ≤ 59

/-- Python exceptions distinguished by this development. -/
inductive PyErr where
  | valueError
  | overflowError
  | keyError
deriving DecidableEq, Repr

/-- MindManager task priority levels (models.TaskPriority); the numeric
code strings are "1" (high), "2" (medium), "3" (low) and "" (none). -/
inductive Priority where
  | none
  | high
  | medium
  | low
deriving DecidableEq, Repr

/-- The code string of a priority (the TaskPriority enum value). -/
def priCode : Priority → LC
  | .none => []
  | .high => lc "1"
  | .medium => lc "2"
  | .low => lc "3"

/-- TaskPriority lookup by value; an unrecognized code raises ValueError,
which reader._parse_task catches and turns into NONE, so the composition
is total (reader.py lines 163-167). -/
def priOfCode (s : LC) : Priority :=
  if s = lc "1" then .high
  else if s = lc "2" then .medium
  else if s = lc "3" then .low
  else .none

/-- Derived task status (models.TaskStatus). -/
inductive TaskStatus where
  | notStarted
  | inProgress
  | complete
deriving DecidableEq, Repr

/-- Task metadata attached to a topic (models.Task). -/
structure Task where
  percentage : Int := 0
  priority : Priority := .none
  due : Option DateTime := Option.none
  start : Option DateTime := Option.none
deriving DecidableEq, Repr

/-- models.Task.status: derived from the percentage alone. -/
def Task.status (t : Task) : TaskStatus :=
  if t.percentage ≥ 100 then .complete
  else if t.percentage > 0 then .inProgress
  else .notStarted

/-- A hyperlink attached to a topic (models.Hyperlink). -/
structure Hyperlink where
  url : LC := []
  text : LC := []
deriving DecidableEq, Repr

/-- A note attached to a topic (models.Note). -/
structure Note where
  plain : LC := []
  html : LC := []
deriving DecidableEq, Repr

/-- An icon marker attached to a topic (models.IconMarker). -/
structure IconMarker where
  iconType : LC := []
  iconSignature : LC := []
deriving DecidableEq, Repr

/-- A topic node of the in-memory tree (models.Topic).  The parent
back-reference is derived from the tree shape and therefore not stored;
the heap model below covers the mutating operations that need it. -/
inductive Topic where
  | mk (oid : LC) (text : LC) (task : Option Task) (icons : List IconMarker)
       (links : List Hyperlink) (note : Option Note) (styleXml : Option LC)
       (rawAttribs : List (LC × LC)) (children : List Topic)

def Topic.oid : Topic → LC
  | .mk o _ _ _ _ _ _ _ _ => o

def Topic.text : Topic → LC
  | .mk _ t _ _ _ _ _ _ _ => t

def Topic.task : Topic → Option Task
  | .mk _ _ tk _ _ _ _ _ _ => tk

def Topic.icons : Topic → List IconMarker
  | .mk _ _ _ ic _ _ _ _ _ => ic

def Topic.links : Topic → List Hyperlink
  | .mk _ _ _ _ li _ _ _ _ => li

def Topic.note : Topic → Option Note
  | .mk _ _ _ _ _ no _ _ _ => no

def Topic.styleXml : Topic → Option LC
  | .mk _ _ _ _ _ _ st _ _ => st

def Topic.rawAttribs : Topic → List (LC × LC)
  | .mk _ _ _ _ _ _ _ ra _ => ra

def Topic.children : Topic → List Topic
  | .mk _ _ _ _ _ _ _ _ cs => cs

/-- A topic with only a text, all other fields at their Python dataclass
defaults (Topic(text=...)). -/
def Topic.base (text : LC) : Topic :=
  .mk [] text Option.none [] [] Option.none Option.none [] []

/-- Replace the children list of a topic. -/
def Topic.withChildren : Topic → List Topic → Topic
  | .mk o t tk ic li no st ra _, cs => .mk o t tk ic li no st ra cs

mutual

/-- models.Topic.walk: the node followed by the pre-order walks of its
children, in order. -/
def Topic.walk : Topic → List Topic
  | .mk o t tk ic li no st ra cs => .mk o t tk ic li no st ra cs :: Topic.walkList cs

def Topic.walkList : List Topic → List Topic
  | [] => []
  | c :: cs => Topic.walk c ++ Topic.walkList cs

end

/-- models.Topic.count: the length of the walk. -/
def Topic.count (t : Topic) : Nat := t.walk.length

/-- A complete mind map (models.MindMap); only the fields the verified
operations read are modelled. -/
structure MindMap where
  root : Topic
  title : LC := []
  sourcePath : LC := []

/-! ### Date parsing and formatting (reader._parse_date, strftime) -/

/-- Exactly n decimal digits, returning them and the rest. -/
def parseDigitsN : Nat → LC → Option (LC × LC)
  | 0, s => some ([], s)
  | _ + 1, [] => Option.none
  | n + 1, c :: t =>
    if c.isDigit then (parseDigitsN n t).map (fun p => (c :: p.1, p.2)) else Option.none

/-- The strptime field regex for percent-m, ordered alternation
1[0-2] before 0[1-9] before [1-9]. -/
def monthParse : LC → Option (Nat × LC)
  | c1 :: c2 :: r =>
    if c1 = '1' && c2.isDigit && c2 ≤ '2' then some (natOfDigits [c1, c2], r)
    else if c1 = '0' && c2.isDigit && '1' ≤ c2 then some (natOfDigits [c1, c2], r)
    else if c1.isDigit && '1' ≤ c1 then some (c1.toNat - 48, c2 :: r)
    else Option.none
  | [c1] => if c1.isDigit && '1' ≤ c1 then some (c1.toNat - 48, []) else Option.none
  | [] => Option.none

/-- The strptime field regex for percent-d, ordered alternation
3[01] before [12]d before 0[1-9] before [1-9]. -/
def dayParse : LC → Option (Nat × LC)
  | c1 :: c2 :: r =>
    if c1 = '3' && (c2 = '0' || c2 = '1') then some (natOfDigits [c1, c2], r)
    else if (c1 = '1' || c1 = '2') && c2.isDigit then some (natOfDigits [c1, c2], r)
    else if c1 = '0' && c2.isDigit && '1' ≤ c2 then some (natOfDigits [c1, c2], r)
    else if c1.isDigit && '1' ≤ c1 then some (c1.toNat - 48, c2 :: r)
    else Option.none
  | [c1] => if c1.isDigit && '1' ≤ c1 then some (c1.toNat - 48, []) else Option.none
  | [] => Option.none

/-- The strptime field regex for percent-H, ordered alternation
2[0-3] before [0-1]d before d. -/
def hourParse : LC → Option (Nat × LC)
  | c1 :: c2 :: r =>
    if c1 = '2' && c2.isDigit && c2 ≤ '3' then some (natOfDigits [c1, c2], r)
    else if (c1 = '0' || c1 = '1') && c2.isDigit then some (natOfDigits [c1, c2], r)
    else if c1.isDigit then some (c1.toNat - 48, c2 :: r)
    else Option.none
  | [c1] => if c1.isDigit then some (c1.toNat - 48, []) else Option.none
  | [] => Option.none

/-- The strptime field regex for percent-M and percent-S, ordered
alternation [0-5]d before d. -/
def minsecParse : LC → Option (Nat × LC)
  | c1 :: c2 :: r =>
    if c1.isDigit && c1 ≤ '5' && c2.isDigit then some (natOfDigits [c1, c2], r)
    else if c1.isDigit then some (c1.toNat - 48, c2 :: r)
    else Option.none
  | [c1] => if c1.isDigit then some (c1.toNat - 48, []) else Option.none
  | [] => Option.none

/-- The datetime constructor: validates all fields, raising ValueError
on an out-of-range value. -/
def mkDate (y m d hh mm ss : Nat) : Except PyErr DateTime :=
  if validDT ⟨y, m, d, hh, mm, ss⟩ then .ok ⟨y, m, d, hh, mm, ss⟩
  else .error .valueError

/-- strptime with format percent-Y dash percent-m dash percent-d; the whole
input must be consumed. -/
def strptimeYmd (s : LC) : Except PyErr DateTime :=
  match parseDigitsN 4 s with
  | some (yd, r1) =>
    match r1 with
    | '-' :: r2 =>
      match monthParse r2 with
      | some (m, r3) =>
        match r3 with
        | '-' :: r4 =>
          match dayParse r4 with
          | some (d, r5) =>
            if r5 = [] then mkDate (natOfDigits yd) m d 0 0 0 else .error .valueError
          | Option.none => .error .valueError
        | _ => .error .valueError
      | Option.none => .error .valueError
    | _ => .error .valueError
  | Option.none => .error .valueError

/-- strptime with the ISO datetime format used by the reader,
percent-Y dash percent-m dash percent-d T percent-H colon percent-M colon
percent-S; the whole input must be consumed. -/
def strptimeIsoDT (s : LC) : Except PyErr DateTime :=
  match parseDigitsN 4 s with
  | some (yd, r1) =>
    match r1 with
    | '-' :: r2 =>
      match monthParse r2 with
      | some (m, r3) =>
        match r3 with
        | '-' :: r4 =>
          match dayParse r4 with
          | some (d, r5) =>
            match r5 with
            | 'T' :: r6 =>
              match hourParse r6 with
              | some (hh, r7) =>
                match r7 with
                | ':' :: r8 =>
                  match minsecParse r8 with
                  | some (mm, r9) =>
                    match r9 with
                    | ':' :: r10 =>
                      match minsecParse r10 with
                      | some (ss, r11) =>
                        if r11 = [] then mkDate (natOfDigits yd) m d hh mm ss
                        else .error .valueError
                      | Option.none => .error .valueError
                    | _ => .error .valueError
                  | Option.none => .error .valueError
                | _ => .error .valueError
              | Option.none => .error .valueError
            | _ => .error .valueError
          | Option.none => .error .valueError
        | _ => .error .valueError
      | Option.none => .error .valueError
    | _ => .error .valueError
  | Option.none => .error .valueError

/-- strptime with the US slash-date format used by the reader,
percent-m slash percent-d slash percent-Y; the whole input must be
consumed. -/
def strptimeUS (s : LC) : Except PyErr DateTime :=
  match monthParse s with
  | some (m, r1) =>
    match r1 with
    | '/' :: r2 =>
      match dayParse r2 with
      | some (d, r3) =>
        match r3 with
        | '/' :: r4 =>
          match parseDigitsN 4 r4 with
          | some (yd, r5) =>
            if r5 = [] then mkDate (natOfDigits yd) m d 0 0 0 else .error .valueError
          | Option.none => .error .valueError
        | _ => .error .valueError
      | Option.none => .error .valueError
    | _ => .error .valueError
  | Option.none => .error .valueError

/-- reader._parse_date: try ISO datetime, ISO date, US slash date in that
order; every failure is a ValueError, caught by the loop, so the result
is an Option. -/
def parseDate (s : LC) : Option DateTime :=
  match strptimeIsoDT s with
  | .ok d => some d
  | .error _ =>
    match strptimeYmd s with
    | .ok d => some d
    | .error _ =>
      match strptimeUS s with
      | .ok d => some d
      | .error _ => Option.none

/-- strftime percent-Y dash percent-m dash percent-d (percent-Y is not
zero-padded below four digits on the reference platform; every date this
development formats has a four-digit year). -/
def fmtYmd (d : DateTime) : LC := natToC d.year ++ lc "-" ++ pad2 d.month ++ lc "-" ++ pad2 d.day

/-- strftime of the ISO datetime form used by writer._build_task_elem. -/
def fmtIsoDT (d : DateTime) : LC :=
  fmtYmd d ++ lc "T" ++ pad2 d.hour ++ lc ":" ++ pad2 d.minute ++ lc ":" ++ pad2 d.second

/-! ### Outline encoder (markdown.to_markdown) -/

def glyphHigh : Char := '⏫'
def glyphMed : Char := '🔼'
def glyphLow : Char := '🔽'
def glyphDate : Char := '📅'
def glyphLink : Char := '🔗'

/-- Python " ".join. -/
def joinSp (ps : List LC) : LC := (ps.intersperse (lc " ")).flatten

/-- The meta_parts list of markdown._topic_to_md: priority glyph, then
due-date glyph with ISO date, then percentage in parentheses. -/
def metaParts (tk : Task) : List LC :=
  (match tk.priority with
   | .high => [[glyphHigh]]
   | .medium => [[glyphMed]]
   | .low => [[glyphLow]]
   | .none => []) ++
  (match tk.due with
   | some d => [glyphDate :: ' ' :: fmtYmd d]
   | Option.none => []) ++
  (if 0 < tk.percentage && tk.percentage < 100
   then [lc "(" ++ intToC tk.percentage ++ lc "%)"] else [])

/-- The task_meta string: a space followed by the space-joined parts, or
empty when there are no parts or no task. -/
def taskMetaOf : Option Task → LC
  | Option.none => []
  | some tk =>
    let ps := metaParts tk
    if ps = [] then [] else ' ' :: joinSp ps

/-- The checkbox prefix: checked iff the derived status is complete. -/
def checkboxOf : Option Task → LC
  | Option.none => []
  | some tk => if tk.status = .complete then lc "[x] " else lc "[ ] "

/-- The link_text string: one markdown link per hyperlink. -/
def linkTextOf (ls : List Hyperlink) : LC :=
  if ls = [] then []
  else ' ' :: joinSp (ls.map (fun h => lc "[🔗](" ++ h.url ++ lc ")"))

/-- The single list-item line markdown._topic_to_md emits for a topic at
a given depth. -/
def itemLine (t : Topic) (depth : Nat) : LC :=
  List.replicate (2 * depth) ' ' ++ lc "- " ++ checkboxOf t.task ++ t.text ++
    taskMetaOf t.task ++ linkTextOf t.links

/-- The indented blockquote lines emitted for a non-empty plain-text note. -/
def noteLinesOf (t : Topic) (depth : Nat) : List LC :=
  match t.note with
  | some n =>
    if n.plain ≠ [] then (splitNL n.plain).map (fun nl => List.replicate (2 * depth) ' ' ++ lc "  > " ++ nl)
    else []
  | Option.none => []

mutual

/-- markdown._topic_to_md: the item line, then note blockquote lines,
then the children rendered one level deeper. -/
def topicToMd : Topic → Nat → List LC
  | .mk o tx tk ic li no st ra cs, depth =>
    let t : Topic := .mk o tx tk ic li no st ra cs
    itemLine t depth :: noteLinesOf t depth ++ topicToMdList cs (depth + 1)

def topicToMdList : List Topic → Nat → List LC
  | [], _ => []
  | c :: cs, depth => topicToMd c depth ++ topicToMdList cs depth

end

/-- The lines emitted for one top-level branch: a second-level heading, a
blank line, the rendering of the branch children at depth 0, and a final
blank line (markdown.to_markdown main loop). -/
def branchLines (b : Topic) : List LC :=
  (lc "## " ++ b.text) :: [] :: (topicToMdList b.children 0 ++ [[]])

/-- markdown.to_markdown as a list of lines; the exported timestamp is a
parameter standing for datetime.now. -/
def toMarkdownLines (now : LC) (m : MindMap) (includeFm : Bool) : List LC :=
  (if includeFm then
    [lc "---", lc "title: \"" ++ m.root.text ++ lc "\""] ++
    (if m.sourcePath ≠ [] then [lc "source: \"" ++ m.sourcePath ++ lc "\""] else []) ++
    [lc "exported: \"" ++ now ++ lc "\"", lc "topics: " ++ natToC m.root.count, lc "---", []]
   else []) ++
  ((lc "# " ++ m.root.text) :: [] :: (m.root.children.map branchLines).flatten)

/-- markdown.to_markdown with frontmatter (the default): the lines joined
by newlines. -/
def toMarkdown (now : LC) (m : MindMap) : LC := joinNL (toMarkdownLines now m true)

/-! ### Outline decoder scanners (markdown._parse_md_item regexes) -/

/-- Attempt of the due-date regex directly after the calendar glyph:
greedy whitespace, then four digits, dash, two digits, dash, two digits.
Returns the captured date string and the rest after the match. -/
def tryDateAt (s : LC) : Option (LC × LC) :=
  let s1 := s.dropWhile isWS
  match parseDigitsN 4 s1 with
  | some (d4, r1) =>
    match r1 with
    | '-' :: r2 =>
      match parseDigitsN 2 r2 with
      | some (da, r3) =>
        match r3 with
        | '-' :: r4 =>
          match parseDigitsN 2 r4 with
          | some (db, r5) => some (d4 ++ '-' :: da ++ '-' :: db, r5)
          | Option.none => Option.none
        | _ => Option.none
      | Option.none => Option.none
    | _ => Option.none
  | Option.none => Option.none

/-- re.search for the due-date pattern: leftmost match; returns the text
before the glyph, the captured date, and the text after the match. -/
def dateFindAux : LC → Option (LC × LC × LC)
  | [] => Option.none
  | c :: t =>
    if c = glyphDate then
      match tryDateAt t with
      | some (ds, rest) => some ([], ds, rest)
      | Option.none => (dateFindAux t).map (fun p => (c :: p.1, p.2.1, p.2.2))
    else (dateFindAux t).map (fun p => (c :: p.1, p.2.1, p.2.2))

/-- Attempt of the percentage regex directly after an opening
parenthesis: greedy digits, then the percent sign and closing
parenthesis. -/
def tryPct (s : LC) : Option (Nat × LC) :=
  let ds := s.takeWhile Char.isDigit
  if ds.isEmpty then Option.none
  else
    match s.dropWhile Char.isDigit with
    | '%' :: ')' :: r => some (natOfDigits ds, r)
    | _ => Option.none

/-- re.search for the percentage pattern: leftmost match; returns the
text before the parenthesis, the captured value, and the text after. -/
def pctFindAux : LC → Option (LC × Nat × LC)
  | [] => Option.none
  | c :: t =>
    if c = '(' then
      match tryPct t with
      | some (n, rest) => some ([], n, rest)
      | Option.none => (pctFindAux t).map (fun p => (c :: p.1, p.2.1, p.2.2))
    else (pctFindAux t).map (fun p => (c :: p.1, p.2.1, p.2.2))

/-- Attempt of the hyperlink regex directly after an opening bracket: the
link glyph, closing bracket, opening parenthesis, one or more
non-closing-parenthesis characters, closing parenthesis. -/
def tryLink : LC → Option (LC × LC)
  | g :: b :: p :: r =>
    if g = glyphLink && b = ']' && p = '(' then
      let u := r.takeWhile (fun c => c ≠ ')')
      if u.isEmpty then Option.none
      else
        match r.dropWhile (fun c => c ≠ ')') with
        | ')' :: rest => some (u, rest)
        | _ => Option.none
    else Option.none
  | _ => Option.none

theorem dropWhile_len_le {α : Type} (p : α → Bool) (l : List α) :
    (l.dropWhile p).length ≤ l.length := by
  induction l with
  | nil => simp [List.dropWhile]
  | cons c t ih =>
    by_cases h : p c
    · simp only [List.dropWhile, h, List.length_cons]
      omega
    · simp [List.dropWhile, h]

theorem tryLink_len {s : LC} {u rest : LC} (h : tryLink s = some (u, rest)) :
    rest.length < s.length := by
  match s with
  | [] => simp [tryLink] at h
  | [a] => simp [tryLink] at h
  | [a, b] => simp [tryLink] at h
  | g :: b :: p :: r =>
    simp only [tryLink] at h
    split at h
    · split at h
      · exact absurd h (by simp)
      · split at h
        · rename_i rest1 heq
          injection h with h1
          injection h1 with hu hrest
          subst hrest
          have hd : (')' :: rest1).length ≤ r.length := heq ▸ dropWhile_len_le _ r
          simp only [List.length_cons] at hd ⊢
          omega
        · exact absurd h (by simp)
    · exact absurd h (by simp)

/-- Fuelled scanner for re.finditer plus re.sub on the hyperlink
pattern: collects every captured URL left to right and removes every
match.  The fuel only bounds the recursion depth; any fuel of at least
the input length gives the same result. -/
def linkExtractFuel : Nat → LC → List LC × LC
  | 0, s => ([], s)
  | fuel + 1, [] => ([], [])
  | fuel + 1, c :: t =>
    if c = '[' then
      match tryLink t with
      | some (u, rest) =>
        let p := linkExtractFuel fuel rest
        (u :: p.1, p.2)
      | Option.none =>
        let p := linkExtractFuel fuel t
        (p.1, c :: p.2)
    else
      let p := linkExtractFuel fuel t
      (p.1, c :: p.2)

/-- re.finditer plus re.sub for the hyperlink pattern. -/
def linkExtractAux (s : LC) : List LC × LC := linkExtractFuel s.length s

/-! ### Outline item parser (markdown._parse_md_item) -/

/-- markdown._parse_md_item: checkbox, then (for task items) priority
glyph replace-all, first due-date match, first percentage match, then
hyperlink extraction and trimming.  The date parse can only raise
ValueError, which the source catches; any other exception would
propagate, hence the Except result type. -/
def parseMdItem (s0 : LC) : Except PyErr Topic :=
  let cb : Option Task × LC :=
    if pfx (lc "[x] ") s0 then (some { percentage := 100 }, s0.drop 4)
    else if pfx (lc "[ ] ") s0 then (some {}, s0.drop 4)
    else (Option.none, s0)
  match cb with
  | (Option.none, s) =>
    let p := linkExtractAux s
    .ok (.mk [] (stripL (stripL p.2)) Option.none [] (p.1.map (fun u => { url := u }))
      Option.none Option.none [] [])
  | (some tk0, s) =>
    let pr1 : Priority × LC :=
      if s.contains glyphHigh then (.high, stripL (s.filter (fun c => c ≠ glyphHigh)))
      else if s.contains glyphMed then (.medium, stripL (s.filter (fun c => c ≠ glyphMed)))
      else if s.contains glyphLow then (.low, stripL (s.filter (fun c => c ≠ glyphLow)))
      else (tk0.priority, s)
    let tk1 : Task := { tk0 with priority := pr1.1 }
    let s1 := pr1.2
    let dueStep : Except PyErr (Task × LC) :=
      match dateFindAux s1 with
      | some (p, dstr, q) =>
        match strptimeYmd dstr with
        | .ok d => .ok ({ tk1 with due := some d }, stripL p ++ stripL q)
        | .error .valueError => .ok (tk1, stripL p ++ stripL q)
        | .error e => .error e
      | Option.none => .ok (tk1, s1)
    dueStep.bind (fun ts =>
      let tk2 := ts.1
      let s2 := ts.2
      let ps3 : Task × LC :=
        match pctFindAux s2 with
        | some (p, n, q) =>
          if tk2.percentage < 100 then ({ tk2 with percentage := (n : Int) }, stripL p ++ stripL q)
          else (tk2, s2)
        | Option.none => (tk2, s2)
      let pl := linkExtractAux ps3.2
      .ok (.mk [] (stripL (stripL pl.2)) (some ps3.1) [] (pl.1.map (fun u => { url := u }))
        Option.none Option.none [] []))

/-! ### Outline decoder main loop (markdown.from_markdown)

The Python loop mutates topics in place through the list_stack aliases;
the functional model keeps, for every open stack entry, the children
attached to it so far, and materialises a topic when the entry is popped.
Since siblings are popped in insertion order and nothing reads the tree
until the loop ends, the materialised tree is the one the Python
mutations build. -/

/-- One open entry of the from_markdown list_stack: its indent level, the
topic parsed from the item line, and the children attached so far. -/
structure SpineEntry where
  indent : Nat
  data : Topic
  kids : List Topic

/-- The top-level branch currently being built: heading text, the
already-completed direct children, and the open stack, top first. -/
structure Branch where
  btext : LC
  bkids : List Topic
  spine : List SpineEntry

/-- Append an optional pending completed topic as a last child. -/
def appOpt (ks : List Topic) : Option Topic → List Topic
  | some t => ks ++ [t]
  | Option.none => ks

/-- Pop stack entries whose indent is at least the new level.  Each
popped entry completes into a topic, carried here as the pending topic
and appended as the last child of the next entry down (or of the branch
children when the stack empties), which is where the Python in-place
append had already attached it at insert time. -/
def popGEAcc (lvl : Nat) (bkids : List Topic) (pend : Option Topic) :
    List SpineEntry → List Topic × List SpineEntry
  | [] => (appOpt bkids pend, [])
  | e :: rest =>
    if lvl ≤ e.indent then
      popGEAcc lvl bkids (some (e.data.withChildren (appOpt e.kids pend))) rest
    else (bkids, { e with kids := appOpt e.kids pend } :: rest)

/-- The pop phase of one list-item insertion. -/
def popGEAux (lvl : Nat) (bkids : List Topic) (sp : List SpineEntry) :
    List Topic × List SpineEntry :=
  popGEAcc lvl bkids Option.none sp

/-- Insert a parsed list item at an indent level: pop to the right
depth, then push the new topic as the open top entry. -/
def insertItem (br : Branch) (lvl : Nat) (t : Topic) : Branch :=
  let p := popGEAux lvl br.bkids br.spine
  { btext := br.btext, bkids := p.1, spine := ⟨lvl, t, []⟩ :: p.2 }

/-- Fold every remaining open entry, the final state of the in-place
mutations when the branch is left; every indent is at least zero, so
this is the pop phase at level zero. -/
def closeSpine (bkids : List Topic) (sp : List SpineEntry) : List Topic :=
  (popGEAcc 0 bkids Option.none sp).1

/-- The completed topic of a branch: a default topic carrying the
heading text and the accumulated children. -/
def closeBranch (br : Branch) : Topic :=
  (Topic.base br.btext).withChildren (closeSpine br.bkids br.spine)

/-- The from_markdown loop state: completed top-level branches and the
branch currently open. -/
structure MDState where
  done : List Topic
  cur : Option Branch

/-- The root children at the end of the loop. -/
def finishBranches (st : MDState) : List Topic :=
  st.done ++ (match st.cur with | some br => [closeBranch br] | Option.none => [])

/-- One iteration of the from_markdown line loop; the source computes
the stripped line once, written out in place here. -/
def stepLine (st : MDState) (line : LC) : Except PyErr MDState :=
  if pfx (lc "## ") (stripL line) then
    .ok { done := st.done ++ (match st.cur with | some br => [closeBranch br] | Option.none => []),
          cur := some ⟨stripL ((stripL line).drop 3), [], []⟩ }
  else if pfx (lc "- ") (stripL line) then
    match st.cur with
    | Option.none => .ok st
    | some br =>
      (parseMdItem ((stripL line).drop 2)).map (fun t =>
        { st with cur := some (insertItem br ((line.length - (lstripL line).length) / 2) t) })
  else .ok st

/-- The from_markdown line loop. -/
def runLines : MDState → List LC → Except PyErr MDState
  | st, [] => .ok st
  | st, l :: ls =>
    match stepLine st l with
    | .ok st2 => runLines st2 ls
    | .error e => .error e

/-- Skip a leading frontmatter block: when the first line strips to three
dashes, drop lines through the next line that strips to three dashes. -/
def skipFM (ls : List LC) : List LC :=
  match ls with
  | [] => []
  | l :: t =>
    if stripL l = lc "---" then (t.dropWhile (fun x => stripL x ≠ lc "---")).drop 1
    else l :: t

/-- Scan for the first top-level heading; returns its stripped remainder
(the root text, empty when no heading is found) and the following lines. -/
def findH1 : List LC → LC × List LC
  | [] => ([], [])
  | l :: t =>
    let s := stripL l
    if pfx (lc "# ") s && !pfx (lc "## ") s then (stripL (s.drop 2), t)
    else findH1 t

/-- markdown.from_markdown: split into lines, skip frontmatter, read the
top-level heading, then run the branch-and-item loop. -/
def fromMarkdown (s : LC) : Except PyErr MindMap :=
  (runLines ⟨[], Option.none⟩ (findH1 (skipFM (splitNL s))).2).map (fun st =>
    { root := (Topic.base (findH1 (skipFM (splitNL s))).1).withChildren (finishBranches st),
      title := (findH1 (skipFM (splitNL s))).1, sourcePath := [] })

/-! ### Python float parsing (the float and int builtins used by
reader._parse_task) -/

/-- A Python float as far as this library observes it: a finite value
(kept exact; IEEE rounding is irrelevant to the claims settled here),
an infinity, or NaN. -/
inductive PyFloat where
  | finite (q : ℚ)
  | inf
  | neginf
  | nan

/-- The exponent suffix of a float literal: optional sign then digits,
consuming the whole rest. -/
def parseExp (s : LC) : Option Int :=
  let sg : Bool × LC :=
    match s with
    | '+' :: t => (false, t)
    | '-' :: t => (true, t)
    | t => (false, t)
  let ds := sg.2.takeWhile Char.isDigit
  if ds.isEmpty || !(sg.2.dropWhile Char.isDigit).isEmpty then Option.none
  else some (if sg.1 then -(natOfDigits ds : Int) else (natOfDigits ds : Int))

/-- The unsigned numeric body of a float literal: digits, optional point
and fraction digits, optional exponent; at least one mantissa digit. -/
def pyFloatNum (s : LC) : Option ℚ :=
  let ip := s.takeWhile Char.isDigit
  let r1 := s.dropWhile Char.isDigit
  let fr : LC × LC :=
    match r1 with
    | '.' :: t => (t.takeWhile Char.isDigit, t.dropWhile Char.isDigit)
    | _ => ([], r1)
  if ip.isEmpty && fr.1.isEmpty then Option.none
  else
    let mant : ℚ := (natOfDigits (ip ++ fr.1) : ℚ) / ((10 : ℚ) ^ fr.1.length)
    match fr.2 with
    | [] => some mant
    | 'e' :: t => (parseExp t).map (fun ex => mant * (10 : ℚ) ^ ex)
    | 'E' :: t => (parseExp t).map (fun ex => mant * (10 : ℚ) ^ ex)
    | _ => Option.none

/-- The Python float builtin on a string: strip whitespace, optional
sign, then a numeric body or the case-insensitive words inf, infinity,
nan.  Returns none where float() raises ValueError. -/
def pyFloat (s0 : LC) : Option PyFloat :=
  let s1 := stripL s0
  let sg : Bool × LC :=
    match s1 with
    | '+' :: t => (false, t)
    | '-' :: t => (true, t)
    | t => (false, t)
  let low := sg.2.map Char.toLower
  if low = lc "inf" || low = lc "infinity" then some (if sg.1 then .neginf else .inf)
  else if low = lc "nan" then some .nan
  else (pyFloatNum sg.2).map (fun q => .finite (if sg.1 then -q else q))

/-- The Python int builtin on a float: truncation toward zero for finite
values, ValueError on NaN, OverflowError on an infinity. -/
def pyTrunc : PyFloat → Except PyErr Int
  | .finite q => .ok (Int.tdiv q.num (q.den : Int))
  | .nan => .error .valueError
  | .inf => .error .overflowError
  | .neginf => .error .overflowError

/-! ### Markup codec: element model and reader (reader.py) -/

/-- A markup element: tag, ordered attribute dictionary, optional inner
text, children.  Tags are modelled without the fixed namespace prefix
that every element of the document shares. -/
inductive XElem where
  | mk (tag : LC) (attrs : List (LC × LC)) (itext : Option LC) (children : List XElem)

def XElem.tag : XElem → LC
  | .mk t _ _ _ => t

def XElem.attrs : XElem → List (LC × LC)
  | .mk _ a _ _ => a

def XElem.itext : XElem → Option LC
  | .mk _ _ i _ => i

def XElem.children : XElem → List XElem
  | .mk _ _ _ c => c

/-- Ordered-dictionary lookup. -/
def lookupA {β : Type} : List (LC × β) → LC → Option β
  | [], _ => Option.none
  | kv :: t, q => if kv.1 = q then some kv.2 else lookupA t q

/-- Element attribute access with a default (ElementTree get). -/
def attrGet (e : XElem) (k : LC) (dflt : LC) : LC := (lookupA e.attrs k).getD dflt

/-- First child with the given tag (ElementTree find). -/
def xFind (e : XElem) (t : LC) : Option XElem := e.children.find? (fun c => c.tag = t)

/-- reader._parse_task.  The percentage attribute is parsed with
int(float(value)) under an except-ValueError handler: a non-numeric
string or NaN leaves the default 0, while an infinity raises
OverflowError, which that handler does not catch, so it propagates. -/
def parseTask (e : XElem) : Except PyErr Task :=
  let pctS := attrGet e (lc "TaskPercentage") []
  let pctStep : Except PyErr Int :=
    if pctS.isEmpty then .ok 0
    else
      match pyFloat pctS with
      | Option.none => .ok 0
      | some f =>
        match pyTrunc f with
        | .ok n => .ok n
        | .error .valueError => .ok 0
        | .error e2 => .error e2
  pctStep.map (fun pct =>
    { percentage := pct,
      priority := priOfCode (attrGet e (lc "TaskPriority") []),
      due := (let d := attrGet e (lc "TaskDueDate") [];
              if d.isEmpty then Option.none else parseDate d),
      start := (let d := attrGet e (lc "TaskStartDate") [];
                if d.isEmpty then Option.none else parseDate d) })

mutual

/-- A structural serializer standing for ElementTree tostring, used only
to store the style sub-element as an opaque blob. -/
def xSerialize : XElem → LC
  | .mk tg ats it cs =>
    lc "<" ++ tg ++ (ats.map (fun kv => ' ' :: (kv.1 ++ lc "=\"" ++ kv.2 ++ lc "\""))).flatten ++
    lc ">" ++ it.getD [] ++ xSerializeList cs ++ lc "</" ++ tg ++ lc ">"

def xSerializeList : List XElem → LC
  | [] => []
  | c :: cs => xSerialize c ++ xSerializeList cs

end

/-- The icon markers of a topic element (reader._parse_topic). -/
def parseIcons (e : XElem) : List IconMarker :=
  match xFind e (lc "IconMarkers") with
  | some g => g.children.filterMap (fun c =>
      if c.tag = lc "IconMarker" then
        some ⟨attrGet c (lc "IconType") [], attrGet c (lc "IconSignature") []⟩
      else Option.none)
  | Option.none => []

/-- The hyperlinks of a topic element: the single form, then the group
form, accumulated in that order (reader._parse_topic). -/
def parseLinks (e : XElem) : List Hyperlink :=
  (match xFind e (lc "Hyperlink") with
   | some hl => [⟨attrGet hl (lc "Url") [], attrGet hl (lc "Text") []⟩]
   | Option.none => []) ++
  (match xFind e (lc "HyperlinkGroup") with
   | some g => g.children.filterMap (fun c =>
       if c.tag = lc "Hyperlink" then
         some ⟨attrGet c (lc "Url") [], attrGet c (lc "Text") []⟩
       else Option.none)
   | Option.none => [])

/-- The note of a topic element (reader._parse_topic). -/
def parseNote (e : XElem) : Option Note :=
  match xFind e (lc "NotesGroup") with
  | some g =>
    match xFind g (lc "Notes") with
    | some ne =>
      some ⟨attrGet ne (lc "PlainText") [],
            (match xFind ne (lc "Html") with
             | some he => (he.itext).getD []
             | Option.none => [])⟩
    | Option.none => Option.none
  | Option.none => Option.none

mutual

/-- reader._parse_topic: identifier, verbatim attribute dictionary copy,
text, task, icons, hyperlinks, note, opaque style blob, then the children
recursively.  A task parse error propagates (there is no handler). -/
def parseTopic : XElem → Except PyErr Topic
  | .mk tg ats it cs =>
    let e : XElem := .mk tg ats it cs
    (match xFind e (lc "Task") with
     | some te => (parseTask te).map some
     | Option.none => .ok Option.none).bind (fun task =>
      (parseSubTopics cs).map (fun kids =>
        .mk (attrGet e (lc "OId") [])
            (match xFind e (lc "Text") with
             | some te => attrGet te (lc "PlainText") []
             | Option.none => [])
            task (parseIcons e) (parseLinks e) (parseNote e)
            ((xFind e (lc "SubTopicShape")).map xSerialize) ats kids))

/-- The recursion into children: the first subtopics-tagged child (the
find call of the source) and then each of its topic-tagged children in
document order. -/
def parseSubTopics : List XElem → Except PyErr (List Topic)
  | [] => .ok []
  | XElem.mk tg2 _ _ gcs :: cs =>
    if tg2 = lc "SubTopics" then parseTopicList gcs
    else parseSubTopics cs

def parseTopicList : List XElem → Except PyErr (List Topic)
  | [] => .ok []
  | c :: cs =>
    if c.tag = lc "Topic" then
      (parseTopic c).bind (fun t => (parseTopicList cs).map (fun ts => t :: ts))
    else parseTopicList cs

end

/-! ### Markup codec: writer (writer.py) -/

/-- Ordered-dictionary insert-or-replace (ElementTree set). -/
def attrSet (ats : List (LC × LC)) (k v : LC) : List (LC × LC) :=
  if (lookupA ats k).isSome then ats.map (fun kv => if kv.1 = k then (k, v) else kv)
  else ats ++ [(k, v)]

/-- writer._build_task_elem: each attribute emitted only when the field
is set. -/
def buildTaskElem (tk : Task) : XElem :=
  let a1 := if tk.percentage > 0 then attrSet [] (lc "TaskPercentage") (intToC tk.percentage) else []
  let a2 := if tk.priority ≠ .none then attrSet a1 (lc "TaskPriority") (priCode tk.priority) else a1
  let a3 := match tk.due with
    | some d => attrSet a2 (lc "TaskDueDate") (fmtIsoDT d)
    | Option.none => a2
  let a4 := match tk.start with
    | some d => attrSet a3 (lc "TaskStartDate") (fmtIsoDT d)
    | Option.none => a3
  .mk (lc "Task") a4 Option.none []

/-- The attributes of an emitted hyperlink element. -/
def hlAttrs (h : Hyperlink) : List (LC × LC) :=
  let b := attrSet [] (lc "Url") h.url
  if h.text ≠ [] then attrSet b (lc "Text") h.text else b

/-- A deterministic stand-in for str(uuid.uuid4()).upper(): the writer
only needs a fresh identifier, supplied here from a threaded counter. -/
def freshOid (n : Nat) : LC := lc "FRESH-" ++ natToC n

mutual

/-- writer._build_topic_elem: identifier (stored or freshly minted),
re-emitted raw attributes skipping the identifier key, then text, task,
icon, hyperlink, note and subtopic sub-elements, each emitted only when
present.  The style blob field is never consulted. -/
def buildTopicElem : Topic → Nat → XElem × Nat
  | .mk o tx tk ic li no _st ra cs, n =>
    let p0 : LC × Nat := if o ≠ [] then (o, n) else (freshOid n, n + 1)
    let a1 := attrSet [] (lc "OId") p0.1
    let a2 := ra.foldl (fun acc kv => if kv.1 ≠ lc "OId" then attrSet acc kv.1 kv.2 else acc) a1
    let textCh : List XElem :=
      if tx ≠ [] then [.mk (lc "Text") (attrSet [] (lc "PlainText") tx) Option.none []] else []
    let taskCh : List XElem :=
      match tk with
      | some t => [buildTaskElem t]
      | Option.none => []
    let iconCh : List XElem :=
      if ic ≠ [] then
        [.mk (lc "IconMarkers") [] Option.none (ic.map (fun m =>
          .mk (lc "IconMarker")
            (let b0 := if m.iconType ≠ [] then attrSet [] (lc "IconType") m.iconType else []
             if m.iconSignature ≠ [] then attrSet b0 (lc "IconSignature") m.iconSignature else b0)
            Option.none []))]
      else []
    let linkCh : List XElem :=
      match li with
      | [] => []
      | [h] => [.mk (lc "Hyperlink") (hlAttrs h) Option.none []]
      | _ :: _ :: _ =>
        [.mk (lc "HyperlinkGroup") [] Option.none
          (li.map (fun h => .mk (lc "Hyperlink") (hlAttrs h) Option.none []))]
    let noteCh : List XElem :=
      match no with
      | some nt =>
        [.mk (lc "NotesGroup") [] Option.none
          [.mk (lc "Notes") (attrSet [] (lc "PlainText") nt.plain) Option.none
            (if nt.html ≠ [] then [.mk (lc "Html") [] (some nt.html) []] else [])]]
      | Option.none => []
    let cres := buildTopicList cs p0.2
    let subCh : List XElem :=
      if cs.isEmpty then [] else [.mk (lc "SubTopics") [] Option.none cres.1]
    (.mk (lc "Topic") a2 Option.none (textCh ++ taskCh ++ iconCh ++ linkCh ++ noteCh ++ subCh), cres.2)

def buildTopicList : List Topic → Nat → List XElem × Nat
  | [], n => ([], n)
  | c :: cs, n =>
    let p := buildTopicElem c n
    let q := buildTopicList cs p.2
    (p.1 :: q.1, q.2)

end

/-! ### Archive adapter (writer._update_existing) -/

/-- The designated container entry holding the document bytes. -/
def docEntryName : LC := lc "Document.xml"

/-- writer._update_existing at the entry level: every entry of the
source container is read into an ordered dictionary, the document entry
is replaced (a missing document entry raises KeyError), and every entry
is written back.  The document transformation itself is the replacement
byte string passed in. -/
def updateArchiveEntries (entries : List (LC × List Nat)) (newDoc : List Nat) :
    Except PyErr (List (LC × List Nat)) :=
  match lookupA entries docEntryName with
  | some _ => .ok (entries.map (fun p => if p.1 = docEntryName then (p.1, newDoc) else p))
  | Option.none => .error .keyError

/-! ### Heap model of the mutating tree operations (models.py)

Python Topic objects alias each other through parent references; remove
and move_to mutate both ends.  The heap model indexes nodes by natural
numbers and passes the heap explicitly. -/

/-- A heap node: the fields of models.Topic that the mutating operations
can touch or leave alone, with tree structure by node id. -/
structure TNode where
  text : LC := []
  task : Option Task := Option.none
  children : List Nat := []
  parent : Option Nat := Option.none
deriving DecidableEq, Repr

/-- The node heap. -/
abbrev Heap := Nat → TNode

/-- Point update of a heap. -/
def hUpdate (h : Heap) (i : Nat) (nd : TNode) : Heap := fun j => if j = i then nd else h j

/-- models.Topic.remove: when a parent exists, rebuild its children list
without this node (the Python identity comparison is id inequality
here), then clear the parent reference. -/
def removeOp (h : Heap) (x : Nat) : Heap :=
  match (h x).parent with
  | Option.none => h
  | some p =>
    let h1 := hUpdate h p { h p with children := (h p).children.filter (fun c => c ≠ x) }
    hUpdate h1 x { h1 x with parent := Option.none }

/-- models.Topic.move_to: remove, then set the parent reference, then
append to the children of the new parent.  No validation of any kind is
performed. -/
def moveToOp (h : Heap) (x np : Nat) : Heap :=
  let h1 := removeOp h x
  let h2 := hUpdate h1 x { h1 x with parent := some np }
  hUpdate h2 np { h2 np with children := (h2 np).children ++ [x] }

/-! ### General helper lemmas -/

theorem exceptBind_ok {α β γ : Type} {e : Except γ α} {f : α → Except γ β} {b : β}
    (h : e.bind f = .ok b) : ∃ a, e = .ok a ∧ f a = .ok b := by
  cases e with
  | error err => simp [Except.bind] at h
  | ok a => exact ⟨a, rfl, h⟩

theorem exceptMap_ok {α β γ : Type} {e : Except γ α} {f : α → β} {b : β}
    (h : e.map f = .ok b) : ∃ a, e = .ok a ∧ f a = b := by
  cases e with
  | error err => simp [Except.map] at h
  | ok a =>
    refine ⟨a, rfl, ?_⟩
    simpa [Except.map] using h

/-! ### Claim C3: the unrecognized-attribute bag -/

/-- The decoded bag is a verbatim copy of the whole attribute
dictionary of the element (reader._parse_topic line 80). -/
theorem parseTopic_raw_all {e : XElem} {t : Topic} (h : parseTopic e = .ok t) :
    t.rawAttribs = e.attrs := by
  cases e with
  | mk tg ats it cs =>
    simp only [parseTopic] at h
    obtain ⟨task, _, h2⟩ := exceptBind_ok h
    obtain ⟨kids, _, h3⟩ := exceptMap_ok h2
    rw [← h3]
    rfl

/-- C3 counterexample.  The claim states the bag never contains the
identifier attribute OId; decoding a topic element whose only attribute
is OId yields a bag containing exactly that attribute, because the
reader copies dict(elem.attrib) wholesale. -/
theorem c3_counterexample :
    parseTopic (XElem.mk (lc "Topic") [(lc "OId", lc "X")] Option.none [])
      = .ok (Topic.mk (lc "X") [] Option.none [] [] Option.none Option.none
              [(lc "OId", lc "X")] [])
    ∧ lookupA [(lc "OId", lc "X")] (lc "OId") = some (lc "X") := ⟨rfl, rfl⟩

/-- C3 amended.  For every topic element decoded by the markup codec,
the unrecognized-attribute bag retains every attribute of the element
verbatim, keyed by attribute name, INCLUDING the identifier attribute
OId when it is present; it is the writer that skips the OId key when
re-emitting the bag. -/
theorem c3_bag_retains_all_attributes (e : XElem) (t : Topic)
    (h : parseTopic e = .ok t) (k : LC) :
    lookupA t.rawAttribs k = lookupA e.attrs k := by
  rw [parseTopic_raw_all h]

theorem c3_bag_witness :
    lookupA (Topic.mk (lc "X") [] Option.none [] [] Option.none Option.none
        [(lc "OId", lc "X"), (lc "Foo", lc "1")] []).rawAttribs (lc "Foo")
      = lookupA (XElem.mk (lc "Topic") [(lc "OId", lc "X"), (lc "Foo", lc "1")]
          Option.none []).attrs (lc "Foo") :=
  c3_bag_retains_all_attributes
    (XElem.mk (lc "Topic") [(lc "OId", lc "X"), (lc "Foo", lc "1")] Option.none [])
    (Topic.mk (lc "X") [] Option.none [] [] Option.none Option.none
      [(lc "OId", lc "X"), (lc "Foo", lc "1")] [])
    rfl (lc "Foo")

/-! ### Claim C1: the markup round trip drops the style blob -/

/-- A topic carrying an opaque style blob (and nothing else unusual). -/
def c1ExTopic : Topic :=
  Topic.mk (lc "X") (lc "Hello") Option.none [] [] Option.none (some (lc "<blob/>")) [] []

/-- C1: the code drops the style blob.  The topic below carries style
blob some "<blob/>"; encoding it (writer._build_topic_elem never emits a
style sub-element) and decoding the result yields a topic whose style
blob is None, although the writer docstring and the reader comment both
promise round-trip preservation.  The decoded bag also differs from the
original empty bag: it now holds the OId attribute. -/
theorem c1_roundtrip_drops_style_blob :
    c1ExTopic.styleXml = some (lc "<blob/>")
    ∧ parseTopic (buildTopicElem c1ExTopic 0).1
        = .ok (Topic.mk (lc "X") (lc "Hello") Option.none [] [] Option.none Option.none
                [(lc "OId", lc "X")] []) := ⟨rfl, rfl⟩

/-! ### Claim C5: an infinite percentage aborts the whole decode -/

/-- C5: the percentage attribute "inf" parses as a float infinity;
int() on it raises OverflowError, which the except-ValueError handler in
reader._parse_task does not catch, so the error escapes the whole topic
parse instead of leaving the percentage at 0. -/
theorem c5_infinite_percentage_aborts :
    parseTopic (XElem.mk (lc "Topic") [] Option.none
        [XElem.mk (lc "Task") [(lc "TaskPercentage", lc "inf")] Option.none []])
      = .error .overflowError := rfl

/-! ### Claim C4: move_to has no cycle guard -/

/-- A two-node heap: node 0 is the root, node 1 its only child. -/
def c4ExHeap : Heap := fun i =>
  if i = 0 then { text := lc "root", children := [1] }
  else if i = 1 then { text := lc "child", parent := some 0 } else {}

/-- C4: moving node 0 under its own descendant node 1 completes without
any error (moveToOp is a total function; no StructuralViolation type
exists anywhere in the code) and leaves the two nodes as each other's
parent and child: a cycle, corrupting the tree. -/
theorem c4_move_to_builds_cycle :
    ((moveToOp c4ExHeap 0 1) 0).parent = some 1
    ∧ ((moveToOp c4ExHeap 0 1) 1).parent = some 0
    ∧ ((moveToOp c4ExHeap 0 1) 1).children = [0]
    ∧ ((moveToOp c4ExHeap 0 1) 0).children = [1] := ⟨rfl, rfl, rfl, rfl⟩

/-! ### Claim C6: the archive write copies every other entry verbatim -/

/-- C6: for every source container holding a document entry, the
archive update yields a container in which every entry other than the
document entry is present with identical content: lookups at every other
name are unchanged. -/
theorem lookupA_map_replace (name : LC) (newDoc : List Nat) (entries : List (LC × List Nat))
    (hname : name ≠ docEntryName) :
    lookupA (entries.map (fun p => if p.1 = docEntryName then (p.1, newDoc) else p)) name
      = lookupA entries name := by
  induction entries with
  | nil => rfl
  | cons kv t ih =>
    simp only [List.map_cons]
    by_cases hn : kv.1 = name
    · have hk : ¬ kv.1 = docEntryName := by rw [hn]; exact hname
      simp [lookupA, hk, hn, hname]
    · by_cases hk : kv.1 = docEntryName
      · simp [lookupA, hk, hn, ih, Ne.symm hname]
      · simp [lookupA, hk, hn, ih]

theorem c6_other_entries_preserved (entries : List (LC × List Nat)) (newDoc : List Nat)
    (out : List (LC × List Nat)) (name : LC)
    (hok : updateArchiveEntries entries newDoc = .ok out)
    (hname : name ≠ docEntryName) :
    lookupA out name = lookupA entries name := by
  unfold updateArchiveEntries at hok
  rcases hl : lookupA entries docEntryName with _ | v
  · rw [hl] at hok; exact absurd hok (by simp)
  · rw [hl] at hok
    have hout : out = entries.map (fun p => if p.1 = docEntryName then (p.1, newDoc) else p) := by
      have h2 := hok
      simp only [Except.ok.injEq] at h2
      exact h2.symm
    subst hout
    exact lookupA_map_replace name newDoc entries hname

theorem c6_witness :
    lookupA [(lc "Document.xml", ([9] : List Nat)), (lc "media.png", [7])] (lc "media.png")
      = lookupA [(lc "Document.xml", ([1] : List Nat)), (lc "media.png", [7])] (lc "media.png") :=
  c6_other_entries_preserved
    [(lc "Document.xml", [1]), (lc "media.png", [7])] [9]
    [(lc "Document.xml", [9]), (lc "media.png", [7])] (lc "media.png")
    rfl (by decide)

/-! ### Claim C10: remove is exactly a frame-preserving detach -/

/-- C10: for a topic x with parent p, remove rebuilds the children
sequence of p as exactly the previous sequence with x deleted (sibling
order preserved, all other fields of p untouched), clears the parent
reference of x leaving all its other fields and its subtree untouched,
and changes no other node of the heap. -/
theorem c10_remove_frame (h : Heap) (x p : Nat)
    (hp : (h x).parent = some p) (hne : p ≠ x) :
    (removeOp h x) p = { h p with children := (h p).children.filter (fun c => c ≠ x) }
    ∧ (removeOp h x) x = { h x with parent := Option.none }
    ∧ ∀ y, y ≠ p → y ≠ x → (removeOp h x) y = h y := by
  unfold removeOp
  rw [hp]
  simp only [hUpdate]
  have hxp : ¬ x = p := fun hc => hne hc.symm
  refine ⟨?_, ?_, ?_⟩
  · simp [hne]
  · simp [hxp]
  · intro y hyp hyx
    simp [hyp, hyx]

/-- A three-node heap: root 0 with children [1, 2]. -/
def c10ExHeap : Heap := fun i =>
  if i = 0 then { text := lc "root", children := [1, 2] }
  else if i = 1 then { text := lc "a", parent := some 0 }
  else if i = 2 then { text := lc "b", parent := some 0 } else {}

theorem c10_witness :
    (removeOp c10ExHeap 1) 0
        = { c10ExHeap 0 with children := (c10ExHeap 0).children.filter (fun c => c ≠ 1) }
    ∧ (removeOp c10ExHeap 1) 1 = { c10ExHeap 1 with parent := Option.none }
    ∧ ∀ y, y ≠ 0 → y ≠ 1 → (removeOp c10ExHeap 1) y = c10ExHeap y :=
  c10_remove_frame c10ExHeap 1 0 rfl (by decide)

/-! ### Claim C7: glyph extraction order in the outline item parser -/

/-- C7 counterexample.  The claim says each glyph kind is removed via
first-match-only extraction and that afterwards none of the known glyphs
remains in the text.  On this item both occurrences of the high-priority
glyph are removed (replace-all, not first-match-only) and the
medium-priority glyph remains in the text, because the elif chain stops
at the first glyph kind found. -/
theorem c7_counterexample :
    parseMdItem (lc "[ ] a ⏫ b ⏫ 🔼")
      = .ok (Topic.mk [] (lc "a  b  🔼") (some { priority := .high }) [] []
              Option.none Option.none [] []) := rfl

/-- Stage one of the amended C7 claim: the priority glyphs are checked
in the precedence order high, medium, low; the first kind present
determines the priority and every occurrence of that one glyph is
removed (other priority glyphs are left in place); the text is then
stripped. -/
def specPriorityStage (s : LC) : Priority × LC :=
  if s.contains glyphHigh then (.high, stripL (s.filter (fun c => c ≠ glyphHigh)))
  else if s.contains glyphMed then (.medium, stripL (s.filter (fun c => c ≠ glyphMed)))
  else if s.contains glyphLow then (.low, stripL (s.filter (fun c => c ≠ glyphLow)))
  else (.none, s)

/-- Stage two of the amended C7 claim: only the first (leftmost)
due-date pattern match is extracted and removed; later occurrences
stay in the text. -/
def specDueStage (s : LC) : Except PyErr (Option DateTime × LC) :=
  match dateFindAux s with
  | some (p, dstr, q) =>
    match strptimeYmd dstr with
    | .ok d => .ok (some d, stripL p ++ stripL q)
    | .error .valueError => .ok (Option.none, stripL p ++ stripL q)
    | .error e => .error e
  | Option.none => .ok (Option.none, s)

/-- Stage three of the amended C7 claim: only the first percentage
parenthetical is extracted, and removed only when it is used (checkbox
percentage still below one hundred). -/
def specPctStage (pct0 : Int) (s : LC) : Int × LC :=
  match pctFindAux s with
  | some (p, n, q) =>
    if pct0 < 100 then ((n : Int), stripL p ++ stripL q) else (pct0, s)
  | Option.none => (pct0, s)

/-- Stage four: every hyperlink pattern match extracted in order and
removed. -/
def specLinkStage (s : LC) : List Hyperlink × LC :=
  let p := linkExtractAux s
  (p.1.map (fun u => { url := u }), stripL (stripL p.2))

/-- The amended C7 claim as a definition: a checkbox item body, with
the percentage the checkbox put on the task (zero for an unchecked box,
one hundred for a checked one), is processed by the four stages in the
stated order: priority, then due date, then percentage, then
hyperlinks. -/
def specOrderedParse (pct0 : Int) (s : LC) : Except PyErr Topic :=
  let p1 := specPriorityStage s
  (specDueStage p1.2).bind (fun p2 =>
    let p3 := specPctStage pct0 p2.2
    let p4 := specLinkStage p3.2
    .ok (.mk [] p4.2 (some { percentage := p3.1, priority := p1.1, due := p2.1 }) [] p4.1
      Option.none Option.none [] []))

/-- The continuation of the item parser behind the priority stage, with
the checkbox percentage, the chosen priority and the priority-stripped
text abstracted; this is definitionally the task branch of parseMdItem
for either checkbox form. -/
def mdTaskPipeline (pct0 : Int) (pr : Priority) (S : LC) : Except PyErr Topic :=
  let tk1 : Task := { percentage := pct0, priority := pr }
  let dueStep : Except PyErr (Task × LC) :=
    match dateFindAux S with
    | some (p, dstr, q) =>
      match strptimeYmd dstr with
      | .ok d => .ok ({ tk1 with due := some d }, stripL p ++ stripL q)
      | .error .valueError => .ok (tk1, stripL p ++ stripL q)
      | .error e => .error e
    | Option.none => .ok (tk1, S)
  dueStep.bind (fun ts =>
    let ps3 : Task × LC :=
      match pctFindAux ts.2 with
      | some (p, n, q) =>
        if ts.1.percentage < 100 then ({ ts.1 with percentage := (n : Int) }, stripL p ++ stripL q)
        else (ts.1, ts.2)
      | Option.none => (ts.1, ts.2)
    let pl := linkExtractAux ps3.2
    .ok (.mk [] (stripL (stripL pl.2)) (some ps3.1) [] (pl.1.map (fun u => { url := u }))
      Option.none Option.none [] []))

theorem c7_pipeline_eq (pct0 : Int) (pr : Priority) (S : LC) :
    mdTaskPipeline pct0 pr S
      = (specDueStage S).bind (fun p2 =>
          let p3 := specPctStage pct0 p2.2
          let p4 := specLinkStage p3.2
          .ok (.mk [] p4.2 (some { percentage := p3.1, priority := pr, due := p2.1 }) [] p4.1
            Option.none Option.none [] [])) := by
  unfold mdTaskPipeline specDueStage specPctStage specLinkStage
  rcases hdf : dateFindAux S with _ | ⟨p, dstr, q⟩
  · rcases hpf : pctFindAux S with _ | ⟨p2, n, q2⟩
    · simp [hdf, hpf, Except.bind]
    · by_cases hp : pct0 < 100 <;> simp [hdf, hpf, Except.bind, hp]
  · cases hst : strptimeYmd dstr with
    | error e =>
      cases e with
      | valueError =>
        rcases hpf : pctFindAux (stripL p ++ stripL q) with _ | ⟨p2, n, q2⟩
        · simp [hdf, hst, hpf, Except.bind]
        · by_cases hp : pct0 < 100 <;> simp [hdf, hst, hpf, Except.bind, hp]
      | overflowError => simp [hdf, hst, Except.bind]
      | keyError => simp [hdf, hst, Except.bind]
    | ok d =>
      rcases hpf : pctFindAux (stripL p ++ stripL q) with _ | ⟨p2, n, q2⟩
      · simp [hdf, hst, hpf, Except.bind]
      · by_cases hp : pct0 < 100 <;> simp [hdf, hst, hpf, Except.bind, hp]

/-- C7 amended: for every item body behind a checkbox, checked or
unchecked, the decoder is exactly the staged pipeline above — priority
glyph first (replace-all of the one glyph kind found, in precedence
order), then the first due-date match, then the first percentage match
(applied only while the checkbox percentage is below one hundred, so a
checked box keeps the parenthetical in its text), then the
hyperlinks. -/
theorem c7_ordered_stage_extraction (s : LC) :
    parseMdItem (lc "[ ] " ++ s) = specOrderedParse 0 s
    ∧ parseMdItem (lc "[x] " ++ s) = specOrderedParse 100 s := by
  constructor
  · have hA : parseMdItem (lc "[ ] " ++ s)
        = mdTaskPipeline 0 (specPriorityStage s).1 (specPriorityStage s).2 := rfl
    rw [hA, c7_pipeline_eq]
    rfl
  · have hB : parseMdItem (lc "[x] " ++ s)
        = mdTaskPipeline 100 (specPriorityStage s).1 (specPriorityStage s).2 := rfl
    rw [hB, c7_pipeline_eq]
    rfl

/-! ### Claim C8: outline decoding is total -/

theorem mkDate_err {y m d hh mm ss : Nat} {e : PyErr}
    (h : mkDate y m d hh mm ss = .error e) : e = .valueError := by
  unfold mkDate at h
  split at h
  · exact absurd h (by simp)
  · injection h with h1
    exact h1.symm

/-- Every failure of the date parse is a ValueError, exactly the
exception class the except clause around it catches. -/
theorem strptimeYmd_err {s : LC} {e : PyErr} (h : strptimeYmd s = .error e) :
    e = .valueError := by
  unfold strptimeYmd at h
  repeat split at h
  all_goals
    first
      | (exact mkDate_err h)
      | (injection h with h1; exact h1.symm)
      | (exact absurd h (by simp))

/-- Proof-time alias of the priority stage of parseMdItem with the
checkbox-derived initial task abstracted. -/
def prChain (tk0 : Task) (s : LC) : Priority × LC :=
  if s.contains glyphHigh then (Priority.high, stripL (s.filter (fun c => c ≠ glyphHigh)))
  else if s.contains glyphMed then (Priority.medium, stripL (s.filter (fun c => c ≠ glyphMed)))
  else if s.contains glyphLow then (Priority.low, stripL (s.filter (fun c => c ≠ glyphLow)))
  else (tk0.priority, s)

/-- Proof-time alias of the due-date step of the item parser. -/
def dueStepF (tk1 : Task) (S : LC) : Option (LC × LC × LC) → Except PyErr (Task × LC)
  | some (p, dstr, q) =>
    match strptimeYmd dstr with
    | Except.ok d => Except.ok ({ tk1 with due := some d }, stripL p ++ stripL q)
    | Except.error PyErr.valueError => Except.ok (tk1, stripL p ++ stripL q)
    | Except.error e => Except.error e
  | Option.none => Except.ok (tk1, S)

/-- Proof-time alias of the percentage-hyperlink-trim tail of the item
parser. -/
def mdTail (ts : Task × LC) : Except PyErr Topic :=
  let ps3 : Task × LC :=
    match pctFindAux ts.2 with
    | some (p, n, q) =>
      if ts.1.percentage < 100 then ({ ts.1 with percentage := (n : Int) }, stripL p ++ stripL q)
      else (ts.1, ts.2)
    | Option.none => (ts.1, ts.2)
  let pl := linkExtractAux ps3.2
  .ok (.mk [] (stripL (stripL pl.2)) (some ps3.1) [] (pl.1.map (fun u => { url := u }))
    Option.none Option.none [] [])

/-- Proof-time alias of the item parser tail behind the priority stage. -/
def mdDueBind (tk1 : Task) (S : LC) : Except PyErr Topic :=
  (dueStepF tk1 S (dateFindAux S)).bind mdTail

/-- Proof-time alias of the whole task branch of parseMdItem. -/
def mdPipelineG (tk0 : Task) (s : LC) : Except PyErr Topic :=
  mdDueBind { tk0 with priority := (prChain tk0 s).1 } (prChain tk0 s).2

theorem parseMdItem_split (s0 : LC) :
    parseMdItem s0 =
      if pfx (lc "[x] ") s0 = true then mdPipelineG { percentage := 100 } (s0.drop 4)
      else if pfx (lc "[ ] ") s0 = true then mdPipelineG {} (s0.drop 4)
      else
        (let p := linkExtractAux s0
         Except.ok (.mk [] (stripL (stripL p.2)) Option.none []
           (p.1.map (fun u => { url := u })) Option.none Option.none [] [])) := by
  unfold parseMdItem
  by_cases hx : pfx (lc "[x] ") s0 = true
  · rw [if_pos hx, if_pos hx]
    try rfl
  · rw [if_neg hx, if_neg hx]
    by_cases hb : pfx (lc "[ ] ") s0 = true
    · rw [if_pos hb, if_pos hb]
      try rfl
    · rw [if_neg hb, if_neg hb]
      try rfl

theorem dueStepF_ok (tk1 : Task) (S : LC) (o : Option (LC × LC × LC)) :
    ∃ v, dueStepF tk1 S o = .ok v := by
  cases o with
  | none => exact ⟨_, rfl⟩
  | some pdq =>
    obtain ⟨p, dstr, q⟩ := pdq
    have he : dueStepF tk1 S (some (p, dstr, q))
        = match strptimeYmd dstr with
          | Except.ok d => Except.ok ({ tk1 with due := some d }, stripL p ++ stripL q)
          | Except.error PyErr.valueError => Except.ok (tk1, stripL p ++ stripL q)
          | Except.error e => Except.error e := rfl
    rw [he]
    cases hst : strptimeYmd dstr with
    | ok d => exact ⟨_, rfl⟩
    | error e =>
      cases e with
      | valueError => exact ⟨_, rfl⟩
      | overflowError => exact absurd (strptimeYmd_err hst) (by simp)
      | keyError => exact absurd (strptimeYmd_err hst) (by simp)

theorem mdDueBind_ok (tk1 : Task) (S : LC) : ∃ t, mdDueBind tk1 S = .ok t := by
  unfold mdDueBind
  obtain ⟨v, hv⟩ := dueStepF_ok tk1 S (dateFindAux S)
  rw [hv]
  exact ⟨_, rfl⟩

theorem mdPipelineG_ok (tk0 : Task) (s : LC) : ∃ t, mdPipelineG tk0 s = .ok t := by
  unfold mdPipelineG
  exact mdDueBind_ok _ _

/-- The item parser never fails: its only fallible call is the date
parse, whose ValueError is caught. -/
theorem parseMdItem_ok (s0 : LC) : ∃ t, parseMdItem s0 = .ok t := by
  rw [parseMdItem_split]
  by_cases hx : pfx (lc "[x] ") s0 = true
  · rw [if_pos hx]
    exact mdPipelineG_ok _ _
  · rw [if_neg hx]
    by_cases hb : pfx (lc "[ ] ") s0 = true
    · rw [if_pos hb]
      exact mdPipelineG_ok _ _
    · rw [if_neg hb]
      exact ⟨_, rfl⟩

theorem stepLine_ok (st : MDState) (l : LC) : ∃ st2, stepLine st l = .ok st2 := by
  unfold stepLine
  split
  · exact ⟨_, rfl⟩
  · split
    · split
      · exact ⟨_, rfl⟩
      · obtain ⟨t, ht⟩ := parseMdItem_ok ((stripL l).drop 2)
        rw [ht]
        exact ⟨_, rfl⟩
    · exact ⟨_, rfl⟩

theorem runLines_ok (ls : List LC) : ∀ st, ∃ st2, runLines st ls = .ok st2 := by
  induction ls with
  | nil => intro st; exact ⟨st, rfl⟩
  | cons l t ih =>
    intro st
    obtain ⟨st2, h2⟩ := stepLine_ok st l
    obtain ⟨st3, h3⟩ := ih st2
    refine ⟨st3, ?_⟩
    unfold runLines
    rw [h2]
    exact h3

/-- C8: for every input string, outline decoding runs to completion and
returns a MindMap; no exception escapes (unrecognized lines are simply
ignored by the loop, see also the C9 theorem). -/
theorem c8_decode_never_raises (s : LC) : ∃ m, fromMarkdown s = .ok m := by
  unfold fromMarkdown
  obtain ⟨st2, hst⟩ := runLines_ok (findH1 (skipFM (splitNL s))).2 ⟨[], Option.none⟩
  rw [hst]
  exact ⟨_, rfl⟩

/-! ### Claim C9: list items before the first branch heading -/

/-- While no branch is open, every line that is not a second-level
heading leaves the loop state unchanged — list items included. -/
theorem stepLine_noBranch {st : MDState} {l : LC} (hcur : st.cur = Option.none)
    (hns : ¬ pfx (lc "## ") (stripL l) = true) : stepLine st l = .ok st := by
  unfold stepLine
  rw [if_neg hns]
  by_cases hd : pfx (lc "- ") (stripL l) = true
  · rw [if_pos hd, hcur]
  · rw [if_neg hd]

/-- C9: in the region after the top-level heading and before any
second-level heading (the loop runs with no current branch there), every
list-item line is silently discarded: deleting those lines from the
input does not change the decode at all. -/
theorem c9_items_discarded_without_branch (st : MDState) (mid rest : List LC)
    (hcur : st.cur = Option.none)
    (hmid : ∀ l ∈ mid, ¬ pfx (lc "## ") (stripL l) = true) :
    runLines st (mid ++ rest)
      = runLines st (mid.filter (fun l => !pfx (lc "- ") (stripL l)) ++ rest) := by
  induction mid with
  | nil => rfl
  | cons l t ih =>
    have hl := hmid l (List.mem_cons_self l t)
    have hstep : stepLine st l = .ok st := stepLine_noBranch hcur hl
    have ht : ∀ x ∈ t, ¬ pfx (lc "## ") (stripL x) = true :=
      fun x hx => hmid x (List.mem_cons_of_mem l hx)
    by_cases hd : pfx (lc "- ") (stripL l) = true
    · have hfc : (l :: t).filter (fun x => !pfx (lc "- ") (stripL x))
          = t.filter (fun x => !pfx (lc "- ") (stripL x)) := by
        simp [List.filter_cons, hd]
      rw [hfc, List.cons_append]
      show (match stepLine st l with
            | .ok st2 => runLines st2 (t ++ rest)
            | .error e => .error e) = _
      rw [hstep]
      exact ih ht
    · have hfc : (l :: t).filter (fun x => !pfx (lc "- ") (stripL x))
          = l :: t.filter (fun x => !pfx (lc "- ") (stripL x)) := by
        simp [List.filter_cons, hd]
      rw [hfc, List.cons_append, List.cons_append]
      show (match stepLine st l with
            | .ok st2 => runLines st2 (t ++ rest)
            | .error e => .error e)
          = (match stepLine st l with
             | .ok st2 => runLines st2 (t.filter (fun x => !pfx (lc "- ") (stripL x)) ++ rest)
             | .error e => .error e)
      rw [hstep]
      exact ih ht

theorem c9_witness :
    (⟨[], Option.none⟩ : MDState).cur = Option.none
    ∧ runLines ⟨[], Option.none⟩ ([lc "- a", lc "x"] ++ [lc "## B"])
        = runLines ⟨[], Option.none⟩
            ([lc "- a", lc "x"].filter (fun l => !pfx (lc "- ") (stripL l)) ++ [lc "## B"]) :=
  ⟨rfl, c9_items_discarded_without_branch ⟨[], Option.none⟩ [lc "- a", lc "x"] [lc "## B"]
    rfl (by decide)⟩

/-! ### Claim C2 groundwork: whitespace and stripping lemmas -/

theorem lstripL_nil : lstripL [] = [] := rfl

theorem lstripL_cons_ws {c : Char} (h : isWS c = true) (r : LC) :
    lstripL (c :: r) = lstripL r := by
  simp [lstripL, List.dropWhile, h]

theorem lstripL_cons_nws {c : Char} (h : isWS c = false) (r : LC) :
    lstripL (c :: r) = c :: r := by
  simp [lstripL, List.dropWhile, h]

theorem lstripL_replicate_sp (n : Nat) (r : LC) :
    lstripL (List.replicate n ' ' ++ r) = lstripL r := by
  induction n with
  | zero => rfl
  | succ k ih =>
    rw [List.replicate_succ, List.cons_append, lstripL_cons_ws (by decide)]
    exact ih

theorem dropWhile_eq_self_of_length {p : Char → Bool} {l : LC}
    (h : (l.dropWhile p).length = l.length) : l.dropWhile p = l := by
  induction l with
  | nil => rfl
  | cons c t ih =>
    by_cases hc : p c
    · exfalso
      have h2 := dropWhile_len_le p t
      simp only [List.dropWhile, hc, List.length_cons] at h
      omega
    · simp [List.dropWhile, hc]

theorem head_nws_of_lstrip_stable {c : Char} {t : LC} (h : lstripL (c :: t) = c :: t) :
    isWS c = false := by
  by_cases hc : isWS c
  · exfalso
    rw [lstripL_cons_ws hc] at h
    have h2 := dropWhile_len_le isWS t
    have h3 : (lstripL t).length = t.length + 1 := by rw [h]; simp
    unfold lstripL at h3
    omega
  · simpa using hc

theorem rstripL_len_le (x : LC) : (rstripL x).length ≤ x.length := by
  unfold rstripL
  simpa using dropWhile_len_le isWS x.reverse

/-- Splitting str.strip stability into both one-sided stabilities. -/
theorem strip_stable_both {s : LC} (h : stripL s = s) :
    lstripL s = s ∧ rstripL s = s := by
  have h1 : (rstripL (lstripL s)).length = s.length := by
    rw [show rstripL (lstripL s) = stripL s from rfl, h]
  have h2 := rstripL_len_le (lstripL s)
  have h3 : (lstripL s).length ≤ s.length := dropWhile_len_le isWS s
  have h4 : (s.dropWhile isWS).length = s.length := by
    unfold lstripL at h1 h2 h3
    omega
  have h5 := dropWhile_eq_self_of_length h4
  have h5' : lstripL s = s := h5
  refine ⟨h5', ?_⟩
  unfold stripL at h
  rw [h5'] at h
  exact h

theorem dropWhile_append_all {p : Char → Bool} {x : LC} (h : x.dropWhile p = []) (y : LC) :
    (x ++ y).dropWhile p = y.dropWhile p := by
  induction x with
  | nil => rfl
  | cons c t ih =>
    by_cases hc : p c
    · rw [List.dropWhile_cons_of_pos hc] at h
      rw [List.cons_append, List.dropWhile_cons_of_pos hc]
      exact ih h
    · rw [List.dropWhile_cons_of_neg hc] at h
      simp at h

theorem dropWhile_append_ne {p : Char → Bool} {x : LC} (h : ¬ x.dropWhile p = []) (y : LC) :
    (x ++ y).dropWhile p = x.dropWhile p ++ y := by
  induction x with
  | nil => simp at h
  | cons c t ih =>
    by_cases hc : p c
    · rw [List.dropWhile_cons_of_pos hc] at h
      rw [List.cons_append, List.dropWhile_cons_of_pos hc, List.dropWhile_cons_of_pos hc]
      exact ih h
    · rw [List.cons_append, List.dropWhile_cons_of_neg hc, List.dropWhile_cons_of_neg hc,
        List.cons_append]

theorem rstripL_append_right {a b : LC} (hb : rstripL b = b) (hne : b ≠ []) :
    rstripL (a ++ b) = a ++ b := by
  have hd : ¬ b.reverse.dropWhile isWS = [] := by
    intro hc
    unfold rstripL at hb
    rw [hc] at hb
    exact hne (by simpa using hb.symm)
  unfold rstripL at hb ⊢
  rw [List.reverse_append, dropWhile_append_ne hd]
  rw [List.reverse_append, hb]
  simp

theorem rstripL_append_stable {a : LC} (ha : rstripL a = a) (b : LC) :
    rstripL (a ++ b) = a ++ rstripL b := by
  unfold rstripL at ha ⊢
  rw [List.reverse_append]
  by_cases h : b.reverse.dropWhile isWS = []
  · rw [dropWhile_append_all h, ha, h]
    simp
  · rw [dropWhile_append_ne h, List.reverse_append]
    simp

theorem rstripL_spaces (n : Nat) : rstripL (List.replicate n ' ') = [] := by
  have h : ∀ m, (List.replicate m ' ').dropWhile isWS = [] := by
    intro m
    induction m with
    | zero => rfl
    | succ k ih =>
      rw [List.replicate_succ, List.dropWhile_cons_of_pos (show isWS ' ' = true from rfl)]
      exact ih
  unfold rstripL
  rw [List.reverse_replicate, h n]
  rfl

/-- Appending whitespace-stripping material to a stable string: the core
strip computation of the per-item round trip. -/
theorem stripL_stable_append {a : LC} (ha : stripL a = a) (hne : a ≠ []) (b : LC) :
    stripL (a ++ b) = a ++ rstripL b := by
  obtain ⟨hl, hr⟩ := strip_stable_both ha
  rcases a with _ | ⟨c, t⟩
  · exact absurd rfl hne
  · have hc := head_nws_of_lstrip_stable hl
    unfold stripL
    rw [List.cons_append, lstripL_cons_nws hc, ← List.cons_append]
    exact rstripL_append_stable hr b

theorem stripL_stable_append_sp {a : LC} (ha : stripL a = a) (hne : a ≠ []) (n : Nat) :
    stripL (a ++ List.replicate n ' ') = a := by
  rw [stripL_stable_append ha hne, rstripL_spaces]
  simp

theorem rstripL_cons_nws {c : Char} (h : isWS c = false) (x : LC) :
    rstripL (c :: x) = c :: rstripL x := by
  unfold rstripL
  rw [show (c :: x).reverse = x.reverse ++ [c] from by simp]
  by_cases hd : x.reverse.dropWhile isWS = []
  · rw [dropWhile_append_all hd, List.dropWhile_cons_of_neg (by simp [h]), hd]
    rfl
  · rw [dropWhile_append_ne hd]
    simp

theorem rstripL_eq_self_of_all {x : LC} (h : x.all (fun c => !isWS c) = true) :
    rstripL x = x := by
  unfold rstripL
  rw [show x.reverse.dropWhile isWS = x.reverse from ?_, List.reverse_reverse]
  cases hr : x.reverse with
  | nil => rfl
  | cons c t =>
    have hc : c ∈ x := by
      rw [← List.mem_reverse, hr]
      exact List.mem_cons_self c t
    have := (List.all_eq_true.mp h) c hc
    simp only [Bool.not_eq_true'] at this
    exact List.dropWhile_cons_of_neg (by simp [this])

theorem stripL_replicate_sp (n : Nat) : stripL (List.replicate n ' ') = [] := by
  unfold stripL
  have h : lstripL (List.replicate n ' ') = [] := by
    have := lstripL_replicate_sp n []
    rwa [List.append_nil] at this
  rw [h]
  rfl

/-! ### Claim C2 groundwork: decimal digit rendering round trips -/

theorem natToCFuel_irrel : ∀ n f, n < f → natToCFuel f n = natToC n := by
  intro n
  induction n using Nat.strong_induction_on with
  | _ n ih =>
    intro f hf
    match f, hf with
    | f' + 1, hf =>
      show natToCFuel (f' + 1) n = natToCFuel (n + 1) n
      by_cases h10 : n < 10
      · simp [natToCFuel, h10]
      · have hm : n / 10 < n := by omega
        have h1 : natToCFuel f' (n / 10) = natToC (n / 10) := ih (n / 10) hm f' (by omega)
        have h2 : natToCFuel n (n / 10) = natToC (n / 10) := ih (n / 10) hm n (by omega)
        simp [natToCFuel, h10, h1, h2]

theorem natToC_small {n : Nat} (h : n < 10) : natToC n = [Char.ofNat (48 + n)] := by
  simp [natToC, natToCFuel, h]

theorem natToC_step {n : Nat} (h : 10 ≤ n) :
    natToC n = natToC (n / 10) ++ [Char.ofNat (48 + n % 10)] := by
  show natToCFuel (n + 1) n = _
  rw [show natToCFuel (n + 1) n
      = if n < 10 then [Char.ofNat (48 + n)]
        else natToCFuel n (n / 10) ++ [Char.ofNat (48 + n % 10)] from rfl]
  rw [if_neg (by omega)]
  rw [natToCFuel_irrel (n / 10) n (by omega)]

theorem digitChar_isDigit {m : Nat} (h : m < 10) : (Char.ofNat (48 + m)).isDigit = true := by
  interval_cases m <;> decide

theorem digitChar_toNat {m : Nat} (h : m < 10) : (Char.ofNat (48 + m)).toNat = 48 + m := by
  interval_cases m <;> decide

theorem natToC_digits : ∀ n, ∀ c ∈ natToC n, c.isDigit = true := by
  intro n
  induction n using Nat.strong_induction_on with
  | _ n ih =>
    intro c hc
    by_cases h10 : n < 10
    · rw [natToC_small h10] at hc
      simp at hc
      rw [hc]
      exact digitChar_isDigit h10
    · rw [natToC_step (by omega)] at hc
      rcases List.mem_append.mp hc with h1 | h1
      · exact ih (n / 10) (by omega) c h1
      · simp at h1
        rw [h1]
        exact digitChar_isDigit (Nat.mod_lt n (by omega))

theorem natToC_ne_nil (n : Nat) : natToC n ≠ [] := by
  by_cases h10 : n < 10
  · rw [natToC_small h10]
    simp
  · rw [natToC_step (by omega)]
    simp

theorem natToC_foldl : ∀ n a, (natToC n).foldl (fun a c => 10 * a + (c.toNat - 48)) a
    = a * 10 ^ (natToC n).length + n := by
  intro n
  induction n using Nat.strong_induction_on with
  | _ n ih =>
    intro a
    by_cases h10 : n < 10
    · rw [natToC_small h10]
      simp [List.foldl, digitChar_toNat h10]
      omega
    · rw [natToC_step (by omega), List.foldl_append, List.length_append]
      rw [ih (n / 10) (by omega) a]
      simp [List.foldl, digitChar_toNat (show n % 10 < 10 by omega)]
      have hp : 10 ^ ((natToC (n / 10)).length + 1) = 10 ^ (natToC (n / 10)).length * 10 := by
        rw [pow_succ]
      rw [hp]
      have hdm : 10 * (n / 10) + n % 10 = n := Nat.div_add_mod n 10
      ring_nf
      omega

theorem natOfDigits_natToC (n : Nat) : natOfDigits (natToC n) = n := by
  show (natToC n).foldl (fun a c => 10 * a + (c.toNat - 48)) 0 = n
  rw [natToC_foldl]
  omega

theorem natToC_len_year {y : Nat} (h1 : 1000 ≤ y) (h2 : y ≤ 9999) : (natToC y).length = 4 := by
  rw [natToC_step (by omega), List.length_append,
    natToC_step (show 10 ≤ y / 10 by omega), List.length_append,
    natToC_step (show 10 ≤ y / 10 / 10 by omega), List.length_append,
    natToC_small (show y / 10 / 10 / 10 < 10 by omega)]
  rfl

theorem parseDigitsN_exact : ∀ ds : LC, (∀ c ∈ ds, c.isDigit = true) → ∀ r : LC,
    parseDigitsN ds.length (ds ++ r) = some (ds, r) := by
  intro ds
  induction ds with
  | nil => intro _ r; rfl
  | cons c t ih =>
    intro h r
    have hc : c.isDigit = true := h c (List.mem_cons_self c t)
    show parseDigitsN (t.length + 1) (c :: (t ++ r)) = some (c :: t, r)
    rw [show parseDigitsN (t.length + 1) (c :: (t ++ r))
        = if c.isDigit then (parseDigitsN t.length (t ++ r)).map (fun p => (c :: p.1, p.2))
          else Option.none from rfl]
    rw [if_pos hc, ih (fun x hx => h x (List.mem_cons_of_mem c hx)) r]
    rfl

theorem monthParse_pad2 {m : Nat} (h1 : 1 ≤ m) (h2 : m ≤ 12) (r : LC) :
    monthParse (pad2 m ++ r) = some (m, r) := by
  interval_cases m <;> rfl

theorem dayParse_pad2 {d : Nat} (h1 : 1 ≤ d) (h2 : d ≤ 31) (r : LC) :
    dayParse (pad2 d ++ r) = some (d, r) := by
  interval_cases d <;> rfl

theorem dayParse_pad2_nil {d : Nat} (h1 : 1 ≤ d) (h2 : d ≤ 31) :
    dayParse (pad2 d) = some (d, []) := by
  interval_cases d <;> rfl

theorem parseDigitsN2_pad2 {n : Nat} (h1 : 1 ≤ n) (h2 : n ≤ 31) (r : LC) :
    parseDigitsN 2 (pad2 n ++ r) = some (pad2 n, r) := by
  interval_cases n <;> rfl

theorem digit_not_ws {c : Char} (h : c.isDigit = true) : isWS c = false := by
  by_contra hw
  rw [Bool.not_eq_false] at hw
  unfold isWS at hw
  simp only [Bool.or_eq_true, decide_eq_true_eq] at hw
  rcases hw with ((((h1 | h1) | h1) | h1) | h1) | h1 <;> subst h1 <;> exact absurd h (by decide)

theorem daysInMonth_le (y m : Nat) : daysInMonth y m ≤ 31 := by
  unfold daysInMonth
  split
  · split <;> omega
  · split <;> omega

theorem validDT_bounds {y mo d hh mi ss : Nat}
    (hv : validDT ⟨y, mo, d, hh, mi, ss⟩ = true) :
    1 ≤ y ∧ y ≤ 9999 ∧ 1 ≤ mo ∧ mo ≤ 12 ∧ 1 ≤ d ∧ d ≤ 31 := by
  unfold validDT at hv
  simp only [Bool.and_eq_true, decide_eq_true_eq] at hv
  obtain ⟨⟨⟨⟨⟨⟨⟨⟨h1, h2⟩, h3⟩, h4⟩, h5⟩, h6⟩, h7⟩, h8⟩, h9⟩ := hv
  have := daysInMonth_le y mo
  exact ⟨h1, h2, h3, h4, h5, by omega⟩

/-- strftime then strptime on a midnight date with a four-digit year is
the identity. -/
theorem strptimeYmd_fmtYmd {y mo d : Nat} (hv : validDT ⟨y, mo, d, 0, 0, 0⟩ = true)
    (hy : 1000 ≤ y) :
    strptimeYmd (fmtYmd ⟨y, mo, d, 0, 0, 0⟩) = .ok ⟨y, mo, d, 0, 0, 0⟩ := by
  obtain ⟨h1, h2, h3, h4, h5, h6⟩ := validDT_bounds hv
  have hsh : fmtYmd ⟨y, mo, d, 0, 0, 0⟩
      = natToC y ++ ('-' :: (pad2 mo ++ ('-' :: pad2 d))) := by
    simp [fmtYmd, lc, List.append_assoc]
  have hp4 : parseDigitsN 4 (natToC y ++ ('-' :: (pad2 mo ++ ('-' :: pad2 d))))
      = some (natToC y, '-' :: (pad2 mo ++ ('-' :: pad2 d))) := by
    have h := parseDigitsN_exact (natToC y) (natToC_digits y)
      ('-' :: (pad2 mo ++ ('-' :: pad2 d)))
    rwa [natToC_len_year hy h2] at h
  unfold strptimeYmd
  rw [hsh]
  simp only [hp4, monthParse_pad2 h3 h4, dayParse_pad2_nil h5 h6]
  simp [natOfDigits_natToC, mkDate, hv]

/-- The due-date regex attempt succeeds directly after the calendar
glyph on an emitted date. -/
theorem tryDateAt_hit {y mo d : Nat} (hv : validDT ⟨y, mo, d, 0, 0, 0⟩ = true)
    (hy : 1000 ≤ y) (r : LC) :
    tryDateAt (' ' :: (fmtYmd ⟨y, mo, d, 0, 0, 0⟩ ++ r))
      = some (fmtYmd ⟨y, mo, d, 0, 0, 0⟩, r) := by
  obtain ⟨h1, h2, h3, h4, h5, h6⟩ := validDT_bounds hv
  have hsh : fmtYmd ⟨y, mo, d, 0, 0, 0⟩ ++ r
      = natToC y ++ ('-' :: (pad2 mo ++ ('-' :: (pad2 d ++ r)))) := by
    simp [fmtYmd, lc, List.append_assoc]
  obtain ⟨c, cs, hcs⟩ := List.exists_cons_of_ne_nil (natToC_ne_nil y)
  have hcd : c.isDigit = true := natToC_digits y c (by rw [hcs]; exact List.mem_cons_self c cs)
  have hdw : (fmtYmd ⟨y, mo, d, 0, 0, 0⟩ ++ r).dropWhile isWS
      = fmtYmd ⟨y, mo, d, 0, 0, 0⟩ ++ r := by
    rw [hsh, hcs, List.cons_append]
    exact List.dropWhile_cons_of_neg (by simp [digit_not_ws hcd])
  have hp4 : parseDigitsN 4 (natToC y ++ ('-' :: (pad2 mo ++ ('-' :: (pad2 d ++ r)))))
      = some (natToC y, '-' :: (pad2 mo ++ ('-' :: (pad2 d ++ r)))) := by
    have h := parseDigitsN_exact (natToC y) (natToC_digits y)
      ('-' :: (pad2 mo ++ ('-' :: (pad2 d ++ r))))
    rwa [natToC_len_year hy h2] at h
  unfold tryDateAt
  rw [show (' ' :: (fmtYmd ⟨y, mo, d, 0, 0, 0⟩ ++ r)).dropWhile isWS
      = (fmtYmd ⟨y, mo, d, 0, 0, 0⟩ ++ r).dropWhile isWS from
    List.dropWhile_cons_of_pos (by decide), hdw, hsh]
  simp only [hp4, parseDigitsN2_pad2 h3 (by omega) ('-' :: (pad2 d ++ r)),
    parseDigitsN2_pad2 h5 h6 r]
  simp [fmtYmd, lc, List.append_assoc]

/-! ### Claim C2 groundwork: scanner shift and hit lemmas -/

theorem dateFindAux_cons (c : Char) (t : LC) :
    dateFindAux (c :: t)
      = if c = glyphDate then
          match tryDateAt t with
          | some (ds, rest) => some ([], ds, rest)
          | Option.none => (dateFindAux t).map (fun p => (c :: p.1, p.2.1, p.2.2))
        else (dateFindAux t).map (fun p => (c :: p.1, p.2.1, p.2.2)) := rfl

theorem dateFindAux_append {A : LC} (hA : ∀ c ∈ A, c ≠ glyphDate) (B : LC) :
    dateFindAux (A ++ B) = (dateFindAux B).map (fun p => (A ++ p.1, p.2.1, p.2.2)) := by
  induction A with
  | nil =>
    rw [List.nil_append]
    cases hB : dateFindAux B with
    | none => rfl
    | some p => obtain ⟨a, b, c⟩ := p; rfl
  | cons a A2 ih =>
    rw [List.cons_append, dateFindAux_cons, if_neg (hA a (List.mem_cons_self a A2)),
      ih (fun c hc => hA c (List.mem_cons_of_mem a hc))]
    cases hB : dateFindAux B with
    | none => rfl
    | some p => obtain ⟨a2, b2, c2⟩ := p; rfl

theorem dateFindAux_none {s : LC} (h : ∀ c ∈ s, c ≠ glyphDate) :
    dateFindAux s = Option.none := by
  induction s with
  | nil => rfl
  | cons c t ih =>
    rw [dateFindAux_cons, if_neg (h c (List.mem_cons_self c t)),
      ih (fun x hx => h x (List.mem_cons_of_mem c hx))]
    rfl

theorem dateFindAux_hit {A : LC} (hA : ∀ c ∈ A, c ≠ glyphDate) {t ds rest : LC}
    (ht : tryDateAt t = some (ds, rest)) :
    dateFindAux (A ++ glyphDate :: t) = some (A, ds, rest) := by
  rw [dateFindAux_append hA, dateFindAux_cons, if_pos rfl, ht]
  simp

theorem pctFindAux_cons (c : Char) (t : LC) :
    pctFindAux (c :: t)
      = if c = '(' then
          match tryPct t with
          | some (n, rest) => some ([], n, rest)
          | Option.none => (pctFindAux t).map (fun p => (c :: p.1, p.2.1, p.2.2))
        else (pctFindAux t).map (fun p => (c :: p.1, p.2.1, p.2.2)) := rfl

theorem pctFindAux_append {A : LC} (hA : ∀ c ∈ A, c ≠ '(') (B : LC) :
    pctFindAux (A ++ B) = (pctFindAux B).map (fun p => (A ++ p.1, p.2.1, p.2.2)) := by
  induction A with
  | nil =>
    rw [List.nil_append]
    cases hB : pctFindAux B with
    | none => rfl
    | some p => obtain ⟨a, b, c⟩ := p; rfl
  | cons a A2 ih =>
    rw [List.cons_append, pctFindAux_cons, if_neg (hA a (List.mem_cons_self a A2)),
      ih (fun c hc => hA c (List.mem_cons_of_mem a hc))]
    cases hB : pctFindAux B with
    | none => rfl
    | some p => obtain ⟨a2, b2, c2⟩ := p; rfl

theorem pctFindAux_none {s : LC} (h : ∀ c ∈ s, c ≠ '(') :
    pctFindAux s = Option.none := by
  induction s with
  | nil => rfl
  | cons c t ih =>
    rw [pctFindAux_cons, if_neg (h c (List.mem_cons_self c t)),
      ih (fun x hx => h x (List.mem_cons_of_mem c hx))]
    rfl

theorem pctFindAux_hit {A : LC} (hA : ∀ c ∈ A, c ≠ '(') {t : LC} {n : Nat} {rest : LC}
    (ht : tryPct t = some (n, rest)) :
    pctFindAux (A ++ '(' :: t) = some (A, n, rest) := by
  rw [pctFindAux_append hA, pctFindAux_cons, if_pos rfl, ht]
  simp

theorem takeWhile_append_all {p : Char → Bool} {x : LC} (h : ∀ c ∈ x, p c = true) (y : LC) :
    (x ++ y).takeWhile p = x ++ y.takeWhile p := by
  induction x with
  | nil => rfl
  | cons c t ih =>
    rw [List.cons_append, List.takeWhile_cons, if_pos (h c (List.mem_cons_self c t)),
      ih (fun a ha => h a (List.mem_cons_of_mem c ha)), List.cons_append]

theorem dropWhile_all {p : Char → Bool} {x : LC} (h : ∀ c ∈ x, p c = true) :
    x.dropWhile p = [] := by
  induction x with
  | nil => rfl
  | cons c t ih =>
    rw [List.dropWhile_cons_of_pos (h c (List.mem_cons_self c t))]
    exact ih (fun a ha => h a (List.mem_cons_of_mem c ha))

theorem dropWhile_head_false {p : Char → Bool} : ∀ {x : LC} {c : Char} {t : LC},
    x.dropWhile p = c :: t → p c = false := by
  intro x
  induction x with
  | nil => intro c t h; simp [List.dropWhile] at h
  | cons a x2 ih =>
    intro c t h
    by_cases ha : p a
    · rw [List.dropWhile_cons_of_pos ha] at h
      exact ih h
    · rw [List.dropWhile_cons_of_neg ha] at h
      injection h with h1 _
      rw [h1] at ha
      simpa using ha

theorem tryPct_hit (n : Nat) (r : LC) :
    tryPct (natToC n ++ ('%' :: (')' :: r))) = some (n, r) := by
  have ht : (natToC n ++ ('%' :: (')' :: r))).takeWhile Char.isDigit = natToC n := by
    rw [takeWhile_append_all (natToC_digits n), List.takeWhile_cons, if_neg (by decide),
      List.append_nil]
  have hd : (natToC n ++ ('%' :: (')' :: r))).dropWhile Char.isDigit = '%' :: (')' :: r) := by
    rw [dropWhile_append_all (dropWhile_all (natToC_digits n))]
    exact List.dropWhile_cons_of_neg (by decide)
  have hne : (natToC n).isEmpty = false := by
    cases hcs : natToC n with
    | nil => exact absurd hcs (natToC_ne_nil n)
    | cons c cs => rfl
  simp only [tryPct, ht, hd, hne]
  simp [natOfDigits_natToC n]

theorem tryPct_none_of_head {s : LC} {c : Char} {t : LC}
    (hd : s.dropWhile Char.isDigit = c :: t) (hc : c ≠ '%') : tryPct s = Option.none := by
  simp only [tryPct, hd]
  by_cases hds : (s.takeWhile Char.isDigit).isEmpty
  · simp [hds]
  · simp only [hds, Bool.false_eq_true, if_false]
    split
    · rename_i r1 heq
      injection heq with h1 _
      exact absurd h1 hc
    · rfl

/-! ### Claim C2: cleanliness of the transported data

The outline encoding reserves a handful of characters for its own
structure; a topic text or hyperlink URL that avoids them, together
with the bounds the task model already suggests, is transported
verbatim by the round trip. -/

/-- Characters the outline syntax reserves: the line separator, the
scanner trigger characters, and the five metadata glyphs. -/
def reservedChar (c : Char) : Bool :=
  c = '\n' || c = '(' || c = '[' || c = glyphHigh || c = glyphMed ||
  c = glyphLow || c = glyphDate || c = glyphLink

/-- A topic text the encoding transports verbatim: nonempty, stable
under strip, free of reserved characters. -/
def cleanText (t : LC) : Bool :=
  !t.isEmpty && (stripL t == t) && t.all (fun c => !reservedChar c)

/-- A hyperlink URL the encoding transports verbatim: nonempty and free
of reserved characters, the closing parenthesis and the percent sign. -/
def cleanUrl (u : LC) : Bool :=
  !u.isEmpty && u.all (fun c => !reservedChar c && !(c = ')') && !(c = '%'))

theorem isEmpty_false_ne_nil {t : LC} (h : t.isEmpty = false) : t ≠ [] := by
  cases t with
  | nil => simp at h
  | cons c cs => simp

theorem cleanText_ne_nil {t : LC} (h : cleanText t = true) : t ≠ [] := by
  simp only [cleanText, Bool.and_eq_true, Bool.not_eq_true'] at h
  exact isEmpty_false_ne_nil h.1.1

theorem cleanText_strip {t : LC} (h : cleanText t = true) : stripL t = t := by
  simp only [cleanText, Bool.and_eq_true, beq_iff_eq] at h
  exact h.1.2

theorem cleanText_res {t : LC} (h : cleanText t = true) :
    ∀ c ∈ t, reservedChar c = false := by
  simp only [cleanText, Bool.and_eq_true, List.all_eq_true, Bool.not_eq_true'] at h
  exact h.2

theorem reservedChar_false {c : Char} (h : reservedChar c = false) :
    c ≠ '\n' ∧ c ≠ '(' ∧ c ≠ '[' ∧ c ≠ glyphHigh ∧ c ≠ glyphMed ∧
    c ≠ glyphLow ∧ c ≠ glyphDate ∧ c ≠ glyphLink := by
  simp only [reservedChar, Bool.or_eq_false_iff, decide_eq_false_iff_not] at h
  obtain ⟨⟨⟨⟨⟨⟨⟨h1, h2⟩, h3⟩, h4⟩, h5⟩, h6⟩, h7⟩, h8⟩ := h
  exact ⟨h1, h2, h3, h4, h5, h6, h7, h8⟩

theorem cleanUrl_ne_nil {u : LC} (h : cleanUrl u = true) : u ≠ [] := by
  simp only [cleanUrl, Bool.and_eq_true, Bool.not_eq_true'] at h
  exact isEmpty_false_ne_nil h.1

theorem cleanUrl_chars {u : LC} (h : cleanUrl u = true) :
    ∀ c ∈ u, reservedChar c = false ∧ c ≠ ')' ∧ c ≠ '%' := by
  simp only [cleanUrl, Bool.and_eq_true, List.all_eq_true, Bool.not_eq_true',
    decide_eq_false_iff_not] at h
  intro c hc
  obtain ⟨⟨h1, h2⟩, h3⟩ := h.2 c hc
  exact ⟨h1, h2, h3⟩

theorem tryPct_fail_url {u : LC} (hu : cleanUrl u = true) (r : LC) :
    tryPct (u ++ (')' :: r)) = Option.none := by
  cases he : u.dropWhile Char.isDigit with
  | nil =>
    have hd : (u ++ (')' :: r)).dropWhile Char.isDigit = ')' :: r := by
      rw [dropWhile_append_all he]
      exact List.dropWhile_cons_of_neg (by decide)
    exact tryPct_none_of_head hd (by decide)
  | cons c e2 =>
    have hcu : c ∈ u := by
      have h := List.takeWhile_append_dropWhile (p := Char.isDigit) (l := u)
      rw [he] at h
      rw [← h]
      exact List.mem_append.mpr (Or.inr (List.mem_cons_self c e2))
    have hd : (u ++ (')' :: r)).dropWhile Char.isDigit = c :: (e2 ++ (')' :: r)) := by
      rw [dropWhile_append_ne (by rw [he]; simp), he, List.cons_append]
    exact tryPct_none_of_head hd (cleanUrl_chars hu c hcu).2.2

theorem tryLink_hit {u : LC} (hne : u ≠ []) (hnp : ∀ c ∈ u, c ≠ ')') (rest : LC) :
    tryLink (glyphLink :: (']' :: ('(' :: (u ++ (')' :: rest))))) = some (u, rest) := by
  have hp : ∀ c ∈ u, (fun c => decide ¬(c = ')')) c = true := by
    intro c hc
    simp [hnp c hc]
  have ht : (u ++ (')' :: rest)).takeWhile (fun c => c ≠ ')') = u := by
    rw [takeWhile_append_all hp, List.takeWhile_cons, if_neg (by decide), List.append_nil]
  have hd : (u ++ (')' :: rest)).dropWhile (fun c => c ≠ ')') = ')' :: rest := by
    rw [dropWhile_append_all (dropWhile_all hp)]
    exact List.dropWhile_cons_of_neg (by decide)
  have hie : u.isEmpty = false := by
    cases u with
    | nil => exact absurd rfl hne
    | cons c cs => rfl
  simp only [tryLink, if_pos (by decide : (glyphLink = glyphLink && ']' = ']'
    && '(' = '(') = true), ht, hd, hie]
  simp

/-! Fuel irrelevance and equations for the hyperlink extractor. -/

theorem linkExtractFuel_cons (f : Nat) (c : Char) (t : LC) :
    linkExtractFuel (f + 1) (c :: t)
      = if c = '[' then
          match tryLink t with
          | some (u, rest) =>
            (u :: (linkExtractFuel f rest).1, (linkExtractFuel f rest).2)
          | Option.none => ((linkExtractFuel f t).1, c :: (linkExtractFuel f t).2)
        else ((linkExtractFuel f t).1, c :: (linkExtractFuel f t).2) := rfl

theorem linkExtractFuel_irrel : ∀ f s, s.length ≤ f → linkExtractFuel f s = linkExtractAux s := by
  intro f
  induction f using Nat.strong_induction_on with
  | _ f ih =>
    intro s hs
    match s with
    | [] =>
      match f with
      | 0 => rfl
      | f' + 1 => rfl
    | c :: t =>
      match f, hs with
      | f' + 1, hs =>
        have ht : t.length ≤ f' := by simpa using hs
        show linkExtractFuel (f' + 1) (c :: t) = linkExtractFuel (t.length + 1) (c :: t)
        rw [linkExtractFuel_cons, linkExtractFuel_cons]
        by_cases hc : c = '['
        · rw [if_pos hc, if_pos hc]
          cases htl : tryLink t with
          | none =>
            dsimp only
            rw [ih f' (by omega) t ht, ih t.length (by omega) t le_rfl]
          | some p =>
            obtain ⟨u, rest⟩ := p
            have hr : rest.length < t.length := tryLink_len htl
            dsimp only
            rw [ih f' (by omega) rest (by omega), ih t.length (by omega) rest (by omega)]
        · rw [if_neg hc, if_neg hc, ih f' (by omega) t ht, ih t.length (by omega) t le_rfl]

theorem linkExtractAux_nil : linkExtractAux [] = ([], []) := rfl

theorem linkExtractAux_cons_no {c : Char} (hc : c ≠ '[') (t : LC) :
    linkExtractAux (c :: t) = ((linkExtractAux t).1, c :: (linkExtractAux t).2) := by
  show linkExtractFuel (t.length + 1) (c :: t) = _
  rw [linkExtractFuel_cons, if_neg hc, linkExtractFuel_irrel t.length t le_rfl]

theorem linkExtractAux_cons_hit {t u rest : LC} (ht : tryLink t = some (u, rest)) :
    linkExtractAux ('[' :: t) = (u :: (linkExtractAux rest).1, (linkExtractAux rest).2) := by
  show linkExtractFuel (t.length + 1) ('[' :: t) = _
  rw [linkExtractFuel_cons, if_pos rfl, ht]
  dsimp only
  rw [linkExtractFuel_irrel t.length rest (le_of_lt (tryLink_len ht))]

theorem linkExtractAux_append {A : LC} (hA : ∀ c ∈ A, c ≠ '[') (B : LC) :
    linkExtractAux (A ++ B) = ((linkExtractAux B).1, A ++ (linkExtractAux B).2) := by
  induction A with
  | nil => rfl
  | cons a A2 ih =>
    rw [List.cons_append, linkExtractAux_cons_no (hA a (List.mem_cons_self a A2)),
      ih (fun c hc => hA c (List.mem_cons_of_mem a hc))]
    rfl

/-! ### Claim C2: the rendered hyperlink region -/

/-- The space-joined markdown links for a list of URLs (the second
factor of link_text). -/
def linksRender (ul : List LC) : LC :=
  joinSp (ul.map (fun u => lc "[🔗](" ++ u ++ lc ")"))

theorem linkTextOf_eq {ls : List Hyperlink} (h : ls ≠ []) :
    linkTextOf ls = ' ' :: linksRender (ls.map (fun h2 => h2.url)) := by
  unfold linkTextOf linksRender
  rw [if_neg h, List.map_map]
  rfl

theorem linksRender_one (u : LC) : linksRender [u] = lc "[🔗](" ++ u ++ lc ")" := by
  unfold linksRender joinSp
  simp [List.intersperse]

theorem linksRender_cons (u v : LC) (us : List LC) :
    linksRender (u :: v :: us)
      = (lc "[🔗](" ++ u ++ lc ")") ++ (' ' :: linksRender (v :: us)) := by
  unfold linksRender joinSp
  simp only [List.map_cons, List.intersperse]
  simp [lc, List.append_assoc]

theorem linksRender_shape (u : LC) (T : LC) :
    (lc "[🔗](" ++ u ++ lc ")") ++ T
      = '[' :: (glyphLink :: (']' :: ('(' :: (u ++ (')' :: T))))) := by
  simp [lc, glyphLink, List.append_assoc]

theorem linksRender_last : ∀ us u, ∃ a, linksRender (u :: us) = a ++ [')'] := by
  intro us
  induction us with
  | nil =>
    intro u
    refine ⟨lc "[🔗](" ++ u, ?_⟩
    rw [linksRender_one]
    simp [lc, List.append_assoc]
  | cons v vs ih =>
    intro u
    obtain ⟨a, ha⟩ := ih v
    refine ⟨(lc "[🔗](" ++ u ++ lc ")") ++ (' ' :: a), ?_⟩
    rw [linksRender_cons, ha]
    simp [List.append_assoc]

theorem linksRender_rstrip (u : LC) (us : List LC) :
    rstripL (linksRender (u :: us)) = linksRender (u :: us) := by
  obtain ⟨a, ha⟩ := linksRender_last us u
  rw [ha]
  exact rstripL_append_right (by decide) (by simp)

theorem linkExtractAux_links : ∀ us u, cleanUrl u = true → (∀ w ∈ us, cleanUrl w = true) →
    linkExtractAux (linksRender (u :: us)) = (u :: us, List.replicate us.length ' ') := by
  intro us
  induction us with
  | nil =>
    intro u hu _
    rw [linksRender_one, show lc "[🔗](" ++ u ++ lc ")" = (lc "[🔗](" ++ u ++ lc ")") ++ [] from
      (List.append_nil _).symm, linksRender_shape]
    have ht : tryLink (glyphLink :: (']' :: ('(' :: (u ++ (')' :: []))))) = some (u, []) :=
      tryLink_hit (cleanUrl_ne_nil hu) (fun c hc => (cleanUrl_chars hu c hc).2.1) []
    rw [linkExtractAux_cons_hit ht]
    rfl
  | cons v vs ih =>
    intro u hu hw
    rw [linksRender_cons, linksRender_shape]
    have ht : tryLink (glyphLink :: (']' :: ('(' :: (u ++ (')' :: (' ' :: linksRender (v :: vs)))))))
        = some (u, ' ' :: linksRender (v :: vs)) :=
      tryLink_hit (cleanUrl_ne_nil hu) (fun c hc => (cleanUrl_chars hu c hc).2.1) _
    rw [linkExtractAux_cons_hit ht,
      linkExtractAux_cons_no (by decide) (linksRender (v :: vs)),
      ih v (hw v (List.mem_cons_self v vs)) (fun w hv => hw w (List.mem_cons_of_mem v hv))]
    rfl

theorem pctFindAux_links : ∀ us u, cleanUrl u = true → (∀ w ∈ us, cleanUrl w = true) →
    pctFindAux (linksRender (u :: us)) = Option.none := by
  intro us
  induction us with
  | nil =>
    intro u hu _
    rw [linksRender_one, show lc "[🔗](" ++ u ++ lc ")" = (lc "[🔗](" ++ u ++ lc ")") ++ [] from
      (List.append_nil _).symm, linksRender_shape]
    have h3 : ∀ c ∈ ['[', glyphLink, ']'], c ≠ '(' := by decide
    rw [show '[' :: (glyphLink :: (']' :: ('(' :: (u ++ (')' :: [])))))
        = ['[', glyphLink, ']'] ++ ('(' :: (u ++ (')' :: []))) from rfl,
      pctFindAux_append h3, pctFindAux_cons, if_pos rfl,
      tryPct_fail_url hu []]
    have hin : pctFindAux (u ++ (')' :: ([] : LC))) = Option.none := by
      rw [pctFindAux_append (fun c hc => (reservedChar_false (cleanUrl_chars hu c hc).1).2.1),
        pctFindAux_cons, if_neg (by decide)]
      rfl
    rw [hin]
    rfl
  | cons v vs ih =>
    intro u hu hw
    rw [linksRender_cons, linksRender_shape]
    have h3 : ∀ c ∈ ['[', glyphLink, ']'], c ≠ '(' := by decide
    rw [show '[' :: (glyphLink :: (']' :: ('(' :: (u ++ (')' :: (' ' :: linksRender (v :: vs)))))))
        = ['[', glyphLink, ']'] ++ ('(' :: (u ++ (')' :: (' ' :: linksRender (v :: vs))))) from rfl,
      pctFindAux_append h3, pctFindAux_cons, if_pos rfl,
      tryPct_fail_url hu (' ' :: linksRender (v :: vs))]
    have hin : pctFindAux (u ++ (')' :: (' ' :: linksRender (v :: vs)))) = Option.none := by
      rw [pctFindAux_append (fun c hc => (reservedChar_false (cleanUrl_chars hu c hc).1).2.1),
        pctFindAux_cons, if_neg (by decide),
        show pctFindAux (' ' :: linksRender (v :: vs))
          = (pctFindAux (linksRender (v :: vs))).map
              (fun p => (' ' :: p.1, p.2.1, p.2.2)) from by
            rw [pctFindAux_cons, if_neg (by decide)],
        ih v (hw v (List.mem_cons_self v vs)) (fun w hv => hw w (List.mem_cons_of_mem v hv))]
      rfl
    rw [hin]
    rfl

/-! ### Claim C2: shapes of the emitted task metadata -/

/-- The due-date fragment of the item line, leading separator included. -/
def dueStrOf : Option DateTime → LC
  | some d => ' ' :: (glyphDate :: (' ' :: fmtYmd d))
  | Option.none => []

/-- The percentage fragment of the item line, leading separator included. -/
def pctStrOf : Option Nat → LC
  | some n => ' ' :: ('(' :: (natToC n ++ lc "%)"))
  | Option.none => []

/-- The percentage fragment without its leading separator. -/
def pctCoreOf : Option Nat → LC
  | some n => '(' :: (natToC n ++ lc "%)")
  | Option.none => []

/-- The hyperlink fragment of the item line, leading separator included. -/
def lnkStrOf : List LC → LC
  | [] => []
  | u :: us => ' ' :: linksRender (u :: us)

/-- The hyperlink fragment without its leading separator. -/
def lnkCoreOf : List LC → LC
  | [] => []
  | u :: us => linksRender (u :: us)

/-- The priority fragment of the item line, leading separator included. -/
def prioStrOf : Priority → LC
  | Priority.none => []
  | Priority.high => [' ', glyphHigh]
  | Priority.medium => [' ', glyphMed]
  | Priority.low => [' ', glyphLow]

/-- The percentage value the encoder renders, when it renders one. -/
def pctEmit (tk : Task) : Option Nat :=
  if 0 < tk.percentage && tk.percentage < 100 then some tk.percentage.toNat else Option.none

/-- A due date the outline transports verbatim: a valid datetime at
midnight with a four-digit year. -/
def cleanDue : Option DateTime → Bool
  | Option.none => true
  | some d => validDT d && decide (1000 ≤ d.year) && decide (d.hour = 0) &&
      decide (d.minute = 0) && decide (d.second = 0)

/-- A task the outline transports verbatim: percentage within the
meaningful range and a clean due date; the start date is not encoded. -/
def cleanTask (tk : Task) : Bool :=
  decide (0 ≤ tk.percentage) && decide (tk.percentage ≤ 100) && cleanDue tk.due

theorem taskMetaOf_shape (tk : Task) :
    taskMetaOf (some tk)
      = prioStrOf tk.priority ++ (dueStrOf tk.due ++ pctStrOf (pctEmit tk)) := by
  obtain ⟨pc, pr, du, st⟩ := tk
  by_cases hp : (0 < pc && pc < 100) = true
  · have h0 : ¬ pc < 0 := by
      simp only [Bool.and_eq_true, decide_eq_true_eq] at hp
      omega
    cases pr <;> cases du <;>
      simp [taskMetaOf, metaParts, joinSp, prioStrOf, dueStrOf, pctStrOf, pctEmit, hp, h0,
        intToC, List.intersperse, lc, List.append_assoc]
  · cases pr <;> cases du <;>
      simp [taskMetaOf, metaParts, joinSp, prioStrOf, dueStrOf, pctStrOf, pctEmit, hp,
        List.intersperse, lc, List.append_assoc]

theorem digit_ne {c : Char} (h : c.isDigit = true) :
    c ≠ glyphDate ∧ c ≠ '(' ∧ c ≠ '[' ∧ c ≠ glyphHigh ∧ c ≠ glyphMed ∧ c ≠ glyphLow ∧
    c ≠ '\n' := by
  refine ⟨?_, ?_, ?_, ?_, ?_, ?_, ?_⟩ <;>
    (intro he; rw [he] at h; exact absurd h (by decide))

theorem pad2_digits (n : Nat) : ∀ c ∈ pad2 n, c.isDigit = true := by
  intro c hc
  unfold pad2 at hc
  split at hc
  · rcases List.mem_cons.mp hc with h | h
    · rw [h]; decide
    · exact natToC_digits n c h
  · exact natToC_digits n c hc

theorem fmtYmd_chars (d : DateTime) : ∀ c ∈ fmtYmd d, c.isDigit = true ∨ c = '-' := by
  intro c hc
  unfold fmtYmd at hc
  simp only [lc, List.append_assoc, List.mem_append] at hc
  rcases hc with h | h | h | h | h
  · exact Or.inl (natToC_digits _ c h)
  · simp at h; exact Or.inr h
  · exact Or.inl (pad2_digits _ c h)
  · simp at h; exact Or.inr h
  · exact Or.inl (pad2_digits _ c h)

theorem linksRender_chars : ∀ us u, cleanUrl u = true → (∀ w ∈ us, cleanUrl w = true) →
    ∀ c ∈ linksRender (u :: us),
      c = '[' ∨ c = glyphLink ∨ c = ']' ∨ c = '(' ∨ c = ')' ∨ c = ' '
      ∨ (reservedChar c = false ∧ c ≠ ')' ∧ c ≠ '%') := by
  intro us
  induction us with
  | nil =>
    intro u hu _ c hc
    rw [linksRender_one] at hc
    simp only [lc, List.append_assoc, List.mem_append] at hc
    rcases hc with h | h | h
    · simp at h
      rcases h with h | h | h | h
      · exact Or.inl h
      · exact Or.inr (Or.inl h)
      · exact Or.inr (Or.inr (Or.inl h))
      · exact Or.inr (Or.inr (Or.inr (Or.inl h)))
    · exact Or.inr (Or.inr (Or.inr (Or.inr (Or.inr (Or.inr (cleanUrl_chars hu c h))))))
    · simp at h
      exact Or.inr (Or.inr (Or.inr (Or.inr (Or.inl h))))
  | cons v vs ih =>
    intro u hu hw c hc
    rw [linksRender_cons] at hc
    rcases List.mem_append.mp hc with h | h
    · simp only [lc, List.append_assoc, List.mem_append] at h
      rcases h with h | h | h
      · simp at h
        rcases h with h | h | h | h
        · exact Or.inl h
        · exact Or.inr (Or.inl h)
        · exact Or.inr (Or.inr (Or.inl h))
        · exact Or.inr (Or.inr (Or.inr (Or.inl h)))
      · exact Or.inr (Or.inr (Or.inr (Or.inr (Or.inr (Or.inr (cleanUrl_chars hu c h))))))
      · simp at h
        exact Or.inr (Or.inr (Or.inr (Or.inr (Or.inl h))))
    · rcases List.mem_cons.mp h with h | h
      · exact Or.inr (Or.inr (Or.inr (Or.inr (Or.inr (Or.inl h)))))
      · exact ih v (hw v (List.mem_cons_self v vs))
          (fun w hv => hw w (List.mem_cons_of_mem v hv)) c h

theorem txSp_no_par {tx : LC} (htx : cleanText tx = true) (g : Nat) :
    ∀ c ∈ tx ++ List.replicate g ' ', c ≠ '(' := by
  intro c hc
  rcases List.mem_append.mp hc with h | h
  · exact (reservedChar_false (cleanText_res htx c h)).2.1
  · rw [(List.mem_replicate.mp h).2]; decide

theorem txSp_no_brk {tx : LC} (htx : cleanText tx = true) (g : Nat) :
    ∀ c ∈ tx ++ List.replicate g ' ', c ≠ '[' := by
  intro c hc
  rcases List.mem_append.mp hc with h | h
  · exact (reservedChar_false (cleanText_res htx c h)).2.2.1
  · rw [(List.mem_replicate.mp h).2]; decide

theorem stripL_txSp {tx : LC} (htx : cleanText tx = true) (g : Nat) :
    stripL (tx ++ List.replicate g ' ') = tx :=
  stripL_stable_append_sp (cleanText_strip htx) (cleanText_ne_nil htx) g

theorem linkExtractAux_clean {s : LC} (h : ∀ c ∈ s, c ≠ '[') : linkExtractAux s = ([], s) := by
  have h2 := linkExtractAux_append h []
  rw [List.append_nil, linkExtractAux_nil] at h2
  simpa using h2

theorem linksRender_head (u : LC) (us : List LC) :
    ∃ a, linksRender (u :: us) = '[' :: a := by
  cases us with
  | nil =>
    refine ⟨glyphLink :: (']' :: ('(' :: (u ++ (')' :: [])))), ?_⟩
    rw [linksRender_one, show lc "[🔗](" ++ u ++ lc ")" = (lc "[🔗](" ++ u ++ lc ")") ++ [] from
      (List.append_nil _).symm, linksRender_shape]
  | cons v vs =>
    exact ⟨glyphLink :: (']' :: ('(' :: (u ++ (')' :: (' ' :: linksRender (v :: vs)))))),
      by rw [linksRender_cons, linksRender_shape]⟩

theorem stripL_spLnk (g : Nat) (u : LC) (us : List LC) :
    stripL (List.replicate g ' ' ++ lnkCoreOf (u :: us)) = lnkCoreOf (u :: us) := by
  show stripL (List.replicate g ' ' ++ linksRender (u :: us)) = linksRender (u :: us)
  obtain ⟨a, ha⟩ := linksRender_head u us
  unfold stripL
  rw [show lstripL (List.replicate g ' ' ++ linksRender (u :: us))
      = lstripL (linksRender (u :: us)) from lstripL_replicate_sp g _, ha,
    lstripL_cons_nws (by decide), ← ha, linksRender_rstrip]

theorem replicate_sp_merge (g1 g2 : Nat) (L : LC) :
    List.replicate g1 ' ' ++ (List.replicate g2 ' ' ++ L)
      = List.replicate (g1 + g2) ' ' ++ L := by
  rw [List.replicate_add, List.append_assoc]

/-- The percentage a parsed task ends up with: the matched value when
the scanner matched, the prior value otherwise. -/
def pctUpd (p0 : Int) : Option Nat → Int
  | some n => (n : Int)
  | Option.none => p0

/-- The due date a parsed task ends up with. -/
def dueUpd (d0 : Option DateTime) : Option DateTime → Option DateTime
  | some d => some d
  | Option.none => d0

/-- The percentage-hyperlink-trim tail of the item parser on a clean
text followed by optional spacing, an optional percentage fragment and
an optional hyperlink fragment: it reads back exactly the emitted data. -/
theorem mdTail_clean (tk2 : Task) (tx : LC) (g1 g2 : Nat) (pctO : Option Nat) (ul : List LC)
    (htx : cleanText tx = true) (hul : ∀ w ∈ ul, cleanUrl w = true)
    (hpc : ∀ n, pctO = some n → tk2.percentage < 100) :
    mdTail (tk2, tx ++ (List.replicate g1 ' '
        ++ (pctCoreOf pctO ++ (List.replicate g2 ' ' ++ lnkCoreOf ul))))
      = .ok (.mk [] tx
          (some { tk2 with percentage := pctUpd tk2.percentage pctO })
          [] (ul.map (fun u => ({ url := u } : Hyperlink))) Option.none Option.none [] []) := by
  cases pctO with
  | none =>
    have hsh : tx ++ (List.replicate g1 ' ' ++ (pctCoreOf Option.none
        ++ (List.replicate g2 ' ' ++ lnkCoreOf ul)))
        = (tx ++ List.replicate (g1 + g2) ' ') ++ lnkCoreOf ul := by
      rw [show pctCoreOf Option.none = [] from rfl, List.nil_append, replicate_sp_merge,
        List.append_assoc]
    rw [hsh]
    cases ul with
    | nil =>
      rw [show lnkCoreOf ([] : List LC) = [] from rfl, List.append_nil]
      have hp : pctFindAux (tx ++ List.replicate (g1 + g2) ' ') = Option.none :=
        pctFindAux_none (txSp_no_par htx _)
      have hle : linkExtractAux (tx ++ List.replicate (g1 + g2) ' ')
          = ([], tx ++ List.replicate (g1 + g2) ' ') :=
        linkExtractAux_clean (txSp_no_brk htx _)
      unfold mdTail
      rw [show ((tk2, tx ++ List.replicate (g1 + g2) ' ') : Task × LC).2
          = tx ++ List.replicate (g1 + g2) ' ' from rfl, hp]
      dsimp only
      rw [hle]
      dsimp only
      rw [stripL_txSp htx, cleanText_strip htx]
      rfl
    | cons u us =>
      have hu : cleanUrl u = true := hul u (List.mem_cons_self u us)
      have hus : ∀ w ∈ us, cleanUrl w = true := fun w hw => hul w (List.mem_cons_of_mem u hw)
      have hp : pctFindAux ((tx ++ List.replicate (g1 + g2) ' ') ++ lnkCoreOf (u :: us))
          = Option.none := by
        rw [show lnkCoreOf (u :: us) = linksRender (u :: us) from rfl,
          pctFindAux_append (txSp_no_par htx _), pctFindAux_links us u hu hus]
        rfl
      have hle : linkExtractAux ((tx ++ List.replicate (g1 + g2) ' ') ++ lnkCoreOf (u :: us))
          = (u :: us, (tx ++ List.replicate (g1 + g2) ' ') ++ List.replicate us.length ' ') := by
        rw [show lnkCoreOf (u :: us) = linksRender (u :: us) from rfl,
          linkExtractAux_append (txSp_no_brk htx _), linkExtractAux_links us u hu hus]
      unfold mdTail
      rw [show ((tk2, (tx ++ List.replicate (g1 + g2) ' ') ++ lnkCoreOf (u :: us)) : Task × LC).2
          = (tx ++ List.replicate (g1 + g2) ' ') ++ lnkCoreOf (u :: us) from rfl, hp]
      dsimp only
      rw [hle]
      dsimp only
      rw [show (tx ++ List.replicate (g1 + g2) ' ') ++ List.replicate us.length ' '
          = tx ++ List.replicate (g1 + g2 + us.length) ' ' from by
        rw [List.append_assoc, ← List.replicate_add], stripL_txSp htx, cleanText_strip htx]
      rfl
  | some n =>
    have hlt : tk2.percentage < 100 := hpc n rfl
    have hsh : tx ++ (List.replicate g1 ' ' ++ (pctCoreOf (some n)
        ++ (List.replicate g2 ' ' ++ lnkCoreOf ul)))
        = (tx ++ List.replicate g1 ' ')
          ++ ('(' :: (natToC n ++ ('%' :: (')' :: (List.replicate g2 ' ' ++ lnkCoreOf ul))))) := by
      simp [pctCoreOf, lc, List.append_assoc]
    rw [hsh]
    have hp : pctFindAux ((tx ++ List.replicate g1 ' ')
        ++ ('(' :: (natToC n ++ ('%' :: (')' :: (List.replicate g2 ' ' ++ lnkCoreOf ul))))))
        = some (tx ++ List.replicate g1 ' ', n, List.replicate g2 ' ' ++ lnkCoreOf ul) :=
      pctFindAux_hit (txSp_no_par htx _) (tryPct_hit n _)
    unfold mdTail
    rw [show ((tk2, (tx ++ List.replicate g1 ' ')
        ++ ('(' :: (natToC n ++ ('%' :: (')' :: (List.replicate g2 ' ' ++ lnkCoreOf ul)))))) :
        Task × LC).2
        = (tx ++ List.replicate g1 ' ')
          ++ ('(' :: (natToC n ++ ('%' :: (')' :: (List.replicate g2 ' ' ++ lnkCoreOf ul)))))
        from rfl, hp]
    dsimp only
    rw [if_pos (show ((tk2, (tx ++ List.replicate g1 ' ')
        ++ ('(' :: (natToC n ++ ('%' :: (')' :: (List.replicate g2 ' ' ++ lnkCoreOf ul)))))) :
        Task × LC).1.percentage < 100 from hlt)]
    rw [stripL_txSp htx]
    cases ul with
    | nil =>
      rw [show lnkCoreOf ([] : List LC) = [] from rfl, List.append_nil,
        show stripL (List.replicate g2 ' ') = [] from by
          have h := stripL_stable_append_sp (a := lc "x") (by decide) (by decide) g2
          have h2 := stripL_replicate_sp g2
          exact h2, List.append_nil]
      have hle : linkExtractAux tx = ([], tx) := by
        apply linkExtractAux_clean
        intro c hc
        exact (reservedChar_false (cleanText_res htx c hc)).2.2.1
      rw [hle]
      dsimp only
      rw [cleanText_strip htx, cleanText_strip htx]
      rfl
    | cons u us =>
      have hu : cleanUrl u = true := hul u (List.mem_cons_self u us)
      have hus : ∀ w ∈ us, cleanUrl w = true := fun w hw => hul w (List.mem_cons_of_mem u hw)
      rw [stripL_spLnk g2 u us, show lnkCoreOf (u :: us) = linksRender (u :: us) from rfl]
      have hle : linkExtractAux (tx ++ linksRender (u :: us))
          = (u :: us, tx ++ List.replicate us.length ' ') := by
        rw [show tx ++ linksRender (u :: us) = (tx ++ List.replicate 0 ' ')
            ++ linksRender (u :: us) from by simp,
          linkExtractAux_append (txSp_no_brk htx 0), linkExtractAux_links us u hu hus]
        simp
      rw [hle]
      dsimp only
      rw [stripL_txSp htx, cleanText_strip htx]
      rfl

/-- Width of the separator the encoder places before the percentage
fragment. -/
def pctSep : Option Nat → Nat
  | some _ => 1
  | Option.none => 0

/-- Width of the separator the encoder places before the hyperlink
fragment. -/
def lnkSep : List LC → Nat
  | [] => 0
  | _ :: _ => 1

/-- Width of the separator left between the percentage and hyperlink
fragments after the due-date match is cut out. -/
def qSep : Option Nat → List LC → Nat
  | some _, ul => lnkSep ul
  | Option.none, _ => 0

theorem pctStrOf_sep (pctO : Option Nat) :
    pctStrOf pctO = List.replicate (pctSep pctO) ' ' ++ pctCoreOf pctO := by
  cases pctO <;> rfl

theorem lnkStrOf_sep (ul : List LC) :
    lnkStrOf ul = List.replicate (lnkSep ul) ' ' ++ lnkCoreOf ul := by
  cases ul <;> rfl

theorem dueNone_shape (tx : LC) (g : Nat) (pctO : Option Nat) (ul : List LC) :
    tx ++ (List.replicate g ' ' ++ (dueStrOf Option.none ++ (pctStrOf pctO ++ lnkStrOf ul)))
      = tx ++ (List.replicate (g + pctSep pctO) ' '
          ++ (pctCoreOf pctO ++ (List.replicate (lnkSep ul) ' ' ++ lnkCoreOf ul))) := by
  rw [show dueStrOf Option.none = [] from rfl, List.nil_append, pctStrOf_sep, lnkStrOf_sep]
  cases pctO with
  | none =>
    rw [show pctSep Option.none = 0 from rfl, show pctCoreOf Option.none = [] from rfl]
    simp
  | some n =>
    rw [show pctSep (some n) = 1 from rfl, List.append_assoc, replicate_sp_merge]

theorem linksRender_ne_nil (u : LC) (us : List LC) : linksRender (u :: us) ≠ [] := by
  obtain ⟨a, ha⟩ := linksRender_head u us
  rw [ha]
  simp

theorem pctCore_last (n : Nat) :
    pctCoreOf (some n) = ('(' :: (natToC n ++ ['%'])) ++ [')'] := by
  simp [pctCoreOf, lc, List.append_assoc]

theorem stripL_q (pctO : Option Nat) (ul : List LC) :
    stripL (pctStrOf pctO ++ lnkStrOf ul)
      = pctCoreOf pctO ++ (List.replicate (qSep pctO ul) ' ' ++ lnkCoreOf ul) := by
  cases pctO with
  | none =>
    cases ul with
    | nil => rfl
    | cons u us =>
      show stripL (' ' :: linksRender (u :: us)) = [] ++ ([] ++ linksRender (u :: us))
      obtain ⟨a, ha⟩ := linksRender_head u us
      unfold stripL
      rw [show lstripL (' ' :: linksRender (u :: us)) = lstripL (linksRender (u :: us)) from
        lstripL_cons_ws (by decide) _, ha, lstripL_cons_nws (by decide), ← ha,
        linksRender_rstrip]
      simp
  | some n =>
    have h3 : rstripL (pctCoreOf (some n)) = pctCoreOf (some n) := by
      rw [pctCore_last]
      exact rstripL_append_right (by decide) (by simp)
    cases ul with
    | nil =>
      show stripL ((' ' :: pctCoreOf (some n)) ++ []) = pctCoreOf (some n) ++ ([] ++ [])
      rw [List.append_nil]
      unfold stripL
      rw [show lstripL (' ' :: pctCoreOf (some n)) = lstripL (pctCoreOf (some n)) from
        lstripL_cons_ws (by decide) _,
        show lstripL (pctCoreOf (some n)) = pctCoreOf (some n) from
          lstripL_cons_nws (by decide) _, h3]
      simp
    | cons u us =>
      show stripL ((' ' :: pctCoreOf (some n)) ++ (' ' :: linksRender (u :: us)))
        = pctCoreOf (some n) ++ (List.replicate 1 ' ' ++ linksRender (u :: us))
      rw [List.cons_append]
      unfold stripL
      rw [show lstripL (' ' :: (pctCoreOf (some n) ++ (' ' :: linksRender (u :: us))))
          = lstripL (pctCoreOf (some n) ++ (' ' :: linksRender (u :: us))) from
        lstripL_cons_ws (by decide) _]
      rw [show lstripL (pctCoreOf (some n) ++ (' ' :: linksRender (u :: us)))
          = pctCoreOf (some n) ++ (' ' :: linksRender (u :: us)) from by
        rw [show pctCoreOf (some n) ++ (' ' :: linksRender (u :: us))
            = '(' :: ((natToC n ++ lc "%)") ++ (' ' :: linksRender (u :: us))) from by
          simp [pctCoreOf, List.append_assoc]]
        exact lstripL_cons_nws (by decide) _]
      rw [show pctCoreOf (some n) ++ (' ' :: linksRender (u :: us))
          = (pctCoreOf (some n) ++ [' ']) ++ linksRender (u :: us) from by
        simp [List.append_assoc]]
      rw [rstripL_append_right (linksRender_rstrip u us) (linksRender_ne_nil u us)]
      simp [List.append_assoc]

/-- The due-date stage and everything behind it, on a clean text
followed by the emitted metadata fragments. -/
theorem mdDueBind_clean (tk1 : Task) (tx : LC) (g : Nat) (dueO : Option DateTime)
    (pctO : Option Nat) (ul : List LC)
    (htx : cleanText tx = true) (hdue : cleanDue dueO = true)
    (hul : ∀ w ∈ ul, cleanUrl w = true)
    (hpc : ∀ n, pctO = some n → tk1.percentage < 100) :
    mdDueBind tk1 (tx ++ (List.replicate g ' '
        ++ (dueStrOf dueO ++ (pctStrOf pctO ++ lnkStrOf ul))))
      = .ok (.mk [] tx
          (some { tk1 with
                  due := dueUpd tk1.due dueO,
                  percentage := pctUpd tk1.percentage pctO })
          [] (ul.map (fun u => ({ url := u } : Hyperlink))) Option.none Option.none [] []) := by
  cases dueO with
  | none =>
    rw [dueNone_shape]
    have hnd : ∀ c ∈ tx ++ (List.replicate (g + pctSep pctO) ' '
        ++ (pctCoreOf pctO ++ (List.replicate (lnkSep ul) ' ' ++ lnkCoreOf ul))),
        c ≠ glyphDate := by
      intro c hc
      simp only [List.mem_append] at hc
      rcases hc with h | h | h | h | h
      · exact (reservedChar_false (cleanText_res htx c h)).2.2.2.2.2.2.1
      · rw [(List.mem_replicate.mp h).2]; decide
      · cases pctO with
        | none => simp [pctCoreOf] at h
        | some n =>
          rw [pctCore_last] at h
          simp only [List.mem_append] at h
          rcases h with h | h
          · rcases List.mem_cons.mp h with h | h
            · rw [h]; decide
            · rcases List.mem_append.mp h with h | h
              · exact (digit_ne (natToC_digits n c h)).1
              · simp at h; rw [h]; decide
          · simp at h; rw [h]; decide
      · rw [(List.mem_replicate.mp h).2]; decide
      · cases ul with
        | nil => simp [lnkCoreOf] at h
        | cons u us =>
          have hd := linksRender_chars us u (hul u (List.mem_cons_self u us))
            (fun w hw => hul w (List.mem_cons_of_mem u hw)) c h
          rcases hd with h2 | h2 | h2 | h2 | h2 | h2 | h2
          · rw [h2]; decide
          · rw [h2]; decide
          · rw [h2]; decide
          · rw [h2]; decide
          · rw [h2]; decide
          · rw [h2]; decide
          · exact (reservedChar_false h2.1).2.2.2.2.2.2.1
    unfold mdDueBind
    rw [dateFindAux_none hnd]
    exact mdTail_clean tk1 tx (g + pctSep pctO) (lnkSep ul) pctO ul htx hul hpc
  | some d =>
    obtain ⟨y, mo, dd, hh, mi, ss⟩ := d
    have hdue2 := hdue
    simp only [cleanDue, Bool.and_eq_true, decide_eq_true_eq] at hdue2
    obtain ⟨⟨⟨⟨hv, hy⟩, hh0⟩, hm0⟩, hs0⟩ := hdue2
    subst hh0 hm0 hs0
    have hsh : tx ++ (List.replicate g ' '
        ++ (dueStrOf (some ⟨y, mo, dd, 0, 0, 0⟩) ++ (pctStrOf pctO ++ lnkStrOf ul)))
        = (tx ++ List.replicate (g + 1) ' ')
          ++ (glyphDate :: (' ' :: (fmtYmd ⟨y, mo, dd, 0, 0, 0⟩
              ++ (pctStrOf pctO ++ lnkStrOf ul)))) := by
      rw [show dueStrOf (some ⟨y, mo, dd, 0, 0, 0⟩)
          = ' ' :: (glyphDate :: (' ' :: fmtYmd ⟨y, mo, dd, 0, 0, 0⟩)) from rfl]
      rw [show ((' ' :: (glyphDate :: (' ' :: fmtYmd ⟨y, mo, dd, 0, 0, 0⟩)))
            ++ (pctStrOf pctO ++ lnkStrOf ul) : LC)
          = List.replicate 1 ' ' ++ (glyphDate :: (' ' :: (fmtYmd ⟨y, mo, dd, 0, 0, 0⟩
              ++ (pctStrOf pctO ++ lnkStrOf ul)))) from by
        simp [List.append_assoc]]
      rw [replicate_sp_merge, ← List.append_assoc]
    have hA : ∀ c ∈ tx ++ List.replicate (g + 1) ' ', c ≠ glyphDate := by
      intro c hc
      rcases List.mem_append.mp hc with h | h
      · exact (reservedChar_false (cleanText_res htx c h)).2.2.2.2.2.2.1
      · rw [(List.mem_replicate.mp h).2]; decide
    have htd := tryDateAt_hit hv hy (pctStrOf pctO ++ lnkStrOf ul)
    unfold mdDueBind
    rw [hsh, dateFindAux_hit hA htd]
    rw [show dueStepF tk1 ((tx ++ List.replicate (g + 1) ' ')
          ++ (glyphDate :: (' ' :: (fmtYmd ⟨y, mo, dd, 0, 0, 0⟩
              ++ (pctStrOf pctO ++ lnkStrOf ul)))))
          (some (tx ++ List.replicate (g + 1) ' ', fmtYmd ⟨y, mo, dd, 0, 0, 0⟩,
            pctStrOf pctO ++ lnkStrOf ul))
        = match strptimeYmd (fmtYmd ⟨y, mo, dd, 0, 0, 0⟩) with
          | Except.ok d2 => Except.ok ({ tk1 with due := some d2 },
              stripL (tx ++ List.replicate (g + 1) ' ')
                ++ stripL (pctStrOf pctO ++ lnkStrOf ul))
          | Except.error PyErr.valueError => Except.ok (tk1,
              stripL (tx ++ List.replicate (g + 1) ' ')
                ++ stripL (pctStrOf pctO ++ lnkStrOf ul))
          | Except.error e => Except.error e from rfl]
    rw [strptimeYmd_fmtYmd hv hy]
    show mdTail ({ tk1 with due := some ⟨y, mo, dd, 0, 0, 0⟩ },
      stripL (tx ++ List.replicate (g + 1) ' ') ++ stripL (pctStrOf pctO ++ lnkStrOf ul)) = _
    rw [stripL_txSp htx, stripL_q]
    exact mdTail_clean { tk1 with due := some ⟨y, mo, dd, 0, 0, 0⟩ } tx 0 (qSep pctO ul)
      pctO ul htx hul hpc

/-! ### Claim C2: the priority stage on an emitted item body -/

theorem contains_cons (x : Char) (t : LC) (g : Char) :
    (x :: t).contains g = (g == x || t.contains g) := by
  cases h : g == x <;> simp [List.contains, List.elem, h]

theorem contains_false {s : LC} {g : Char} (h : ∀ c ∈ s, c ≠ g) : s.contains g = false := by
  induction s with
  | nil => rfl
  | cons x t ih =>
    rw [contains_cons, beq_eq_false_iff_ne.mpr (Ne.symm (h x (List.mem_cons_self x t))),
      Bool.false_or]
    exact ih (fun c hc => h c (List.mem_cons_of_mem x hc))

theorem contains_true {s : LC} {g : Char} (h : g ∈ s) : s.contains g = true := by
  induction s with
  | nil => simp at h
  | cons x t ih =>
    rw [contains_cons]
    rcases List.mem_cons.mp h with h2 | h2
    · rw [show (g == x) = true from beq_iff_eq.mpr h2]
      rfl
    · rw [ih h2, Bool.or_true]

theorem filter_all {p : Char → Bool} {s : LC} (h : ∀ c ∈ s, p c = true) :
    s.filter p = s := by
  induction s with
  | nil => rfl
  | cons x t ih =>
    rw [List.filter_cons_of_pos (h x (List.mem_cons_self x t)),
      ih (fun c hc => h c (List.mem_cons_of_mem x hc))]

/-- No character of the metadata tail is a priority glyph. -/
theorem tail_chars (due : Option DateTime) (pctO : Option Nat) (ul : List LC)
    (hul : ∀ w ∈ ul, cleanUrl w = true) :
    ∀ c ∈ dueStrOf due ++ (pctStrOf pctO ++ lnkStrOf ul),
      c ≠ glyphHigh ∧ c ≠ glyphMed ∧ c ≠ glyphLow := by
  intro c hc
  rcases List.mem_append.mp hc with h | h
  · cases due with
    | none => simp [dueStrOf] at h
    | some d =>
      simp only [dueStrOf, List.mem_cons] at h
      rcases h with h | h | h | h
      · subst h; exact ⟨by decide, by decide, by decide⟩
      · subst h; exact ⟨by decide, by decide, by decide⟩
      · subst h; exact ⟨by decide, by decide, by decide⟩
      · rcases fmtYmd_chars d c h with hd | hd
        · have h2 := digit_ne hd
          exact ⟨h2.2.2.2.1, h2.2.2.2.2.1, h2.2.2.2.2.2.1⟩
        · subst hd; exact ⟨by decide, by decide, by decide⟩
  · rcases List.mem_append.mp h with h | h
    · cases pctO with
      | none => simp [pctStrOf] at h
      | some n =>
        simp only [pctStrOf, List.mem_cons] at h
        rcases h with h | h | h
        · subst h; exact ⟨by decide, by decide, by decide⟩
        · subst h; exact ⟨by decide, by decide, by decide⟩
        · rcases List.mem_append.mp h with h | h
          · have h2 := digit_ne (natToC_digits n c h)
            exact ⟨h2.2.2.2.1, h2.2.2.2.2.1, h2.2.2.2.2.2.1⟩
          · simp only [lc] at h
            simp at h
            rcases h with h | h <;> (subst h; exact ⟨by decide, by decide, by decide⟩)
    · cases ul with
      | nil => simp [lnkStrOf] at h
      | cons u us =>
        simp only [lnkStrOf, List.mem_cons] at h
        rcases h with h | h
        · subst h; exact ⟨by decide, by decide, by decide⟩
        · have hd := linksRender_chars us u (hul u (List.mem_cons_self u us))
            (fun w hw => hul w (List.mem_cons_of_mem u hw)) c h
          rcases hd with h2 | h2 | h2 | h2 | h2 | h2 | h2
          · subst h2; exact ⟨by decide, by decide, by decide⟩
          · subst h2; exact ⟨by decide, by decide, by decide⟩
          · subst h2; exact ⟨by decide, by decide, by decide⟩
          · subst h2; exact ⟨by decide, by decide, by decide⟩
          · subst h2; exact ⟨by decide, by decide, by decide⟩
          · subst h2; exact ⟨by decide, by decide, by decide⟩
          · have hr := reservedChar_false h2.1
            exact ⟨hr.2.2.2.1, hr.2.2.2.2.1, hr.2.2.2.2.2.1⟩

theorem pad2_ne_nil (n : Nat) : pad2 n ≠ [] := by
  unfold pad2
  split
  · simp
  · exact natToC_ne_nil n

theorem rstripL_pad2 (n : Nat) : rstripL (pad2 n) = pad2 n := by
  apply rstripL_eq_self_of_all
  rw [List.all_eq_true]
  intro c hc
  rw [Bool.not_eq_true']
  exact digit_not_ws (pad2_digits n c hc)

/-- The whole item body after the text is strip-stable as soon as one
fragment is present. -/
theorem stripL_id_tail {tx : LC} (htx : cleanText tx = true) (k : Nat)
    (due : Option DateTime) (pctO : Option Nat) (ul : List LC)
    (hne : ¬(due = Option.none ∧ pctO = Option.none ∧ ul = [])) :
    stripL (tx ++ (List.replicate k ' '
        ++ (dueStrOf due ++ (pctStrOf pctO ++ lnkStrOf ul))))
      = tx ++ (List.replicate k ' '
        ++ (dueStrOf due ++ (pctStrOf pctO ++ lnkStrOf ul))) := by
  obtain ⟨c, tx2, hcs⟩ := List.exists_cons_of_ne_nil (cleanText_ne_nil htx)
  have hnw : isWS c = false := by
    have hsb := (strip_stable_both (cleanText_strip htx)).1
    rw [hcs] at hsb
    exact head_nws_of_lstrip_stable hsb
  have hl : ∀ R : LC, lstripL (tx ++ R) = tx ++ R := by
    intro R
    rw [hcs, List.cons_append]
    exact lstripL_cons_nws hnw _
  unfold stripL
  rw [hl]
  cases ul with
  | cons u us =>
    rw [show tx ++ (List.replicate k ' '
        ++ (dueStrOf due ++ (pctStrOf pctO ++ lnkStrOf (u :: us))))
        = (tx ++ (List.replicate k ' '
            ++ (dueStrOf due ++ (pctStrOf pctO ++ [' '])))) ++ linksRender (u :: us) from by
      simp [lnkStrOf, List.append_assoc]]
    exact rstripL_append_right (linksRender_rstrip u us) (linksRender_ne_nil u us)
  | nil =>
    cases pctO with
    | some n =>
      rw [show tx ++ (List.replicate k ' '
          ++ (dueStrOf due ++ (pctStrOf (some n) ++ lnkStrOf [])))
          = (tx ++ (List.replicate k ' '
              ++ (dueStrOf due ++ (' ' :: ('(' :: (natToC n ++ ['%'])))))) ++ [')'] from by
        simp [pctStrOf, lnkStrOf, lc, List.append_assoc]]
      exact rstripL_append_right (by decide) (by simp)
    | none =>
      cases due with
      | some d =>
        rw [show tx ++ (List.replicate k ' '
            ++ (dueStrOf (some d) ++ (pctStrOf Option.none ++ lnkStrOf [])))
            = (tx ++ (List.replicate k ' '
                ++ (' ' :: (glyphDate :: (' ' :: (natToC d.year
                    ++ ('-' :: (pad2 d.month ++ ['-'])))))))) ++ pad2 d.day from by
          simp [dueStrOf, pctStrOf, lnkStrOf, fmtYmd, lc, List.append_assoc]]
        exact rstripL_append_right (rstripL_pad2 d.day) (pad2_ne_nil d.day)
      | none => exact absurd ⟨rfl, rfl, rfl⟩ hne

/-- The separator width left in front of the metadata tail after the
priority stage: a glyph leaves its separator behind as an extra space
unless the tail is empty, in which case strip removes it. -/
def prGapOf (pr : Priority) (due : Option DateTime) (pctO : Option Nat) (ul : List LC) : Nat :=
  if pr = Priority.none then 0
  else if due = Option.none ∧ pctO = Option.none ∧ ul = [] then 0 else 1

/-- The priority stage of the item parser on an emitted body: it reads
back the emitted priority glyph (replace-all of exactly that glyph) and
leaves the text and metadata tail otherwise intact. -/
theorem prChain_clean (tk0 : Task) (tx : LC) (pr : Priority)
    (due : Option DateTime) (pctO : Option Nat) (ul : List LC)
    (htx : cleanText tx = true) (hul : ∀ w ∈ ul, cleanUrl w = true)
    (h0 : tk0.priority = Priority.none) :
    prChain tk0 (tx ++ (prioStrOf pr ++ (dueStrOf due ++ (pctStrOf pctO ++ lnkStrOf ul))))
      = (pr, tx ++ (List.replicate (prGapOf pr due pctO ul) ' '
          ++ (dueStrOf due ++ (pctStrOf pctO ++ lnkStrOf ul)))) := by
  have hT := tail_chars due pctO ul hul
  have htxg : ∀ c ∈ tx, c ≠ glyphHigh ∧ c ≠ glyphMed ∧ c ≠ glyphLow := by
    intro c hc
    have hr := reservedChar_false (cleanText_res htx c hc)
    exact ⟨hr.2.2.2.1, hr.2.2.2.2.1, hr.2.2.2.2.2.1⟩
  have hfilters : ∀ g : Char, (∀ c ∈ tx, c ≠ g) → (∀ c ∈ dueStrOf due
      ++ (pctStrOf pctO ++ lnkStrOf ul), c ≠ g) →
      ∀ pfx2 : LC,
      (tx ++ (pfx2 ++ (dueStrOf due ++ (pctStrOf pctO ++ lnkStrOf ul)))).filter
          (fun c => c ≠ g)
        = tx ++ (pfx2.filter (fun c => c ≠ g)
            ++ (dueStrOf due ++ (pctStrOf pctO ++ lnkStrOf ul))) := by
    intro g h1 h2 pfx2
    rw [List.filter_append, List.filter_append,
      filter_all (p := fun c => decide ¬(c = g)) (fun c hc => decide_eq_true (h1 c hc)),
      filter_all (p := fun c => decide ¬(c = g)) (fun c hc => decide_eq_true (h2 c hc))]
  have hstrip : ∀ hne : ¬(due = Option.none ∧ pctO = Option.none ∧ ul = []),
      stripL (tx ++ ([' ']
          ++ (dueStrOf due ++ (pctStrOf pctO ++ lnkStrOf ul))))
        = tx ++ (List.replicate 1 ' '
            ++ (dueStrOf due ++ (pctStrOf pctO ++ lnkStrOf ul))) :=
    fun hne => stripL_id_tail htx 1 due pctO ul hne
  cases pr with
  | none =>
    have hch : (tx ++ (prioStrOf Priority.none
        ++ (dueStrOf due ++ (pctStrOf pctO ++ lnkStrOf ul)))).contains glyphHigh = false := by
      apply contains_false
      intro c hc
      rcases List.mem_append.mp hc with h | h
      · exact (htxg c h).1
      · rw [show prioStrOf Priority.none = [] from rfl, List.nil_append] at h
        exact (hT c h).1
    have hcm : (tx ++ (prioStrOf Priority.none
        ++ (dueStrOf due ++ (pctStrOf pctO ++ lnkStrOf ul)))).contains glyphMed = false := by
      apply contains_false
      intro c hc
      rcases List.mem_append.mp hc with h | h
      · exact (htxg c h).2.1
      · rw [show prioStrOf Priority.none = [] from rfl, List.nil_append] at h
        exact (hT c h).2.1
    have hcl : (tx ++ (prioStrOf Priority.none
        ++ (dueStrOf due ++ (pctStrOf pctO ++ lnkStrOf ul)))).contains glyphLow = false := by
      apply contains_false
      intro c hc
      rcases List.mem_append.mp hc with h | h
      · exact (htxg c h).2.2
      · rw [show prioStrOf Priority.none = [] from rfl, List.nil_append] at h
        exact (hT c h).2.2
    unfold prChain
    rw [hch, hcm, hcl]
    simp only [Bool.false_eq_true, if_false]
    rw [h0]
    rfl
  | high =>
    have hcon : (tx ++ (prioStrOf Priority.high
        ++ (dueStrOf due ++ (pctStrOf pctO ++ lnkStrOf ul)))).contains glyphHigh = true := by
      apply contains_true
      simp [prioStrOf]
    unfold prChain
    rw [hcon]
    simp only [if_true]
    rw [hfilters glyphHigh (fun c hc => (htxg c hc).1) (fun c hc => (hT c hc).1) _,
      show (prioStrOf Priority.high).filter (fun c => c ≠ glyphHigh) = [' '] from by decide]
    by_cases hE : due = Option.none ∧ pctO = Option.none ∧ ul = []
    · obtain ⟨h1, h2, h3⟩ := hE
      subst h1 h2 h3
      rw [show dueStrOf Option.none ++ (pctStrOf Option.none ++ lnkStrOf []) = [] from rfl,
        List.append_nil,
        show ([' '] : LC) = List.replicate 1 ' ' from rfl, stripL_txSp htx 1]
      simp [prGapOf]
    · rw [hstrip hE]
      simp [prGapOf, hE]
  | medium =>
    have hch : (tx ++ (prioStrOf Priority.medium
        ++ (dueStrOf due ++ (pctStrOf pctO ++ lnkStrOf ul)))).contains glyphHigh = false := by
      apply contains_false
      intro c hc
      rcases List.mem_append.mp hc with h | h
      · exact (htxg c h).1
      · rcases List.mem_append.mp h with h | h
        · simp only [prioStrOf, List.mem_cons] at h
          rcases h with h | h
          · subst h; decide
          · simp at h; subst h; decide
        · exact (hT c h).1
    have hcon : (tx ++ (prioStrOf Priority.medium
        ++ (dueStrOf due ++ (pctStrOf pctO ++ lnkStrOf ul)))).contains glyphMed = true := by
      apply contains_true
      simp [prioStrOf]
    unfold prChain
    rw [hch, hcon]
    simp only [Bool.false_eq_true, if_false, if_true]
    rw [hfilters glyphMed (fun c hc => (htxg c hc).2.1) (fun c hc => (hT c hc).2.1) _,
      show (prioStrOf Priority.medium).filter (fun c => c ≠ glyphMed) = [' '] from by decide]
    by_cases hE : due = Option.none ∧ pctO = Option.none ∧ ul = []
    · obtain ⟨h1, h2, h3⟩ := hE
      subst h1 h2 h3
      rw [show dueStrOf Option.none ++ (pctStrOf Option.none ++ lnkStrOf []) = [] from rfl,
        List.append_nil,
        show ([' '] : LC) = List.replicate 1 ' ' from rfl, stripL_txSp htx 1]
      simp [prGapOf]
    · rw [hstrip hE]
      simp [prGapOf, hE]
  | low =>
    have hch : (tx ++ (prioStrOf Priority.low
        ++ (dueStrOf due ++ (pctStrOf pctO ++ lnkStrOf ul)))).contains glyphHigh = false := by
      apply contains_false
      intro c hc
      rcases List.mem_append.mp hc with h | h
      · exact (htxg c h).1
      · rcases List.mem_append.mp h with h | h
        · simp only [prioStrOf, List.mem_cons] at h
          rcases h with h | h
          · subst h; decide
          · simp at h; subst h; decide
        · exact (hT c h).1
    have hcm : (tx ++ (prioStrOf Priority.low
        ++ (dueStrOf due ++ (pctStrOf pctO ++ lnkStrOf ul)))).contains glyphMed = false := by
      apply contains_false
      intro c hc
      rcases List.mem_append.mp hc with h | h
      · exact (htxg c h).2.1
      · rcases List.mem_append.mp h with h | h
        · simp only [prioStrOf, List.mem_cons] at h
          rcases h with h | h
          · subst h; decide
          · simp at h; subst h; decide
        · exact (hT c h).2.1
    have hcon : (tx ++ (prioStrOf Priority.low
        ++ (dueStrOf due ++ (pctStrOf pctO ++ lnkStrOf ul)))).contains glyphLow = true := by
      apply contains_true
      simp [prioStrOf]
    unfold prChain
    rw [hch, hcm, hcon]
    simp only [Bool.false_eq_true, if_false, if_true]
    rw [hfilters glyphLow (fun c hc => (htxg c hc).2.2) (fun c hc => (hT c hc).2.2) _,
      show (prioStrOf Priority.low).filter (fun c => c ≠ glyphLow) = [' '] from by decide]
    by_cases hE : due = Option.none ∧ pctO = Option.none ∧ ul = []
    · obtain ⟨h1, h2, h3⟩ := hE
      subst h1 h2 h3
      rw [show dueStrOf Option.none ++ (pctStrOf Option.none ++ lnkStrOf []) = [] from rfl,
        List.append_nil,
        show ([' '] : LC) = List.replicate 1 ' ' from rfl, stripL_txSp htx 1]
      simp [prGapOf]
    · rw [hstrip hE]
      simp [prGapOf, hE]

/-! ### Claim C2: what one list item round-trips to -/

/-- The task the round trip reconstructs from an emitted task: only the
start date is lost (it is never encoded). -/
def convTask (tk : Task) : Task :=
  { percentage := tk.percentage, priority := tk.priority, due := tk.due,
    start := Option.none }

/-- The hyperlink the round trip reconstructs: the URL with an empty
display text (the markdown link text is always the link glyph). -/
def convLink (h : Hyperlink) : Hyperlink := { url := h.url }

/-- The childless topic the item parser reconstructs from one item line. -/
def convFlat (t : Topic) : Topic :=
  .mk [] t.text (t.task.map convTask) [] (t.links.map convLink)
    Option.none Option.none [] []

theorem dueUpd_none_left (d : Option DateTime) : dueUpd Option.none d = d := by
  cases d <;> rfl

theorem pfx_append_self : ∀ p s : LC, pfx p (p ++ s) = true := by
  intro p
  induction p with
  | nil => intro s; rfl
  | cons c t ih =>
    intro s
    show (c == c && pfx t (t ++ s)) = true
    rw [beq_self_eq_true, ih s]
    rfl

theorem pfx_brk_false {c : Char} (hc : c ≠ '[') (p2 s2 : LC) :
    pfx ('[' :: p2) (c :: s2) = false := by
  show (('[' == c) && pfx p2 s2) = false
  rw [beq_eq_false_iff_ne.mpr (Ne.symm hc)]
  rfl

theorem pfx_x_sp (X : LC) : pfx (lc "[x] ") (lc "[ ] " ++ X) = false := rfl

theorem checkboxOf_checked {tk : Task} (h : 100 ≤ tk.percentage) :
    checkboxOf (some tk) = lc "[x] " := by
  have hs : tk.status = TaskStatus.complete := by
    unfold Task.status
    rw [if_pos h]
  show (if tk.status = TaskStatus.complete then lc "[x] " else lc "[ ] ") = lc "[x] "
  rw [if_pos hs]

theorem checkboxOf_unchecked {tk : Task} (h : ¬ 100 ≤ tk.percentage) :
    checkboxOf (some tk) = lc "[ ] " := by
  have hs : tk.status ≠ TaskStatus.complete := by
    unfold Task.status
    rw [if_neg h]
    split <;> decide
  show (if tk.status = TaskStatus.complete then lc "[x] " else lc "[ ] ") = lc "[ ] "
  rw [if_neg hs]

theorem pctEmit_of_mid {tk : Task} (h1 : 0 < tk.percentage) (h2 : tk.percentage < 100) :
    pctEmit tk = some tk.percentage.toNat := by
  unfold pctEmit
  rw [if_pos (by simp [h1, h2])]

theorem pctEmit_none_hi {tk : Task} (h : ¬ tk.percentage < 100) : pctEmit tk = Option.none := by
  unfold pctEmit
  rw [if_neg (by simp [h])]

theorem pctEmit_none_lo {tk : Task} (h : ¬ 0 < tk.percentage) : pctEmit tk = Option.none := by
  unfold pctEmit
  rw [if_neg (by simp [h])]

theorem linkTextOf_lnkStr (li : List Hyperlink) :
    linkTextOf li = lnkStrOf (li.map (fun h2 => h2.url)) := by
  cases li with
  | nil => rfl
  | cons a as =>
    rw [linkTextOf_eq (by simp)]
    rfl

theorem rstripL_tx {tx : LC} (htx : cleanText tx = true) : rstripL tx = tx :=
  (strip_stable_both (cleanText_strip htx)).2

/-- The item body (everything after the indent and the list marker) is
strip-stable on the right. -/
theorem body_rstrip (tkO : Option Task) (tx : LC) (li : List Hyperlink)
    (htx : cleanText tx = true) :
    rstripL (checkboxOf tkO ++ (tx ++ (taskMetaOf tkO ++ linkTextOf li)))
      = checkboxOf tkO ++ (tx ++ (taskMetaOf tkO ++ linkTextOf li)) := by
  cases li with
  | cons a as =>
    rw [linkTextOf_lnkStr (a :: as)]
    rw [show checkboxOf tkO ++ (tx ++ (taskMetaOf tkO
        ++ lnkStrOf ((a :: as).map (fun h2 => h2.url))))
        = (checkboxOf tkO ++ (tx ++ (taskMetaOf tkO ++ [' '])))
          ++ linksRender ((a :: as).map (fun h2 => h2.url)) from by
      simp [lnkStrOf, List.append_assoc]]
    rcases hm : (a :: as).map (fun h2 => h2.url) with _ | ⟨u, us⟩
    · simp at hm
    · rw [hm]
      exact rstripL_append_right (linksRender_rstrip u us) (linksRender_ne_nil u us)
  | nil =>
    rw [show linkTextOf [] = [] from rfl]
    cases tkO with
    | none =>
      rw [show checkboxOf Option.none = [] from rfl,
        show taskMetaOf Option.none = [] from rfl]
      simp only [List.nil_append, List.append_nil]
      exact rstripL_tx htx
    | some tk =>
      rw [taskMetaOf_shape tk]
      cases hpe : pctEmit tk with
      | some n =>
        rw [show checkboxOf (some tk) ++ (tx ++ ((prioStrOf tk.priority
            ++ (dueStrOf tk.due ++ pctStrOf (some n))) ++ []))
            = (checkboxOf (some tk) ++ (tx ++ (prioStrOf tk.priority
                ++ (dueStrOf tk.due ++ (' ' :: ('(' :: (natToC n ++ ['%'])))))))
              ++ [')'] from by
          simp [pctStrOf, lc, List.append_assoc]]
        exact rstripL_append_right (by decide) (by simp)
      | none =>
        cases hdu : tk.due with
        | some d =>
          rw [show checkboxOf (some tk) ++ (tx ++ ((prioStrOf tk.priority
              ++ (dueStrOf (some d) ++ pctStrOf Option.none)) ++ []))
              = (checkboxOf (some tk) ++ (tx ++ (prioStrOf tk.priority
                  ++ (' ' :: (glyphDate :: (' ' :: (natToC d.year
                      ++ ('-' :: (pad2 d.month ++ ['-'])))))))))
                ++ pad2 d.day from by
            simp [dueStrOf, pctStrOf, fmtYmd, lc, List.append_assoc]]
          exact rstripL_append_right (rstripL_pad2 d.day) (pad2_ne_nil d.day)
        | none =>
          cases hpr : tk.priority with
          | none =>
            rw [show prioStrOf Priority.none = [] from rfl,
              show dueStrOf Option.none = [] from rfl,
              show pctStrOf Option.none = [] from rfl]
            simp only [List.nil_append, List.append_nil]
            exact rstripL_append_right (rstripL_tx htx) (cleanText_ne_nil htx)
          | high =>
            rw [show checkboxOf (some tk) ++ (tx ++ ((prioStrOf Priority.high
                ++ (dueStrOf Option.none ++ pctStrOf Option.none)) ++ []))
                = (checkboxOf (some tk) ++ (tx ++ [' '])) ++ [glyphHigh] from by
              simp [prioStrOf, dueStrOf, pctStrOf, List.append_assoc]]
            exact rstripL_append_right (by decide) (by simp)
          | medium =>
            rw [show checkboxOf (some tk) ++ (tx ++ ((prioStrOf Priority.medium
                ++ (dueStrOf Option.none ++ pctStrOf Option.none)) ++ []))
                = (checkboxOf (some tk) ++ (tx ++ [' '])) ++ [glyphMed] from by
              simp [prioStrOf, dueStrOf, pctStrOf, List.append_assoc]]
            exact rstripL_append_right (by decide) (by simp)
          | low =>
            rw [show checkboxOf (some tk) ++ (tx ++ ((prioStrOf Priority.low
                ++ (dueStrOf Option.none ++ pctStrOf Option.none)) ++ []))
                = (checkboxOf (some tk) ++ (tx ++ [' '])) ++ [glyphLow] from by
              simp [prioStrOf, dueStrOf, pctStrOf, List.append_assoc]]
            exact rstripL_append_right (by decide) (by simp)

theorem body_ne (tkO : Option Task) (tx : LC) (li : List Hyperlink)
    (htx : cleanText tx = true) :
    checkboxOf tkO ++ (tx ++ (taskMetaOf tkO ++ linkTextOf li)) ≠ [] := by
  cases tkO with
  | none =>
    rw [show checkboxOf Option.none = [] from rfl, List.nil_append]
    intro h
    rw [List.append_eq_nil] at h
    exact (cleanText_ne_nil htx) h.1
  | some tk =>
    show (if tk.status = TaskStatus.complete then lc "[x] " else lc "[ ] ") ++ _ ≠ []
    split <;> simp [lc]

/-- One emitted list-item body parses back to exactly the converted
topic: same text, task with only the start date dropped, URLs kept with
empty display text. -/
theorem parseMdItem_clean (tx : LC) (tkO : Option Task) (li : List Hyperlink)
    (htx : cleanText tx = true)
    (htk : ∀ tk, tkO = some tk → cleanTask tk = true)
    (hli : ∀ h2 ∈ li, cleanUrl h2.url = true) :
    parseMdItem (checkboxOf tkO ++ (tx ++ (taskMetaOf tkO ++ linkTextOf li)))
      = .ok (.mk [] tx (tkO.map convTask) [] (li.map convLink)
          Option.none Option.none [] []) := by
  have hul : ∀ w ∈ li.map (fun h2 => h2.url), cleanUrl w = true := by
    intro w hw
    obtain ⟨h2, hh2, hwe⟩ := List.mem_map.mp hw
    rw [← hwe]
    exact hli h2 hh2
  obtain ⟨c0, tx2, hcs⟩ := List.exists_cons_of_ne_nil (cleanText_ne_nil htx)
  have hc0 : c0 ≠ '[' := by
    have h := reservedChar_false (cleanText_res htx c0
      (by rw [hcs]; exact List.mem_cons_self _ _))
    exact h.2.2.1
  cases tkO with
  | none =>
    rw [show checkboxOf Option.none = [] from rfl,
      show taskMetaOf Option.none = [] from rfl, List.nil_append, List.nil_append,
      linkTextOf_lnkStr li]
    have hx : ¬ (pfx (lc "[x] ") (tx ++ lnkStrOf (li.map (fun h2 => h2.url))) = true) := by
      rw [hcs, List.cons_append,
        show lc "[x] " = '[' :: lc "x] " from rfl, pfx_brk_false hc0]
      simp
    have hb : ¬ (pfx (lc "[ ] ") (tx ++ lnkStrOf (li.map (fun h2 => h2.url))) = true) := by
      rw [hcs, List.cons_append,
        show lc "[ ] " = '[' :: lc " ] " from rfl, pfx_brk_false hc0]
      simp
    rw [parseMdItem_split, if_neg hx, if_neg hb]
    rcases hm : li.map (fun h2 => h2.url) with _ | ⟨u, us⟩
    · rw [hm, show lnkStrOf ([] : List LC) = [] from rfl, List.append_nil]
      have hle : linkExtractAux tx = ([], tx) := by
        apply linkExtractAux_clean
        intro c hc
        exact (reservedChar_false (cleanText_res htx c hc)).2.2.1
      rw [hle]
      dsimp only
      rw [cleanText_strip htx, cleanText_strip htx]
      rw [show li = [] from List.map_eq_nil.mp hm]
      rfl
    · have hu : cleanUrl u = true := hul u (by rw [hm]; exact List.mem_cons_self u us)
      have hus : ∀ w ∈ us, cleanUrl w = true := fun w hw =>
        hul w (by rw [hm]; exact List.mem_cons_of_mem u hw)
      rw [hm, show tx ++ lnkStrOf (u :: us)
          = (tx ++ List.replicate 1 ' ') ++ linksRender (u :: us) from by
        simp [lnkStrOf, List.append_assoc],
        linkExtractAux_append (txSp_no_brk htx 1) _, linkExtractAux_links us u hu hus]
      dsimp only
      rw [show (tx ++ List.replicate 1 ' ') ++ List.replicate us.length ' '
          = tx ++ List.replicate (1 + us.length) ' ' from by
        rw [List.append_assoc, ← List.replicate_add],
        stripL_txSp htx, cleanText_strip htx, ← hm, List.map_map]
      rfl
  | some tk =>
    obtain ⟨pc, pr, du, st⟩ := tk
    have hct := htk _ rfl
    rw [show cleanTask ⟨pc, pr, du, st⟩
        = (decide (0 ≤ pc) && decide (pc ≤ 100) && cleanDue du) from rfl] at hct
    simp only [Bool.and_eq_true, decide_eq_true_eq] at hct
    obtain ⟨⟨h0le, h100⟩, hdue2⟩ := hct
    rw [taskMetaOf_shape, linkTextOf_lnkStr li]
    dsimp only
    rw [show (prioStrOf pr ++ (dueStrOf du ++ pctStrOf (pctEmit ⟨pc, pr, du, st⟩)))
          ++ lnkStrOf (li.map (fun h2 => h2.url))
        = prioStrOf pr ++ (dueStrOf du ++ (pctStrOf (pctEmit ⟨pc, pr, du, st⟩)
            ++ lnkStrOf (li.map (fun h2 => h2.url)))) from by
      simp [List.append_assoc]]
    by_cases hck : 100 ≤ pc
    · have hpc100 : pc = 100 := by omega
      have hpe : pctEmit ⟨pc, pr, du, st⟩ = Option.none := pctEmit_none_hi (by
        show ¬ (pc < 100)
        omega)
      rw [checkboxOf_checked (show 100 ≤ (⟨pc, pr, du, st⟩ : Task).percentage from hck), hpe]

      rw [parseMdItem_split, if_pos (pfx_append_self (lc "[x] ") _)]
      rw [show (lc "[x] " ++ (tx ++ (prioStrOf pr ++ (dueStrOf du ++ (pctStrOf Option.none
          ++ lnkStrOf (li.map (fun h2 => h2.url))))))).drop 4
          = tx ++ (prioStrOf pr ++ (dueStrOf du ++ (pctStrOf Option.none
            ++ lnkStrOf (li.map (fun h2 => h2.url))))) from rfl]
      unfold mdPipelineG
      rw [prChain_clean { percentage := 100 } tx pr du Option.none _ htx hul rfl]
      dsimp only
      rw [mdDueBind_clean { percentage := 100, priority := pr } tx
        (prGapOf pr du Option.none (li.map (fun h2 => h2.url))) du Option.none _
        htx hdue2 hul (fun n hn => absurd hn (by simp))]
      show Except.ok (Topic.mk [] tx
          (some (Task.mk (pctUpd 100 Option.none) pr (dueUpd Option.none du) Option.none))
          [] ((li.map (fun h2 => h2.url)).map (fun u => ({ url := u } : Hyperlink)))
          Option.none Option.none [] []) = _
      rw [dueUpd_none_left,
        show pctUpd 100 Option.none = (100 : Int) from rfl, ← hpc100, List.map_map]
      rfl
    · have hck2 : pc < 100 := by omega
      rw [checkboxOf_unchecked (show ¬ 100 ≤ (⟨pc, pr, du, st⟩ : Task).percentage from hck)]
      by_cases hz : 0 < pc
      · have hpe : pctEmit ⟨pc, pr, du, st⟩ = some pc.toNat :=
          pctEmit_of_mid hz hck2
        rw [hpe, parseMdItem_split,
          if_neg (show ¬ (pfx (lc "[x] ") (lc "[ ] " ++ (tx ++ (prioStrOf pr
            ++ (dueStrOf du ++ (pctStrOf (some pc.toNat)
              ++ lnkStrOf (li.map (fun h2 => h2.url))))))) = true) from by
            rw [pfx_x_sp]
            simp),
          if_pos (pfx_append_self (lc "[ ] ") _)]
        rw [show (lc "[ ] " ++ (tx ++ (prioStrOf pr ++ (dueStrOf du
            ++ (pctStrOf (some pc.toNat)
              ++ lnkStrOf (li.map (fun h2 => h2.url))))))).drop 4
            = tx ++ (prioStrOf pr ++ (dueStrOf du ++ (pctStrOf (some pc.toNat)
              ++ lnkStrOf (li.map (fun h2 => h2.url))))) from rfl]
        unfold mdPipelineG
        rw [prChain_clean {} tx pr du (some pc.toNat) _ htx hul rfl]
        dsimp only
        rw [mdDueBind_clean { priority := pr } tx
          (prGapOf pr du (some pc.toNat) (li.map (fun h2 => h2.url))) du (some pc.toNat) _
          htx hdue2 hul (fun n hn => by show (0 : Int) < 100; decide)]
        show Except.ok (Topic.mk [] tx
            (some (Task.mk (pctUpd 0 (some pc.toNat)) pr (dueUpd Option.none du) Option.none))
            [] ((li.map (fun h2 => h2.url)).map (fun u => ({ url := u } : Hyperlink)))
            Option.none Option.none [] []) = _
        rw [dueUpd_none_left,
          show pctUpd 0 (some pc.toNat) = (pc.toNat : Int) from rfl,
          Int.toNat_of_nonneg h0le, List.map_map]
        rfl
      · have hpc0 : pc = 0 := by omega
        have hpe : pctEmit ⟨pc, pr, du, st⟩ = Option.none := pctEmit_none_lo hz
        rw [hpe, parseMdItem_split,
          if_neg (show ¬ (pfx (lc "[x] ") (lc "[ ] " ++ (tx ++ (prioStrOf pr
            ++ (dueStrOf du ++ (pctStrOf Option.none
              ++ lnkStrOf (li.map (fun h2 => h2.url))))))) = true) from by
            rw [pfx_x_sp]
            simp),
          if_pos (pfx_append_self (lc "[ ] ") _)]
        rw [show (lc "[ ] " ++ (tx ++ (prioStrOf pr ++ (dueStrOf du
            ++ (pctStrOf Option.none
              ++ lnkStrOf (li.map (fun h2 => h2.url))))))).drop 4
            = tx ++ (prioStrOf pr ++ (dueStrOf du ++ (pctStrOf Option.none
              ++ lnkStrOf (li.map (fun h2 => h2.url))))) from rfl]
        unfold mdPipelineG
        rw [prChain_clean {} tx pr du Option.none _ htx hul rfl]
        dsimp only
        rw [mdDueBind_clean { priority := pr } tx
          (prGapOf pr du Option.none (li.map (fun h2 => h2.url))) du Option.none _
          htx hdue2 hul (fun n hn => absurd hn (by simp))]
        show Except.ok (Topic.mk [] tx
            (some (Task.mk (pctUpd 0 Option.none) pr (dueUpd Option.none du) Option.none))
            [] ((li.map (fun h2 => h2.url)).map (fun u => ({ url := u } : Hyperlink)))
            Option.none Option.none [] []) = _
        rw [dueUpd_none_left,
          show pctUpd 0 Option.none = (0 : Int) from rfl, ← hpc0, List.map_map]
        rfl

theorem itemLine_shape (t : Topic) (d : Nat) :
    itemLine t d = List.replicate (2 * d) ' '
      ++ (lc "- " ++ (checkboxOf t.task ++ (t.text
        ++ (taskMetaOf t.task ++ linkTextOf t.links)))) := by
  simp [itemLine, List.append_assoc]

theorem lstripL_itemLine (t : Topic) (d : Nat) :
    lstripL (itemLine t d)
      = lc "- " ++ (checkboxOf t.task ++ (t.text
          ++ (taskMetaOf t.task ++ linkTextOf t.links))) := by
  rw [itemLine_shape, lstripL_replicate_sp]
  exact lstripL_cons_nws (by decide) _

theorem stripL_itemLine (t : Topic) (d : Nat) (htx : cleanText t.text = true) :
    stripL (itemLine t d)
      = lc "- " ++ (checkboxOf t.task ++ (t.text
          ++ (taskMetaOf t.task ++ linkTextOf t.links))) := by
  unfold stripL
  rw [lstripL_itemLine]
  exact rstripL_append_right (body_rstrip t.task t.text t.links htx)
    (body_ne t.task t.text t.links htx)

theorem itemLine_level (t : Topic) (d : Nat) :
    ((itemLine t d).length - (lstripL (itemLine t d)).length) / 2 = d := by
  rw [lstripL_itemLine, itemLine_shape, List.length_append, List.length_replicate]
  omega

/-- One loop iteration on an emitted item line while a branch is open:
it inserts the converted topic at the emitted indent level. -/
theorem stepLine_item (done : List Topic) (br : Branch) (t : Topic) (d : Nat)
    (htx : cleanText t.text = true)
    (htk : ∀ tk, t.task = some tk → cleanTask tk = true)
    (hli : ∀ h2 ∈ t.links, cleanUrl h2.url = true) :
    stepLine ⟨done, some br⟩ (itemLine t d)
      = .ok ⟨done, some (insertItem br d (convFlat t))⟩ := by
  have hstr := stripL_itemLine t d htx
  have hlvl := itemLine_level t d
  unfold stepLine
  rw [hstr]
  rw [if_neg (show ¬ (pfx (lc "## ") (lc "- " ++ (checkboxOf t.task ++ (t.text
      ++ (taskMetaOf t.task ++ linkTextOf t.links)))) = true) from by
    rw [show pfx (lc "## ") (lc "- " ++ (checkboxOf t.task ++ (t.text
      ++ (taskMetaOf t.task ++ linkTextOf t.links)))) = false from rfl]
    simp)]
  rw [if_pos (pfx_append_self (lc "- ") _)]
  dsimp only
  rw [show (lc "- " ++ (checkboxOf t.task ++ (t.text
      ++ (taskMetaOf t.task ++ linkTextOf t.links)))).drop 2
      = checkboxOf t.task ++ (t.text ++ (taskMetaOf t.task ++ linkTextOf t.links)) from rfl]
  rw [parseMdItem_clean t.text t.task t.links htx htk hli, hlvl]
  rfl

/-! ### Claim C2: the branch loop

The Python loop mutates the stacked topics in place; the functional
model replays each insertion on the branch state.  afterTopic and
afterList are the exact composites of those insertions, and the master
lemma below shows that popping the resulting state at or below the
insertion level is the same as appending the fully converted subtrees
to the enclosing entry. -/

mutual

/-- The branch state after the loop has consumed every line of one
topic rendered at a depth. -/
def afterTopic (br : Branch) (d : Nat) : Topic → Branch
  | .mk o tx tk ic li no st ra cs =>
    afterList (insertItem br d (convFlat (.mk o tx tk ic li no st ra cs))) (d + 1) cs

/-- The branch state after the loop has consumed a rendered sibling
list. -/
def afterList (br : Branch) (d : Nat) : List Topic → Branch
  | [] => br
  | c :: cs => afterList (afterTopic br d c) d cs

end

mutual

/-- The topic the round trip reconstructs: the flat conversion with the
converted children attached. -/
def convTopic : Topic → Topic
  | .mk o tx tk ic li no st ra cs =>
    .mk [] tx (tk.map convTask) [] (li.map convLink) Option.none Option.none []
      (convTopicList cs)

def convTopicList : List Topic → List Topic
  | [] => []
  | c :: cs => convTopic c :: convTopicList cs

end

mutual

def topicSize : Topic → Nat
  | .mk _ _ _ _ _ _ _ _ cs => 1 + listSize cs

def listSize : List Topic → Nat
  | [] => 0
  | c :: cs => topicSize c + listSize cs

end

mutual

/-- Cleanliness of a whole rendered subtree. -/
def cleanTopic : Topic → Bool
  | .mk _ tx tk _ li _ _ _ cs =>
    cleanText tx && (match tk with | some k => cleanTask k | Option.none => true) &&
    li.all (fun h2 => cleanUrl h2.url) && cleanTopicList cs

def cleanTopicList : List Topic → Bool
  | [] => true
  | c :: cs => cleanTopic c && cleanTopicList cs

end

theorem topicSize_pos (t : Topic) : 1 ≤ topicSize t := by
  cases t with
  | mk o tx tk ic li no st ra cs =>
    show 1 ≤ 1 + listSize cs
    omega

/-- Append completed topics where the in-place mutation had attached
them: to the open top entry, or to the finished branch children. -/
def spPush (bk : List Topic) (sp : List SpineEntry) (ks : List Topic) :
    List Topic × List SpineEntry :=
  match sp with
  | [] => (bk ++ ks, [])
  | e :: r => (bk, { e with kids := e.kids ++ ks } :: r)

def brPush (br : Branch) (ks : List Topic) : Branch :=
  ⟨br.btext, (spPush br.bkids br.spine ks).1, (spPush br.bkids br.spine ks).2⟩

theorem popGEAux_lt {sp : List SpineEntry} {lvl : Nat} (h : ∀ e ∈ sp, e.indent < lvl)
    (bk : List Topic) : popGEAux lvl bk sp = (bk, sp) := by
  cases sp with
  | nil => rfl
  | cons e r =>
    obtain ⟨i, dt, k⟩ := e
    unfold popGEAux popGEAcc
    rw [if_neg (by
      have h2 := h ⟨i, dt, k⟩ (List.mem_cons_self _ _)
      simp only [SpineEntry.indent] at h2 ⊢
      omega)]
    rfl

theorem popGEAcc_cons_le {lvl : Nat} {e : SpineEntry} (h : lvl ≤ e.indent)
    (bk : List Topic) (pend : Option Topic) (r : List SpineEntry) :
    popGEAcc lvl bk pend (e :: r)
      = popGEAcc lvl bk (some (e.data.withChildren (appOpt e.kids pend))) r := by
  obtain ⟨i, dt, k⟩ := e
  show (if lvl ≤ i then popGEAcc lvl bk (some (dt.withChildren (appOpt k pend))) r
        else (bk, ⟨i, dt, appOpt k pend⟩ :: r))
      = popGEAcc lvl bk (some (dt.withChildren (appOpt k pend))) r
  rw [if_pos h]

theorem popGEAcc_some (lvl : Nat) (bk : List Topic) (x : Topic) (sp : List SpineEntry) :
    popGEAcc lvl bk (some x) sp
      = popGEAcc lvl (spPush bk sp [x]).1 Option.none (spPush bk sp [x]).2 := by
  cases sp with
  | nil => rfl
  | cons e r =>
    obtain ⟨i, dt, k⟩ := e
    by_cases h : lvl ≤ i
    · show popGEAcc lvl bk (some x) (⟨i, dt, k⟩ :: r)
        = popGEAcc lvl bk Option.none (⟨i, dt, k ++ [x]⟩ :: r)
      unfold popGEAcc
      rw [if_pos h, if_pos h]
      rfl
    · show popGEAcc lvl bk (some x) (⟨i, dt, k⟩ :: r)
        = popGEAcc lvl bk Option.none (⟨i, dt, k ++ [x]⟩ :: r)
      unfold popGEAcc
      rw [if_neg h, if_neg h]
      rfl

theorem brPush_nil (br : Branch) : brPush br [] = br := by
  obtain ⟨bt, bk, sp⟩ := br
  cases sp with
  | nil => simp [brPush, spPush]
  | cons e r =>
    obtain ⟨i, dt, k⟩ := e
    simp [brPush, spPush]

theorem brPush_push (br : Branch) (ks ks2 : List Topic) :
    brPush (brPush br ks) ks2 = brPush br (ks ++ ks2) := by
  obtain ⟨bt, bk, sp⟩ := br
  cases sp with
  | nil => simp [brPush, spPush, List.append_assoc]
  | cons e r =>
    obtain ⟨i, dt, k⟩ := e
    simp [brPush, spPush, List.append_assoc]

theorem brPush_btext (br : Branch) (ks : List Topic) : (brPush br ks).btext = br.btext := rfl

theorem brPush_spine_lt {br : Branch} {d : Nat} (h : ∀ e ∈ br.spine, e.indent < d)
    (ks : List Topic) : ∀ e ∈ (brPush br ks).spine, e.indent < d := by
  obtain ⟨bt, bk, sp⟩ := br
  cases sp with
  | nil =>
    intro e he
    simp [brPush, spPush] at he
  | cons e0 r =>
    obtain ⟨i0, dt0, k0⟩ := e0
    intro e he
    simp only [brPush, spPush] at he
    rcases List.mem_cons.mp he with h2 | h2
    · subst h2
      have h3 := h ⟨i0, dt0, k0⟩ (List.mem_cons_self _ _)
      simpa using h3
    · exact h e (List.mem_cons_of_mem _ h2)

theorem insertItem_btext (br : Branch) (lvl : Nat) (x : Topic) :
    (insertItem br lvl x).btext = br.btext := rfl

theorem insertItem_ext {b1 b2 : Branch} (lvl : Nat) (x : Topic) (hb : b1.btext = b2.btext)
    (hp : popGEAux lvl b1.bkids b1.spine = popGEAux lvl b2.bkids b2.spine) :
    insertItem b1 lvl x = insertItem b2 lvl x := by
  unfold insertItem popGEAux at *
  rw [hb, hp]

theorem after_btext : ∀ n : Nat,
    (∀ t : Topic, topicSize t ≤ n → ∀ (br : Branch) (d : Nat),
      (afterTopic br d t).btext = br.btext)
    ∧ (∀ ts : List Topic, listSize ts ≤ n → ∀ (br : Branch) (d : Nat),
      (afterList br d ts).btext = br.btext) := by
  intro n
  induction n using Nat.strong_induction_on with
  | _ n ih =>
    have hP1 : ∀ t : Topic, topicSize t ≤ n → ∀ (br : Branch) (d : Nat),
        (afterTopic br d t).btext = br.btext := by
      intro t ht br d
      cases t with
      | mk o tx tk ic li no st ra cs =>
        have hcs : listSize cs < n := by
          have he : topicSize (Topic.mk o tx tk ic li no st ra cs) = 1 + listSize cs := rfl
          omega
        show (afterList (insertItem br d
          (convFlat (Topic.mk o tx tk ic li no st ra cs))) (d + 1) cs).btext = br.btext
        rw [(ih (listSize cs) hcs).2 cs le_rfl _ (d + 1), insertItem_btext]
    refine ⟨hP1, ?_⟩
    intro ts hts br d
    cases ts with
    | nil => rfl
    | cons c cs =>
      have h1 := topicSize_pos c
      have hsz : listSize (c :: cs) = topicSize c + listSize cs := rfl
      have hcs : listSize cs < n := by omega
      show (afterList (afterTopic br d c) d cs).btext = br.btext
      rw [(ih (listSize cs) hcs).2 cs le_rfl _ d, hP1 c (by omega) br d]

/-- Master lemma: popping the state left by a rendered subtree at or
below its level is popping the original state with the fully converted
subtree pushed where the in-place mutations had attached it. -/
theorem afterMaster : ∀ n : Nat,
    (∀ t : Topic, topicSize t ≤ n → ∀ (br : Branch) (d : Nat),
      (∀ e ∈ br.spine, e.indent < d) → ∀ lvl, lvl ≤ d →
      popGEAux lvl (afterTopic br d t).bkids (afterTopic br d t).spine
        = popGEAux lvl (brPush br [convTopic t]).bkids (brPush br [convTopic t]).spine)
    ∧ (∀ ts : List Topic, listSize ts ≤ n → ∀ (br : Branch) (d : Nat),
      (∀ e ∈ br.spine, e.indent < d) → ∀ lvl, lvl ≤ d →
      popGEAux lvl (afterList br d ts).bkids (afterList br d ts).spine
        = popGEAux lvl (brPush br (convTopicList ts)).bkids
            (brPush br (convTopicList ts)).spine) := by
  intro n
  induction n using Nat.strong_induction_on with
  | _ n ih =>
    have hP1 : ∀ t : Topic, topicSize t ≤ n → ∀ (br : Branch) (d : Nat),
        (∀ e ∈ br.spine, e.indent < d) → ∀ lvl, lvl ≤ d →
        popGEAux lvl (afterTopic br d t).bkids (afterTopic br d t).spine
          = popGEAux lvl (brPush br [convTopic t]).bkids
              (brPush br [convTopic t]).spine := by
      intro t ht br d hsp lvl hlvl
      cases t with
      | mk o tx tk ic li no st ra cs =>
        have hcs : listSize cs < n := by
          have he : topicSize (Topic.mk o tx tk ic li no st ra cs) = 1 + listSize cs := rfl
          omega
        show popGEAux lvl
            (afterList (insertItem br d
              (convFlat (Topic.mk o tx tk ic li no st ra cs))) (d + 1) cs).bkids
            (afterList (insertItem br d
              (convFlat (Topic.mk o tx tk ic li no st ra cs))) (d + 1) cs).spine = _
        have hins : insertItem br d (convFlat (Topic.mk o tx tk ic li no st ra cs))
            = ⟨br.btext, br.bkids,
                ⟨d, convFlat (Topic.mk o tx tk ic li no st ra cs), []⟩ :: br.spine⟩ := by
          unfold insertItem popGEAux
          rw [show popGEAcc d br.bkids Option.none br.spine
              = popGEAux d br.bkids br.spine from rfl, popGEAux_lt hsp]
        rw [hins]
        have hsp2 : ∀ e ∈ (⟨br.btext, br.bkids,
            ⟨d, convFlat (Topic.mk o tx tk ic li no st ra cs), []⟩ :: br.spine⟩ :
              Branch).spine, e.indent < d + 1 := by
          intro e he
          rcases List.mem_cons.mp he with h2 | h2
          · subst h2
            show d < d + 1
            omega
          · have h3 := hsp e h2
            omega
        rw [(ih (listSize cs) hcs).2 cs le_rfl _ (d + 1) hsp2 lvl (by omega)]
        rw [show brPush ⟨br.btext, br.bkids,
            ⟨d, convFlat (Topic.mk o tx tk ic li no st ra cs), []⟩ :: br.spine⟩
              (convTopicList cs)
            = ⟨br.btext, br.bkids,
                ⟨d, convFlat (Topic.mk o tx tk ic li no st ra cs),
                  convTopicList cs⟩ :: br.spine⟩ from by
          simp [brPush, spPush]]
        show popGEAcc lvl br.bkids Option.none
            (⟨d, convFlat (Topic.mk o tx tk ic li no st ra cs),
              convTopicList cs⟩ :: br.spine) = _
        rw [popGEAcc_cons_le (show lvl ≤ (⟨d, convFlat (Topic.mk o tx tk ic li no st ra cs),
            convTopicList cs⟩ : SpineEntry).indent from hlvl), popGEAcc_some]
        rfl
    refine ⟨hP1, ?_⟩
    intro ts hts br d hsp lvl hlvl
    cases ts with
    | nil =>
      rw [show convTopicList [] = [] from rfl, brPush_nil]
      rfl
    | cons c cs =>
      have h1 := topicSize_pos c
      have hsz : listSize (c :: cs) = topicSize c + listSize cs := rfl
      show popGEAux lvl (afterList (afterTopic br d c) d cs).bkids
          (afterList (afterTopic br d c) d cs).spine = _
      cases cs with
      | nil =>
        show popGEAux lvl (afterTopic br d c).bkids (afterTopic br d c).spine = _
        rw [hP1 c (by omega) br d hsp lvl hlvl]
        rfl
      | cons u us =>
        have hbt : (afterTopic br d c).btext = (brPush br [convTopic c]).btext := by
          rw [(after_btext (topicSize c)).1 c le_rfl br d, brPush_btext]
        have hA := insertItem_ext d (convFlat u) hbt (hP1 c (by omega) br d hsp d le_rfl)
        have hAT : afterTopic (afterTopic br d c) d u
            = afterTopic (brPush br [convTopic c]) d u := by
          cases u with
          | mk o tx tk ic li no st ra cs2 =>
            show afterList (insertItem (afterTopic br d c) d
                (convFlat (Topic.mk o tx tk ic li no st ra cs2))) (d + 1) cs2
              = afterList (insertItem (brPush br [convTopic c]) d
                (convFlat (Topic.mk o tx tk ic li no st ra cs2))) (d + 1) cs2
            rw [hA]
        show popGEAux lvl
            (afterList (afterTopic (afterTopic br d c) d u) d us).bkids
            (afterList (afterTopic (afterTopic br d c) d u) d us).spine = _
        rw [hAT]
        have hszuus : listSize (u :: us) < n := by
          have he2 : listSize (u :: us) = topicSize u + listSize us := rfl
          omega
        have hspB : ∀ e ∈ (brPush br [convTopic c]).spine, e.indent < d :=
          brPush_spine_lt hsp _
        rw [show afterList (afterTopic (brPush br [convTopic c]) d u) d us
            = afterList (brPush br [convTopic c]) d (u :: us) from rfl]
        rw [(ih (listSize (u :: us)) hszuus).2 (u :: us) le_rfl _ d hspB lvl hlvl]
        rw [brPush_push]
        rfl

/-- Closing the branch after a rendered forest yields exactly the
converted forest as the branch children. -/
theorem closeBranch_afterList (btext : LC) (ts : List Topic) :
    closeBranch (afterList ⟨btext, [], []⟩ 0 ts)
      = (Topic.base btext).withChildren (convTopicList ts) := by
  unfold closeBranch
  rw [(after_btext (listSize ts)).2 ts le_rfl ⟨btext, [], []⟩ 0]
  show (Topic.base btext).withChildren
      ((popGEAux 0 (afterList ⟨btext, [], []⟩ 0 ts).bkids
        (afterList ⟨btext, [], []⟩ 0 ts).spine).1) = _
  rw [(afterMaster (listSize ts)).2 ts le_rfl ⟨btext, [], []⟩ 0
    (by intro e he; simp at he) 0 le_rfl]
  rfl

/-! ### Claim C2: running the loop over the emitted lines -/

theorem runLines_append (a b : List LC) : ∀ st : MDState,
    runLines st (a ++ b) = (runLines st a).bind (fun st2 => runLines st2 b) := by
  induction a with
  | nil => intro st; rfl
  | cons l t ih =>
    intro st
    rw [show runLines st ((l :: t) ++ b)
        = (match stepLine st l with
           | Except.ok st2 => runLines st2 (t ++ b)
           | Except.error e => Except.error e) from rfl,
      show runLines st (l :: t)
        = (match stepLine st l with
           | Except.ok st2 => runLines st2 t
           | Except.error e => Except.error e) from rfl]
    cases h : stepLine st l with
    | ok st2 =>
      dsimp only
      exact ih st2
    | error e => rfl

theorem stepLine_nil (st : MDState) : stepLine st [] = .ok st := rfl

theorem stepLine_note (st : MDState) (m : Nat) (x : LC) :
    stepLine st (List.replicate m ' ' ++ ('>' :: x)) = .ok st := by
  have hl : lstripL (List.replicate m ' ' ++ ('>' :: x)) = '>' :: x := by
    rw [lstripL_replicate_sp]
    exact lstripL_cons_nws (by decide) _
  have hs : stripL (List.replicate m ' ' ++ ('>' :: x)) = '>' :: rstripL x := by
    unfold stripL
    rw [hl, rstripL_cons_nws (by decide)]
  unfold stepLine
  rw [hs]
  rw [if_neg (by
      rw [show pfx (lc "## ") ('>' :: rstripL x) = false from rfl]
      simp),
    if_neg (by
      rw [show pfx (lc "- ") ('>' :: rstripL x) = false from rfl]
      simp)]

theorem runLines_note_block (st : MDState) (m : Nat) (ls : List LC) :
    runLines st (ls.map (fun nl => List.replicate m ' ' ++ lc "  > " ++ nl)) = .ok st := by
  induction ls with
  | nil => rfl
  | cons l t ih =>
    show runLines st ((List.replicate m ' ' ++ lc "  > " ++ l) :: _) = .ok st
    unfold runLines
    rw [show List.replicate m ' ' ++ lc "  > " ++ l
        = List.replicate (m + 2) ' ' ++ ('>' :: (' ' :: l)) from by
      rw [List.replicate_add]
      simp [lc, List.append_assoc], stepLine_note]
    exact ih

theorem runLines_notes (st : MDState) (t : Topic) (d : Nat) :
    runLines st (noteLinesOf t d) = .ok st := by
  unfold noteLinesOf
  split
  · split
    · exact runLines_note_block st _ _
    · rfl
  · rfl

/-- Running the rendered lines of a clean subtree replays exactly the
corresponding insertions on the branch state. -/
theorem runMaster : ∀ n : Nat,
    (∀ t : Topic, topicSize t ≤ n → cleanTopic t = true →
      ∀ (br : Branch) (d : Nat) (done : List Topic),
      runLines ⟨done, some br⟩ (topicToMd t d) = .ok ⟨done, some (afterTopic br d t)⟩)
    ∧ (∀ ts : List Topic, listSize ts ≤ n → cleanTopicList ts = true →
      ∀ (br : Branch) (d : Nat) (done : List Topic),
      runLines ⟨done, some br⟩ (topicToMdList ts d) = .ok ⟨done, some (afterList br d ts)⟩) := by
  intro n
  induction n using Nat.strong_induction_on with
  | _ n ih =>
    have hP1 : ∀ t : Topic, topicSize t ≤ n → cleanTopic t = true →
        ∀ (br : Branch) (d : Nat) (done : List Topic),
        runLines ⟨done, some br⟩ (topicToMd t d)
          = .ok ⟨done, some (afterTopic br d t)⟩ := by
      intro t ht hcl br d done
      cases t with
      | mk o tx tk ic li no st ra cs =>
        have hcs : listSize cs < n := by
          have he : topicSize (Topic.mk o tx tk ic li no st ra cs) = 1 + listSize cs := rfl
          omega
        have parts : cleanText tx = true ∧ (∀ k, tk = some k → cleanTask k = true) ∧
            li.all (fun h2 => cleanUrl h2.url) = true ∧ cleanTopicList cs = true := by
          cases tk with
          | none =>
            rw [show cleanTopic (Topic.mk o tx Option.none ic li no st ra cs)
                = (cleanText tx && true && li.all (fun h2 => cleanUrl h2.url)
                   && cleanTopicList cs) from rfl] at hcl
            simp only [Bool.and_eq_true] at hcl
            exact ⟨hcl.1.1.1, fun k hk => by simp at hk, hcl.1.2, hcl.2⟩
          | some k0 =>
            rw [show cleanTopic (Topic.mk o tx (some k0) ic li no st ra cs)
                = (cleanText tx && cleanTask k0 && li.all (fun h2 => cleanUrl h2.url)
                   && cleanTopicList cs) from rfl] at hcl
            simp only [Bool.and_eq_true] at hcl
            refine ⟨hcl.1.1.1, ?_, hcl.1.2, hcl.2⟩
            intro k hk
            injection hk with hk2
            rw [← hk2]
            exact hcl.1.1.2
        obtain ⟨htx, htk0, hli0, hcls⟩ := parts
        have htk : ∀ k, (Topic.mk o tx tk ic li no st ra cs).task = some k →
            cleanTask k = true := htk0
        have hli : ∀ h2 ∈ (Topic.mk o tx tk ic li no st ra cs).links,
            cleanUrl h2.url = true := by
          intro h2 hh2
          exact List.all_eq_true.mp hli0 h2 hh2
        show runLines ⟨done, some br⟩
            (itemLine (Topic.mk o tx tk ic li no st ra cs) d ::
              (noteLinesOf (Topic.mk o tx tk ic li no st ra cs) d
                ++ topicToMdList cs (d + 1))) = _
        unfold runLines
        rw [stepLine_item done br (Topic.mk o tx tk ic li no st ra cs) d htx htk hli]
        dsimp only
        rw [runLines_append]
        rw [runLines_notes]
        show runLines ⟨done, some (insertItem br d
            (convFlat (Topic.mk o tx tk ic li no st ra cs)))⟩
          (topicToMdList cs (d + 1)) = _
        exact (ih (listSize cs) hcs).2 cs le_rfl hcls _ (d + 1) done
    refine ⟨hP1, ?_⟩
    intro ts hts hcl br d done
    cases ts with
    | nil => rfl
    | cons c cs =>
      have h1 := topicSize_pos c
      have hsz : listSize (c :: cs) = topicSize c + listSize cs := rfl
      have hcs : listSize cs < n := by omega
      rw [show cleanTopicList (c :: cs) = (cleanTopic c && cleanTopicList cs) from rfl] at hcl
      simp only [Bool.and_eq_true] at hcl
      show runLines ⟨done, some br⟩ (topicToMd c d ++ topicToMdList cs d) = _
      rw [runLines_append, hP1 c (by omega) hcl.1 br d done]
      exact (ih (listSize cs) hcs).2 cs le_rfl hcl.2 _ d done

/-- The depth-one topic the round trip reconstructs from a branch:
heading text and converted children only. -/
def convBranch (b : Topic) : Topic :=
  (Topic.base b.text).withChildren (convTopicList b.children)

/-- Cleanliness of a depth-one branch topic: only its heading text and
its rendered subtree matter. -/
def cleanBranch (b : Topic) : Bool :=
  cleanText b.text && cleanTopicList b.children

/-- The branch a state closes into when the loop leaves it. -/
def closeOpt : Option Branch → List Topic
  | some br => [closeBranch br]
  | Option.none => []

theorem stepLine_heading (st : MDState) (btext : LC) (hb : cleanText btext = true) :
    stepLine st (lc "## " ++ btext)
      = .ok ⟨st.done ++ closeOpt st.cur, some ⟨btext, [], []⟩⟩ := by
  have hs : stripL (lc "## " ++ btext) = lc "## " ++ btext := by
    unfold stripL
    rw [show lstripL (lc "## " ++ btext) = lc "## " ++ btext from
      lstripL_cons_nws (by decide) _]
    exact rstripL_append_right (rstripL_tx hb) (cleanText_ne_nil hb)
  unfold stepLine
  rw [hs, if_pos (pfx_append_self (lc "## ") btext),
    show (lc "## " ++ btext).drop 3 = btext from rfl, cleanText_strip hb]
  rfl

/-- Running all branch blocks from any state and then finishing: the
previously open branch closes, and every rendered branch contributes
its converted topic, in order. -/
theorem runBranches : ∀ bs : List Topic, (∀ b ∈ bs, cleanBranch b = true) →
    ∀ (done : List Topic) (cur : Option Branch),
    ∃ stF, runLines ⟨done, cur⟩ (bs.map branchLines).flatten = .ok stF ∧
      finishBranches stF = done ++ closeOpt cur ++ bs.map convBranch := by
  intro bs
  induction bs with
  | nil =>
    intro _ done cur
    refine ⟨⟨done, cur⟩, rfl, ?_⟩
    cases cur <;> simp [finishBranches, closeOpt]
  | cons b bs2 ih =>
    intro hcl done cur
    have hb := hcl b (List.mem_cons_self b bs2)
    rw [show cleanBranch b = (cleanText b.text && cleanTopicList b.children) from rfl] at hb
    simp only [Bool.and_eq_true] at hb
    rw [show ((b :: bs2).map branchLines).flatten
        = branchLines b ++ (bs2.map branchLines).flatten from by simp]
    rw [runLines_append]
    have hrun : runLines ⟨done, cur⟩ (branchLines b)
        = .ok ⟨done ++ closeOpt cur, some (afterList ⟨b.text, [], []⟩ 0 b.children)⟩ := by
      show runLines ⟨done, cur⟩ ((lc "## " ++ b.text)
        :: ([] :: (topicToMdList b.children 0 ++ [[]]))) = _
      unfold runLines
      rw [stepLine_heading ⟨done, cur⟩ b.text hb.1]
      dsimp only
      show runLines ⟨done ++ closeOpt cur, some ⟨b.text, [], []⟩⟩
        ([] :: (topicToMdList b.children 0 ++ [[]])) = _
      unfold runLines
      rw [stepLine_nil]
      dsimp only
      rw [runLines_append,
        (runMaster (listSize b.children)).2 b.children le_rfl hb.2 ⟨b.text, [], []⟩ 0
          (done ++ closeOpt cur)]
      show runLines ⟨done ++ closeOpt cur,
        some (afterList ⟨b.text, [], []⟩ 0 b.children)⟩ [[]] = _
      unfold runLines
      rw [stepLine_nil]
      rfl
    rw [hrun]
    obtain ⟨stF, h1, h2⟩ := ih (fun b2 hb2 => hcl b2 (List.mem_cons_of_mem b hb2))
      (done ++ closeOpt cur) (some (afterList ⟨b.text, [], []⟩ 0 b.children))
    refine ⟨stF, h1, ?_⟩
    rw [h2]
    rw [show closeOpt (some (afterList ⟨b.text, [], []⟩ 0 b.children))
        = [convBranch b] from by
      show [closeBranch (afterList ⟨b.text, [], []⟩ 0 b.children)] = [convBranch b]
      rw [closeBranch_afterList]
      rfl]
    simp [List.append_assoc]

/-! ### Claim C2: splitting the joined document recovers the lines -/

theorem splitNL_ne_nil (s : LC) : splitNL s ≠ [] := by
  induction s with
  | nil => simp [splitNL]
  | cons c t ih =>
    show (match splitNL t with
          | [] => [[]]
          | r :: rs => if c = '\n' then [] :: r :: rs else (c :: r) :: rs) ≠ []
    cases h : splitNL t with
    | nil => simp
    | cons r rs =>
      dsimp only
      split <;> simp

theorem splitNL_free {l : LC} (h : '\n' ∉ l) : splitNL l = [l] := by
  induction l with
  | nil => rfl
  | cons c t ih =>
    have hc : c ≠ '\n' := fun he => h (he ▸ List.mem_cons_self c t)
    have ht : '\n' ∉ t := fun hm => h (List.mem_cons_of_mem c hm)
    show (match splitNL t with
          | [] => [[]]
          | r :: rs => if c = '\n' then [] :: r :: rs else (c :: r) :: rs) = [c :: t]
    rw [ih ht]
    dsimp only
    rw [if_neg hc]

theorem splitNL_append_nl {l : LC} (h : '\n' ∉ l) (X : LC) :
    splitNL (l ++ ('\n' :: X)) = l :: splitNL X := by
  induction l with
  | nil =>
    show (match splitNL X with
          | [] => [[]]
          | r :: rs => if '\n' = '\n' then [] :: r :: rs else ('\n' :: r) :: rs)
        = [] :: splitNL X
    cases hX : splitNL X with
    | nil => exact absurd hX (splitNL_ne_nil X)
    | cons r rs =>
      dsimp only
      rw [if_pos rfl]
  | cons c t ih =>
    have hc : c ≠ '\n' := fun he => h (he ▸ List.mem_cons_self c t)
    have ht : '\n' ∉ t := fun hm => h (List.mem_cons_of_mem c hm)
    show (match splitNL (t ++ ('\n' :: X)) with
          | [] => [[]]
          | r :: rs => if c = '\n' then [] :: r :: rs else (c :: r) :: rs)
        = (c :: t) :: splitNL X
    rw [ih ht]
    dsimp only
    rw [if_neg hc]

theorem splitNL_joinNL : ∀ ls : List LC, ls ≠ [] → (∀ l ∈ ls, '\n' ∉ l) →
    splitNL (joinNL ls) = ls := by
  intro ls
  induction ls with
  | nil => intro h; exact absurd rfl h
  | cons l t ih =>
    intro _ hnl
    cases t with
    | nil =>
      show splitNL (joinNL [l]) = [l]
      rw [show joinNL [l] = l from by simp [joinNL, List.intersperse]]
      exact splitNL_free (hnl l (List.mem_cons_self l []))
    | cons l2 t2 =>
      rw [show joinNL (l :: l2 :: t2) = l ++ ('\n' :: joinNL (l2 :: t2)) from by
        simp [joinNL, List.intersperse, lc]]
      rw [splitNL_append_nl (hnl l (List.mem_cons_self _ _))]
      rw [ih (by simp) (fun x hx => hnl x (List.mem_cons_of_mem l hx))]

theorem splitNL_no_nl : ∀ s : LC, ∀ p ∈ splitNL s, '\n' ∉ p := by
  intro s
  induction s with
  | nil =>
    intro p hp
    simp [splitNL] at hp
    rw [hp]
    simp
  | cons c t ih =>
    intro p hp
    have hsh : splitNL (c :: t)
        = match splitNL t with
          | [] => [[]]
          | r :: rs => if c = '\n' then [] :: r :: rs else (c :: r) :: rs := rfl
    rw [hsh] at hp
    cases hT : splitNL t with
    | nil => exact absurd hT (splitNL_ne_nil t)
    | cons r rs =>
      rw [hT] at hp
      dsimp only at hp
      by_cases hc : c = '\n'
      · rw [if_pos hc] at hp
        rcases List.mem_cons.mp hp with h2 | h2
        · rw [h2]; simp
        · exact ih p (by rw [hT]; exact h2)
      · rw [if_neg hc] at hp
        rcases List.mem_cons.mp hp with h2 | h2
        · rw [h2]
          intro hm
          rcases List.mem_cons.mp hm with h3 | h3
          · exact hc h3.symm
          · exact ih r (by rw [hT]; exact List.mem_cons_self r rs) h3
        · exact ih p (by rw [hT]; exact List.mem_cons_of_mem r h2)

theorem stripL_head {c : Char} (hc : isWS c = false) (x : LC) :
    stripL (c :: x) = c :: rstripL x := by
  unfold stripL
  rw [lstripL_cons_nws hc, rstripL_cons_nws hc]

/-! ### Claim C2: no emitted line contains a newline -/

theorem nl_natToC (n : Nat) : '\n' ∉ natToC n := by
  intro h
  exact absurd (natToC_digits n '\n' h) (by decide)

theorem nl_fmtYmd (d : DateTime) : '\n' ∉ fmtYmd d := by
  intro h
  rcases fmtYmd_chars d '\n' h with h2 | h2
  · exact absurd h2 (by decide)
  · exact absurd h2 (by decide)

theorem nl_taskMetaOf (tkO : Option Task) : '\n' ∉ taskMetaOf tkO := by
  cases tkO with
  | none => simp [taskMetaOf]
  | some tk =>
    rw [taskMetaOf_shape]
    intro h
    rcases List.mem_append.mp h with h | h
    · cases hp : tk.priority <;> rw [hp] at h <;> exact absurd h (by decide)
    · rcases List.mem_append.mp h with h | h
      · cases hd : tk.due with
        | none => rw [hd] at h; exact absurd h (by decide)
        | some d =>
          rw [hd] at h
          rcases List.mem_cons.mp h with h2 | h2
          · exact absurd h2 (by decide)
          rcases List.mem_cons.mp h2 with h3 | h3
          · exact absurd h3 (by decide)
          rcases List.mem_cons.mp h3 with h4 | h4
          · exact absurd h4 (by decide)
          · exact nl_fmtYmd d h4
      · cases hc : pctEmit tk with
        | none => rw [hc] at h; exact absurd h (by decide)
        | some p =>
          rw [hc] at h
          rcases List.mem_cons.mp h with h2 | h2
          · exact absurd h2 (by decide)
          rcases List.mem_cons.mp h2 with h3 | h3
          · exact absurd h3 (by decide)
          rcases List.mem_append.mp h3 with h4 | h4
          · exact nl_natToC p h4
          · exact absurd h4 (by decide)

theorem nl_checkboxOf (tkO : Option Task) : '\n' ∉ checkboxOf tkO := by
  cases tkO with
  | none => simp [checkboxOf]
  | some tk =>
    show '\n' ∉ (if tk.status = TaskStatus.complete then lc "[x] " else lc "[ ] ")
    by_cases h : tk.status = TaskStatus.complete
    · rw [if_pos h]; decide
    · rw [if_neg h]; decide

theorem nl_linkTextOf (li : List Hyperlink) (hli : ∀ h2 ∈ li, cleanUrl h2.url = true) :
    '\n' ∉ linkTextOf li := by
  rw [linkTextOf_lnkStr]
  cases li with
  | nil => simp [lnkStrOf]
  | cons a as =>
    show '\n' ∉ ' ' :: linksRender (a.url :: as.map (fun h2 => h2.url))
    intro h
    rcases List.mem_cons.mp h with h2 | h2
    · exact absurd h2 (by decide)
    · have hc := linksRender_chars (as.map (fun h2 => h2.url)) a.url
        (hli a (List.mem_cons_self a as))
        (by
          intro w hw
          rcases List.mem_map.mp hw with ⟨h3, hh3, he⟩
          rw [← he]
          exact hli h3 (List.mem_cons_of_mem a hh3)) '\n' h2
      rcases hc with h3 | h3 | h3 | h3 | h3 | h3 | h3
      · exact absurd h3 (by decide)
      · exact absurd h3 (by decide)
      · exact absurd h3 (by decide)
      · exact absurd h3 (by decide)
      · exact absurd h3 (by decide)
      · exact absurd h3 (by decide)
      · exact absurd h3.1 (by decide)

theorem nl_cleanText {tx : LC} (htx : cleanText tx = true) : '\n' ∉ tx := by
  intro h
  exact (reservedChar_false (cleanText_res htx '\n' h)).1 rfl

theorem nl_itemLine (t : Topic) (d : Nat) (htx : cleanText t.text = true)
    (hli : ∀ h2 ∈ t.links, cleanUrl h2.url = true) : '\n' ∉ itemLine t d := by
  rw [itemLine_shape]
  intro h
  rcases List.mem_append.mp h with h | h
  · exact absurd (List.mem_replicate.mp h).2 (by decide)
  rcases List.mem_append.mp h with h | h
  · exact absurd h (by decide)
  rcases List.mem_append.mp h with h | h
  · exact nl_checkboxOf t.task h
  rcases List.mem_append.mp h with h | h
  · exact nl_cleanText htx h
  rcases List.mem_append.mp h with h | h
  · exact nl_taskMetaOf t.task h
  · exact nl_linkTextOf t.links hli h

theorem nl_noteLinesOf (t : Topic) (d : Nat) : ∀ l ∈ noteLinesOf t d, '\n' ∉ l := by
  intro l hl
  unfold noteLinesOf at hl
  split at hl
  · split at hl
    · rcases List.mem_map.mp hl with ⟨nl, hnl, he⟩
      rw [← he]
      intro h
      rcases List.mem_append.mp h with h | h
      · rcases List.mem_append.mp h with h | h
        · exact absurd (List.mem_replicate.mp h).2 (by decide)
        · exact absurd h (by decide)
      · exact splitNL_no_nl _ nl hnl h
    · simp at hl
  · simp at hl

/-- Decompose the cleanliness of a topic into its four conjuncts. -/
theorem cleanTopic_parts (o : LC) (tx : LC) (tk : Option Task) (ic : List IconMarker)
    (li : List Hyperlink) (no : Option Note) (st : Option LC) (ra : List (LC × LC))
    (cs : List Topic)
    (hcl : cleanTopic (.mk o tx tk ic li no st ra cs) = true) :
    cleanText tx = true ∧ (∀ k, tk = some k → cleanTask k = true) ∧
    (∀ h2 ∈ li, cleanUrl h2.url = true) ∧ cleanTopicList cs = true := by
  cases tk with
  | none =>
    rw [show cleanTopic (Topic.mk o tx Option.none ic li no st ra cs)
        = (cleanText tx && true && li.all (fun h2 => cleanUrl h2.url)
           && cleanTopicList cs) from rfl] at hcl
    simp only [Bool.and_eq_true] at hcl
    exact ⟨hcl.1.1.1, fun k hk => by simp at hk,
      fun h2 hh2 => List.all_eq_true.mp hcl.1.2 h2 hh2, hcl.2⟩
  | some k0 =>
    rw [show cleanTopic (Topic.mk o tx (some k0) ic li no st ra cs)
        = (cleanText tx && cleanTask k0 && li.all (fun h2 => cleanUrl h2.url)
           && cleanTopicList cs) from rfl] at hcl
    simp only [Bool.and_eq_true] at hcl
    refine ⟨hcl.1.1.1, ?_, fun h2 hh2 => List.all_eq_true.mp hcl.1.2 h2 hh2, hcl.2⟩
    intro k hk
    injection hk with hk2
    rw [← hk2]
    exact hcl.1.1.2

/-- No line rendered for a clean subtree contains a newline. -/
theorem nl_lines_master : ∀ n : Nat,
    (∀ t : Topic, topicSize t ≤ n → cleanTopic t = true →
      ∀ d : Nat, ∀ l ∈ topicToMd t d, '\n' ∉ l)
    ∧ (∀ ts : List Topic, listSize ts ≤ n → cleanTopicList ts = true →
      ∀ d : Nat, ∀ l ∈ topicToMdList ts d, '\n' ∉ l) := by
  intro n
  induction n using Nat.strong_induction_on with
  | _ n ih =>
    have hP1 : ∀ t : Topic, topicSize t ≤ n → cleanTopic t = true →
        ∀ d : Nat, ∀ l ∈ topicToMd t d, '\n' ∉ l := by
      intro t ht hcl d l hl
      cases t with
      | mk o tx tk ic li no st ra cs =>
        have hcsn : listSize cs < n := by
          have he : topicSize (Topic.mk o tx tk ic li no st ra cs) = 1 + listSize cs := rfl
          omega
        obtain ⟨htx, htk, hli, hcls⟩ :=
          cleanTopic_parts o tx tk ic li no st ra cs hcl
        rw [show topicToMd (Topic.mk o tx tk ic li no st ra cs) d
            = itemLine (Topic.mk o tx tk ic li no st ra cs) d ::
              (noteLinesOf (Topic.mk o tx tk ic li no st ra cs) d
                ++ topicToMdList cs (d + 1)) from rfl] at hl
        rcases List.mem_cons.mp hl with h | h
        · rw [h]
          exact nl_itemLine (Topic.mk o tx tk ic li no st ra cs) d htx hli
        rcases List.mem_append.mp h with h | h
        · exact nl_noteLinesOf (Topic.mk o tx tk ic li no st ra cs) d l h
        · exact (ih (listSize cs) hcsn).2 cs le_rfl hcls (d + 1) l h
    refine ⟨hP1, ?_⟩
    intro ts hts hcl d l hl
    cases ts with
    | nil => simp [topicToMdList] at hl
    | cons c cs =>
      have h1 := topicSize_pos c
      have hsz : listSize (c :: cs) = topicSize c + listSize cs := rfl
      have hcsn : listSize cs < n := by omega
      rw [show cleanTopicList (c :: cs) = (cleanTopic c && cleanTopicList cs) from rfl] at hcl
      simp only [Bool.and_eq_true] at hcl
      rw [show topicToMdList (c :: cs) d = topicToMd c d ++ topicToMdList cs d from rfl] at hl
      rcases List.mem_append.mp hl with h | h
      · exact hP1 c (by omega) hcl.1 d l h
      · exact (ih (listSize cs) hcsn).2 cs le_rfl hcl.2 d l h

theorem nl_branchLines (b : Topic) (hb : cleanBranch b = true) :
    ∀ l ∈ branchLines b, '\n' ∉ l := by
  rw [show cleanBranch b = (cleanText b.text && cleanTopicList b.children) from rfl] at hb
  simp only [Bool.and_eq_true] at hb
  intro l hl
  rw [show branchLines b
      = (lc "## " ++ b.text) :: ([] :: (topicToMdList b.children 0 ++ [[]])) from rfl] at hl
  rcases List.mem_cons.mp hl with h | h
  · rw [h]
    intro h2
    rcases List.mem_append.mp h2 with h3 | h3
    · exact absurd h3 (by decide)
    · exact nl_cleanText hb.1 h3
  rcases List.mem_cons.mp h with h | h
  · rw [h]; simp
  rcases List.mem_append.mp h with h | h
  · exact (nl_lines_master (listSize b.children)).2 b.children le_rfl hb.2 0 l h
  · rw [List.mem_singleton.mp h]; simp

/-- Total cleanliness of a mind map for the outline round trip: a clean
root text and clean branch subtrees. -/
def cleanMap (m : MindMap) : Bool :=
  cleanText m.root.text && m.root.children.all cleanBranch

/-- The lines of the exported document, frontmatter included, in cons
form. -/
theorem toMarkdownLines_shape (now : LC) (m : MindMap) :
    toMarkdownLines now m true
      = lc "---" :: ((lc "title: \"" ++ (m.root.text ++ lc "\""))
        :: ((if m.sourcePath ≠ [] then [lc "source: \"" ++ (m.sourcePath ++ lc "\"")] else [])
          ++ ((lc "exported: \"" ++ (now ++ lc "\""))
            :: ((lc "topics: " ++ natToC m.root.count)
              :: (lc "---" :: ([] :: ((lc "# " ++ m.root.text)
                :: ([] :: (m.root.children.map branchLines).flatten)))))))) := by
  simp [toMarkdownLines, List.append_assoc]

theorem nl_toMarkdownLines (now : LC) (m : MindMap)
    (hnow : '\n' ∉ now) (hsp : '\n' ∉ m.sourcePath) (hm : cleanMap m = true) :
    ∀ l ∈ toMarkdownLines now m true, '\n' ∉ l := by
  have hroot : cleanText m.root.text = true := by
    simp only [cleanMap, Bool.and_eq_true] at hm
    exact hm.1
  have hbs : ∀ b ∈ m.root.children, cleanBranch b = true := by
    simp only [cleanMap, Bool.and_eq_true, List.all_eq_true] at hm
    exact hm.2
  intro l hl
  rw [toMarkdownLines_shape] at hl
  rcases List.mem_cons.mp hl with h | h
  · rw [h]; decide
  rcases List.mem_cons.mp h with h | h
  · rw [h]
    intro h2
    rcases List.mem_append.mp h2 with h3 | h3
    · exact absurd h3 (by decide)
    rcases List.mem_append.mp h3 with h4 | h4
    · exact nl_cleanText hroot h4
    · exact absurd h4 (by decide)
  rcases List.mem_append.mp h with h | h
  · have h2 : l = lc "source: \"" ++ (m.sourcePath ++ lc "\"") := by
      by_cases hs2 : m.sourcePath ≠ []
      · rw [if_pos hs2] at h
        exact List.mem_singleton.mp h
      · rw [if_neg hs2] at h
        simp at h
    rw [h2]
    intro h3
    rcases List.mem_append.mp h3 with h4 | h4
    · exact absurd h4 (by decide)
    rcases List.mem_append.mp h4 with h5 | h5
    · exact hsp h5
    · exact absurd h5 (by decide)
  rcases List.mem_cons.mp h with h | h
  · rw [h]
    intro h2
    rcases List.mem_append.mp h2 with h3 | h3
    · exact absurd h3 (by decide)
    rcases List.mem_append.mp h3 with h4 | h4
    · exact hnow h4
    · exact absurd h4 (by decide)
  rcases List.mem_cons.mp h with h | h
  · rw [h]
    intro h2
    rcases List.mem_append.mp h2 with h3 | h3
    · exact absurd h3 (by decide)
    · exact nl_natToC m.root.count h3
  rcases List.mem_cons.mp h with h | h
  · rw [h]; decide
  rcases List.mem_cons.mp h with h | h
  · rw [h]; simp
  rcases List.mem_cons.mp h with h | h
  · rw [h]
    intro h2
    rcases List.mem_append.mp h2 with h3 | h3
    · exact absurd h3 (by decide)
    · exact nl_cleanText hroot h3
  rcases List.mem_cons.mp h with h | h
  · rw [h]; simp
  · rcases List.mem_flatten.mp h with ⟨L, hL, hlL⟩
    rcases List.mem_map.mp hL with ⟨b, hb, he⟩
    rw [← he] at hlL
    exact nl_branchLines b (hbs b hb) l hlL

/-! ### Claim C2: skipping the emitted frontmatter and finding the
top-level heading -/

theorem fmSkip_cons {c : Char} (hws : isWS c = false) (hc : c ≠ '-') (x : LC)
    (rest : List LC) :
    List.dropWhile (fun l => stripL l ≠ lc "---") ((c :: x) :: rest)
      = List.dropWhile (fun l => stripL l ≠ lc "---") rest := by
  apply List.dropWhile_cons_of_pos
  apply decide_eq_true
  intro he
  rw [stripL_head hws] at he
  rw [show (lc "---" : LC) = '-' :: ('-' :: ('-' :: [])) from rfl] at he
  injection he with h1 _
  exact hc h1

theorem fmSkip_stop (rest : List LC) :
    List.dropWhile (fun l => stripL l ≠ lc "---") (lc "---" :: rest) = lc "---" :: rest := by
  apply List.dropWhile_cons_of_neg
  decide

theorem skipFM_emitted (now : LC) (m : MindMap) :
    skipFM (toMarkdownLines now m true)
      = [] :: ((lc "# " ++ m.root.text) :: ([] :: (m.root.children.map branchLines).flatten)) := by
  rw [toMarkdownLines_shape]
  unfold skipFM
  dsimp only
  rw [if_pos (show stripL (lc "---") = lc "---" from rfl)]
  rw [show lc "title: \"" ++ (m.root.text ++ lc "\"")
      = 't' :: (lc "itle: \"" ++ (m.root.text ++ lc "\"")) from rfl]
  rw [fmSkip_cons (by decide) (by decide)]
  have htail : List.dropWhile (fun l => stripL l ≠ lc "---")
      ((lc "exported: \"" ++ (now ++ lc "\""))
        :: ((lc "topics: " ++ natToC m.root.count)
          :: (lc "---" :: ([] :: ((lc "# " ++ m.root.text)
            :: ([] :: (m.root.children.map branchLines).flatten))))))
      = lc "---" :: ([] :: ((lc "# " ++ m.root.text)
          :: ([] :: (m.root.children.map branchLines).flatten))) := by
    rw [show lc "exported: \"" ++ (now ++ lc "\"")
        = 'e' :: (lc "xported: \"" ++ (now ++ lc "\"")) from rfl]
    rw [fmSkip_cons (by decide) (by decide)]
    rw [show lc "topics: " ++ natToC m.root.count
        = 't' :: (lc "opics: " ++ natToC m.root.count) from rfl]
    rw [fmSkip_cons (by decide) (by decide)]
    exact fmSkip_stop _
  by_cases hs2 : m.sourcePath ≠ []
  · rw [if_pos hs2]
    rw [List.singleton_append]
    rw [show lc "source: \"" ++ (m.sourcePath ++ lc "\"")
        = 's' :: (lc "ource: \"" ++ (m.sourcePath ++ lc "\"")) from rfl]
    rw [fmSkip_cons (by decide) (by decide), htail]
    rfl
  · rw [if_neg hs2, List.nil_append, htail]
    rfl

theorem findH1_skip {l : LC}
    (h : (pfx (lc "# ") (stripL l) && !pfx (lc "## ") (stripL l)) = false) (t : List LC) :
    findH1 (l :: t) = findH1 t := by
  show (if pfx (lc "# ") (stripL l) && !pfx (lc "## ") (stripL l)
        then (stripL ((stripL l).drop 2), t) else findH1 t) = findH1 t
  rw [h]
  simp

theorem findH1_hit {l : LC} (h : pfx (lc "# ") (stripL l) = true)
    (h2 : pfx (lc "## ") (stripL l) = false) (t : List LC) :
    findH1 (l :: t) = (stripL ((stripL l).drop 2), t) := by
  show (if pfx (lc "# ") (stripL l) && !pfx (lc "## ") (stripL l)
        then (stripL ((stripL l).drop 2), t) else findH1 t)
      = (stripL ((stripL l).drop 2), t)
  rw [h, h2]
  simp

theorem findH1_emitted (m : MindMap) (hroot : cleanText m.root.text = true) :
    findH1 ([] :: ((lc "# " ++ m.root.text)
        :: ([] :: (m.root.children.map branchLines).flatten)))
      = (m.root.text, [] :: (m.root.children.map branchLines).flatten) := by
  have hs : stripL (lc "# " ++ m.root.text) = lc "# " ++ m.root.text := by
    unfold stripL
    rw [show lstripL (lc "# " ++ m.root.text) = lc "# " ++ m.root.text from
      lstripL_cons_nws (by decide) _]
    exact rstripL_append_right (rstripL_tx hroot) (cleanText_ne_nil hroot)
  rw [findH1_skip (by decide)]
  rw [findH1_hit (by rw [hs]; exact pfx_append_self (lc "# ") m.root.text)
    (by rw [hs]; rfl)]
  rw [hs]
  rw [show (lc "# " ++ m.root.text).drop 2 = m.root.text from rfl]
  rw [cleanText_strip hroot]

/-- The mind map the outline round trip reconstructs from a clean map:
the root keeps only its text, depth-one branch topics keep only their
heading text, and deeper topics keep text, task (start date dropped) and
hyperlink URLs; the title is the heading text and the source path is
reset. -/
def mdExpected (m : MindMap) : MindMap :=
  { root := (Topic.base m.root.text).withChildren (m.root.children.map convBranch),
    title := m.root.text, sourcePath := [] }

/-- C2 amended.  For a clean mind map (topic texts nonempty, strip-stable
and free of reserved characters; hyperlink URLs nonempty and free of
reserved characters, the closing parenthesis and the percent sign;
percentages within 0..100; due dates at midnight with four-digit years)
and a newline-free export timestamp and source path, decoding the encoded
outline succeeds and returns exactly mdExpected: every list-item topic
(depth two and deeper) keeps its text, its checkbox-derived status, its
priority, its due date, its percentage and its hyperlink URLs, while the
root and the depth-one branch topics keep only their text. -/
theorem c2_outline_roundtrip (now : LC) (m : MindMap)
    (hnow : '\n' ∉ now) (hsp : '\n' ∉ m.sourcePath) (hm : cleanMap m = true) :
    fromMarkdown (toMarkdown now m) = .ok (mdExpected m) := by
  have hroot : cleanText m.root.text = true := by
    simp only [cleanMap, Bool.and_eq_true] at hm
    exact hm.1
  have hbs : ∀ b ∈ m.root.children, cleanBranch b = true := by
    simp only [cleanMap, Bool.and_eq_true, List.all_eq_true] at hm
    exact hm.2
  have hne : toMarkdownLines now m true ≠ [] := by
    rw [toMarkdownLines_shape]
    simp
  have hsplit : splitNL (toMarkdown now m) = toMarkdownLines now m true := by
    unfold toMarkdown
    exact splitNL_joinNL _ hne (nl_toMarkdownLines now m hnow hsp hm)
  obtain ⟨stF, hrl, hfin⟩ := runBranches m.root.children hbs [] Option.none
  unfold fromMarkdown
  rw [hsplit, skipFM_emitted, findH1_emitted m hroot]
  rw [show runLines ⟨[], Option.none⟩
        (([] : LC) :: (m.root.children.map branchLines).flatten)
      = runLines ⟨[], Option.none⟩ ((m.root.children.map branchLines).flatten) from rfl]
  rw [hrl]
  simp only [Except.map]
  rw [hfin]
  rfl

/-- C2 witness: a concrete clean map with a branch whose list item
carries a priority, a due date, a percentage and a hyperlink. -/
def c2WitTask : Task :=
  { percentage := 40, priority := Priority.medium, due := some ⟨2024, 5, 17, 0, 0, 0⟩ }

def c2WitMap : MindMap :=
  { root := Topic.mk [] (lc "Root") Option.none [] [] Option.none Option.none []
      [Topic.mk [] (lc "Branch") Option.none [] [] Option.none Option.none []
        [Topic.mk [] (lc "task a") (some c2WitTask) []
          [{ url := lc "http://x" }] Option.none Option.none [] []]],
    sourcePath := lc "notes.mmap" }

/-- C2 witness: the round-trip theorem applied at the concrete clean map,
every hypothesis discharged by evaluation. -/
theorem c2_outline_roundtrip_witness :
    '\n' ∉ lc "2024-05-17" ∧ '\n' ∉ c2WitMap.sourcePath ∧ cleanMap c2WitMap = true ∧
    fromMarkdown (toMarkdown (lc "2024-05-17") c2WitMap) = .ok (mdExpected c2WitMap) := by
  refine ⟨by decide, by decide, by decide, ?_⟩
  exact c2_outline_roundtrip (lc "2024-05-17") c2WitMap (by decide) (by decide) (by decide)

/-- C2 counterexample input: a depth-one branch topic carrying a task. -/
def c2ExTask : Task := { percentage := 100, priority := Priority.high }

def c2ExMap : MindMap :=
  { root := Topic.mk [] (lc "R") Option.none [] [] Option.none Option.none []
      [Topic.mk [] (lc "A") (some c2ExTask) [] [] Option.none Option.none [] []] }

/-- C2 counterexample.  A depth-one topic is rendered as a second-level
heading, which carries no checkbox, priority, due date or percentage, so
its task does not survive the round trip: the decoded branch topic has no
task at all, while the original task was complete with high priority.
This refutes the claim's "for every topic". -/
theorem c2_roundtrip_counterexample :
    ((fromMarkdown (toMarkdown (lc "t") c2ExMap)).map
        (fun mm => mm.root.children.map Topic.task))
      = .ok [Option.none]
    ∧ c2ExMap.root.children.map Topic.task = [some c2ExTask]
    ∧ c2ExTask.priority = Priority.high ∧ c2ExTask.status = TaskStatus.complete := by
  refine ⟨rfl, rfl, rfl, rfl⟩

end MT
